import Mathlib

/-!
# PAVLTree: a shallow embedding of `pavltree.cpp`

The C++ program keeps its nodes on the free store and links them with raw pointers
(`left`, `right`, `parent`).  The embedding keeps the free store as a list of nodes; a pointer is
`Option Nat` (`none` is `NULL`, `some a` is the address `a`, the index of the node in the list),
`new Node` appends a node.  Every function that dereferences a pointer returns `Option`: `none`
stands for a dereferenced null or dangling pointer, a failed `assert` of a rotation, or a loop
that used up its fuel.  Loops are recursions on a fuel argument; the public operations call
them with a fuel computed from the number of allocated nodes, and the theorems show that this
fuel is enough on every set a single thread can build.  The template parameter `T` is the type
`α` of the values, the function `hash` of `hash.hpp` is a parameter `hash : α → CInt`.

C++ `int` values are `Int`.  Keys are only compared; heights only grow by one per level of the
tree, so no arithmetic of the program can leave the 32-bit range before the store holds more
than `2^31` nodes.
-/

namespace pavltree

/-! ## Machine integers -/

/-- The values of a C++ `int` (32 bits, two's complement): the result type of `hash`. -/
def CInt : Type := { k : Int // -2147483648 ≤ k ∧ k < 2147483648 }

/-- Conversion `int → unsigned int` (reduction modulo `2^32`). -/
def toUnsigned (k : Int) : Nat := (k % 4294967296).toNat

/-- Conversion `unsigned int → int` (the two's complement reading). -/
def toInt (u : Nat) : Int := if u < 2147483648 then (u : Int) else (u : Int) - 4294967296

/-! ## Spin lock -/

/-- The C++ `class SpinLock`: one atomic boolean. -/
structure SpinLock where
  p : Bool
deriving DecidableEq, Repr

/-- The C++ function `SpinLock::SpinLock()`. -/
def SpinLock.new : SpinLock := { p := false }

/-- The C++ function `SpinLock::lock()`: `while(!this->p.exchange(true));`.  Each round stores
`true` and reads the old value; the loop goes on while the old value was `false`. -/
def SpinLock.lock : Nat → SpinLock → Option SpinLock
  | 0, _ => none
  | fuel + 1, l =>
    let old := l.p
    let l1 : SpinLock := { p := true }
    if !old then SpinLock.lock fuel l1 else some l1

/-- The C++ function `SpinLock::unlock()`. -/
def SpinLock.unlock (_l : SpinLock) : SpinLock := { p := false }

/-- The C++ function `SpinLock::try_lock()`. -/
def SpinLock.try_lock (l : SpinLock) : Bool := !l.p

/-! ## Nodes and the store -/

/-- The C++ `struct PTreeSet<T, Threads>::Node`. -/
structure Node where
  left : Option Nat
  right : Option Nat
  parent : Option Nat
  height : Int
  key : Int
  has_value : Bool
deriving DecidableEq, Repr

/-- The C++ function `Node::Node(unsigned int key, Node *parent)`: the key arrives as
`unsigned int` and is stored in a `const int`. -/
def Node.new (key : Nat) (parent : Option Nat) : Node :=
  { left := none, right := none, parent := parent, height := 0, key := toInt key,
    has_value := true }

/-- The free store: the node at address `a` is the `a`-th entry. -/
abbrev Store : Type := List Node

/-- Allocation `new Node (...)`: the new node gets the next free address. -/
def alloc (m : Store) (n : Node) : Store × Nat := (m ++ [n], m.length)

/-- Store to `a->left`. -/
def storeLeft (m : Store) (a : Nat) (v : Option Nat) : Option Store :=
  match m[a]? with
  | none => none
  | some n => some (m.set a { n with left := v })

/-- Store to `a->right`. -/
def storeRight (m : Store) (a : Nat) (v : Option Nat) : Option Store :=
  match m[a]? with
  | none => none
  | some n => some (m.set a { n with right := v })

/-- Store to `a->parent`. -/
def storeParent (m : Store) (a : Nat) (v : Option Nat) : Option Store :=
  match m[a]? with
  | none => none
  | some n => some (m.set a { n with parent := v })

/-- Store to `a->height`. -/
def storeHeight (m : Store) (a : Nat) (v : Int) : Option Store :=
  match m[a]? with
  | none => none
  | some n => some (m.set a { n with height := v })

/-- Store to `a->has_value`. -/
def storeHasValue (m : Store) (a : Nat) (v : Bool) : Option Store :=
  match m[a]? with
  | none => none
  | some n => some (m.set a { n with has_value := v })

/-- The C++ `class PTreeSet<T, Threads>`: the store, the pointer to the sentinel, the lock. -/
structure PTreeSet where
  heap : Store
  rootHolder : Nat
  balance_lock : SpinLock
deriving DecidableEq, Repr

/-- The C++ function `PTreeSet::PTreeSet()`: `rootHolder = new Node(0, NULL)`. -/
def PTreeSet.new : PTreeSet :=
  { heap := [Node.new 0 none], rootHolder := 0, balance_lock := SpinLock.new }

/-- The part of a function that runs under `std::lock_guard<Lock> l(balance_lock)`: the lock is
taken, the body runs on the store, the lock is released. -/
def lockGuard {β : Type} (s : PTreeSet) (body : Store → Option (Store × β)) :
    Option (PTreeSet × β) :=
  match SpinLock.lock 2 s.balance_lock with
  | none => none
  | some l =>
    match body s.heap with
    | none => none
    | some (m, r) => some ({ s with heap := m, balance_lock := l.unlock }, r)

/-! ## Node methods -/

/-- The expression `child == NULL ? 0 : 1 + child->height` of `fixHeight` and `bf`. -/
def childHeight (m : Store) (child : Option Nat) : Option Int :=
  match child with
  | none => some 0
  | some c =>
    match m[c]? with
    | none => none
    | some cn => some (1 + cn.height)

/-- The C++ function `Node::fixHeight()`. -/
def fixHeight (m : Store) (this : Nat) : Option Store := do
  let n ← m[this]?
  let lh ← childHeight m n.left
  let rh ← childHeight m n.right
  storeHeight m this (if lh > rh then lh else rh)

/-- The C++ function `Node::bf()`. -/
def bf (m : Store) (this : Nat) : Option Int := do
  let n ← m[this]?
  let rh ← childHeight m n.right
  let lh ← childHeight m n.left
  some (lh - rh)

/-- The C++ function `Node::rotateLeft()`. -/
def rotateLeft (m : Store) (this : Nat) : Option Store := do
  let n ← m[this]?
  let tR ← n.right
  let tP := n.parent
  let rn ← m[tR]?
  let tRL := rn.left
  let m ← storeRight m this tRL
  let m ← storeLeft m tR (some this)
  let tPa ← tP
  let pn ← m[tPa]?
  let m ← if pn.left = some this then storeLeft m tPa (some tR) else storeRight m tPa (some tR)
  let m ← storeParent m tR tP
  let m ← storeParent m this (some tR)
  let m ← match tRL with
    | none => some m
    | some rl => storeParent m rl (some this)
  let m ← fixHeight m this
  fixHeight m tR

/-- The C++ function `Node::rotateRight()`. -/
def rotateRight (m : Store) (this : Nat) : Option Store := do
  let n ← m[this]?
  let tL ← n.left
  let tP := n.parent
  let ln ← m[tL]?
  let tLR := ln.right
  let m ← storeLeft m this tLR
  let m ← storeRight m tL (some this)
  let tPa ← tP
  let pn ← m[tPa]?
  let m ← if pn.left = some this then storeLeft m tPa (some tL) else storeRight m tPa (some tL)
  let m ← storeParent m tL tP
  let m ← storeParent m this (some tL)
  let m ← match tLR with
    | none => some m
    | some lr => storeParent m lr (some this)
  let m ← fixHeight m this
  fixHeight m tL

/-- The C++ function `Node::doubleRotateLeft()`. -/
def doubleRotateLeft (m : Store) (this : Nat) : Option Store := do
  let n ← m[this]?
  let r ← n.right
  let rn ← m[r]?
  let m ← if rn.left ≠ none then rotateRight m r else some m
  rotateLeft m this

/-- The C++ function `Node::doubleRotateRight()`. -/
def doubleRotateRight (m : Store) (this : Nat) : Option Store := do
  let n ← m[this]?
  let l ← n.left
  let ln ← m[l]?
  let m ← if ln.right ≠ none then rotateLeft m l else some m
  rotateRight m this

/-! ## Set operations -/

/-- The loop of `PTreeSet::contains`, from the pointer `curr`. -/
def containsLoop (m : Store) (key : Int) : Nat → Option Nat → Option Bool
  | _, none => some false
  | 0, some _ => none
  | fuel + 1, some c =>
    match m[c]? with
    | none => none
    | some curr =>
      if curr.key = key then
        if curr.has_value then some true else some false
      else if curr.key > key then containsLoop m key fuel curr.left
      else containsLoop m key fuel curr.right

/-- The C++ function `PTreeSet::contains(T value)`. -/
def contains {α : Type} (hash : α → CInt) (s : PTreeSet) (value : α) : Option Bool :=
  let key := (hash value).val
  match s.heap[s.rootHolder]? with
  | none => none
  | some rh => containsLoop s.heap key s.heap.length rh.left

/-- The loop of `PTreeSet::remove`, from the pointer `curr`. -/
def removeLoop (m : Store) (key : Int) : Nat → Option Nat → Option (Store × Bool)
  | _, none => some (m, false)
  | 0, some _ => none
  | fuel + 1, some c =>
    match m[c]? with
    | none => none
    | some curr =>
      if curr.key = key then
        if curr.has_value then
          match storeHasValue m c false with
          | none => none
          | some m1 => some (m1, true)
        else some (m, false)
      else if curr.key > key then removeLoop m key fuel curr.left
      else removeLoop m key fuel curr.right

/-- The C++ function `PTreeSet::remove(T value)`. -/
def remove {α : Type} (hash : α → CInt) (s : PTreeSet) (value : α) : Option (PTreeSet × Bool) :=
  let key := (hash value).val
  match s.heap[s.rootHolder]? with
  | none => none
  | some rh =>
    match removeLoop s.heap key s.heap.length rh.left with
    | none => none
    | some (m, b) => some ({ s with heap := m }, b)

/-- The body of `PTreeSet::tryInsert(Node* parent, Node* node)` under its lock guard. -/
def tryInsertBody (parent node : Nat) (m : Store) : Option (Store × Bool) := do
  let p ← m[parent]?
  let n ← m[node]?
  if p.key > n.key then
    let pL := p.left
    if pL ≠ none then some (m, false)
    else do
      let m1 ← storeLeft m parent (some node)
      some (m1, true)
  else if p.key < n.key then
    let pR := p.right
    if pR ≠ none then some (m, false)
    else do
      let m1 ← storeRight m parent (some node)
      some (m1, true)
  else some (m, false)

/-- The C++ function `PTreeSet::tryInsert(Node* parent, Node* node)`. -/
def tryInsert (s : PTreeSet) (parent node : Nat) : Option (PTreeSet × Bool) :=
  lockGuard s (tryInsertBody parent node)

/-- The loop of `PTreeSet::fixHeightAndRebalance`, from the pointer `node`. -/
def fixHeightAndRebalanceLoop (rootHolder : Nat) (key : Int) :
    Nat → Store → Option Nat → Option Store
  | 0, _, _ => none
  | fuel + 1, m, node =>
    if node = some rootHolder then some m
    else do
      let a ← node
      let m ← fixHeight m a
      let b ← bf m a
      let m ←
        if b ≤ -2 then do
          let n ← m[a]?
          let r ← n.right
          let rn ← m[r]?
          if key > rn.key then rotateLeft m a else doubleRotateLeft m a
        else do
          let b2 ← bf m a
          if b2 ≥ 2 then do
            let n ← m[a]?
            let l ← n.left
            let ln ← m[l]?
            if key < ln.key then rotateRight m a else doubleRotateRight m a
          else some m
      let n ← m[a]?
      fixHeightAndRebalanceLoop rootHolder key fuel m n.parent

/-- The body of `PTreeSet::fixHeightAndRebalance(Node *node)`; `add` runs it under a lock
guard.  The loop visits every ancestor once, and once more the new subtree root after a
rotation. -/
def fixHeightAndRebalance (rootHolder : Nat) (node : Nat) (m : Store) : Option (Store × Unit) := do
  let n ← m[node]?
  let key := n.key
  let m ← fixHeightAndRebalanceLoop rootHolder key (2 * m.length + 2) m (some node)
  let rh ← m[rootHolder]?
  let m ← storeRight m rootHolder rh.left
  some (m, ())

/-- How one pass of `PTreeSet::add` from the label `Retry` ends. -/
inductive AddPass where
  /-- The function returned `b`. -/
  | ret (s : PTreeSet) (b : Bool)
  /-- The pass ended in `goto Retry`. -/
  | retry (s : PTreeSet)
  /-- The new node `node` was attached; the pass goes on to `fixHeightAndRebalance`. -/
  | attached (s : PTreeSet) (node : Nat)
deriving DecidableEq, Repr

/-- The `for (;;)` loop of `PTreeSet::add`, from the pointer `parent`. -/
def addDescend (key : Int) : Nat → PTreeSet → Nat → Option AddPass
  | 0, _, _ => none
  | fuel + 1, s, parent =>
    match s.heap[parent]? with
    | none => none
    | some p =>
      if p.key = key then
        if p.has_value then some (AddPass.ret s false)
        else
          match storeHasValue s.heap parent true with
          | none => none
          | some m => some (AddPass.ret { s with heap := m } true)
      else if p.key > key then
        if p.left ≠ none then
          match p.left with
          | none => some (AddPass.retry s)
          | some l => addDescend key fuel s l
        else
          let (m, node) := alloc s.heap (Node.new (toUnsigned key) (some parent))
          match tryInsert { s with heap := m } parent node with
          | none => none
          | some (s1, false) => some (AddPass.retry s1)
          | some (s1, true) => some (AddPass.attached s1 node)
      else
        if p.right ≠ none then
          match p.right with
          | none => some (AddPass.retry s)
          | some r => addDescend key fuel s r
        else
          let (m, node) := alloc s.heap (Node.new (toUnsigned key) (some parent))
          match tryInsert { s with heap := m } parent node with
          | none => none
          | some (s1, false) => some (AddPass.retry s1)
          | some (s1, true) => some (AddPass.attached s1 node)

/-- One pass of `PTreeSet::add` from the label `Retry` up to the block that rebalances. -/
def addPass (key : Int) (s : PTreeSet) : Option AddPass := do
  let rh ← s.heap[s.rootHolder]?
  if rh.left = none then
    let (m, node) := alloc s.heap (Node.new (toUnsigned key) (some s.rootHolder))
    let m ← storeLeft m s.rootHolder (some node)
    let rh1 ← m[s.rootHolder]?
    let m ← storeRight m s.rootHolder rh1.left
    let rh2 ← m[s.rootHolder]?
    let node ← rh2.left
    some (AddPass.attached { s with heap := m } node)
  else do
    let parent ← rh.left
    addDescend key s.heap.length s parent

/-- The passes of `PTreeSet::add`, one per `goto Retry`. -/
def addLoop (key : Int) : Nat → PTreeSet → Option (PTreeSet × Bool)
  | 0, _ => none
  | fuel + 1, s =>
    match addPass key s with
    | none => none
    | some (AddPass.ret s1 b) => some (s1, b)
    | some (AddPass.retry s1) => addLoop key fuel s1
    | some (AddPass.attached s1 node) =>
      match lockGuard s1 (fixHeightAndRebalance s1.rootHolder node) with
      | none => none
      | some (s2, _) => some (s2, true)

/-- The C++ function `PTreeSet::add(T value)`. -/
def add {α : Type} (hash : α → CInt) (s : PTreeSet) (value : α) : Option (PTreeSet × Bool) :=
  addLoop (hash value).val (s.heap.length + 1) s

end pavltree

/-! ## Observers of the store and the reachable sets -/

namespace pavltree

/-- The nodes of the subtree under the pointer `c`, in order (left subtree, node, right
subtree), read from the store through the `left`/`right` links. -/
def inorderFrom (m : Store) : Nat → Option Nat → Option (List Node)
  | _, none => some []
  | 0, some _ => none
  | fuel + 1, some c =>
    match m[c]? with
    | none => none
    | some n =>
      match inorderFrom m fuel n.left, inorderFrom m fuel n.right with
      | some ls, some rs => some (ls ++ n :: rs)
      | _, _ => none

/-- The nodes of the tree under the sentinel (`rootHolder->left`), in order. -/
def inorder (s : PTreeSet) : Option (List Node) :=
  match s.heap[s.rootHolder]? with
  | none => none
  | some rh => inorderFrom s.heap s.heap.length rh.left

/-- The true height of the subtree under the pointer `c`: `0` for a null pointer, one more than
the higher child otherwise. -/
def heightFrom (m : Store) : Nat → Option Nat → Option Int
  | _, none => some 0
  | 0, some _ => none
  | fuel + 1, some c =>
    match m[c]? with
    | none => none
    | some n =>
      match heightFrom m fuel n.left, heightFrom m fuel n.right with
      | some lh, some rh => some (1 + max lh rh)
      | _, _ => none

/-- An `assert(c)` followed by the rest of the function: `some false` is the abort of a failed
assertion, `none` a dereferenced null or dangling pointer while `c` was evaluated. -/
def assertThen (c : Option Bool) (rest : Option Bool) : Option Bool :=
  match c with
  | none => none
  | some false => some false
  | some true => rest

/-- A condition of the form `!child || ok(child)` on a child pointer. -/
def childCheck (m : Store) (child : Option Nat) (ok : Node → Bool) : Option Bool :=
  match child with
  | none => some true
  | some c =>
    match m[c]? with
    | none => none
    | some cn => some (ok cn)

/-- The recursive `PTreeSet::verify(Node *node)`.  `some true`: every assertion held;
`some false`: an assertion failed (the program aborts). -/
def verifyNode (m : Store) : Nat → Option Nat → Option Bool
  | _, none => some true
  | 0, some _ => none
  | fuel + 1, some node =>
    match m[node]? with
    | none => none
    | some n =>
      assertThen
        (match n.parent with
          | none => none
          | some pa =>
            match m[pa]? with
            | none => none
            | some p => some (decide (p.left = some node ∨ p.right = some node))) <|
      assertThen (childCheck m n.left (fun ln => decide (ln.parent = some node))) <|
      assertThen (childCheck m n.left (fun ln => decide (ln.key < n.key))) <|
      assertThen (childCheck m n.right (fun rn => decide (rn.parent = some node))) <|
      assertThen (childCheck m n.right (fun rn => decide (rn.key > n.key))) <|
      assertThen
        (match bf m node with
          | none => none
          | some b1 =>
            if b1 < 2 then
              match bf m node with
              | none => none
              | some b2 => some (decide (b2 > -2))
            else some false) <|
      assertThen (verifyNode m fuel n.left) (verifyNode m fuel n.right)

/-- The C++ function `PTreeSet::verify()`. -/
def verify (s : PTreeSet) : Option Bool :=
  match s.heap[s.rootHolder]? with
  | none => none
  | some rh =>
    assertThen (some (decide (rh.parent = none))) <|
    assertThen (some (decide (rh.left = rh.right))) <|
    verifyNode s.heap s.heap.length rh.left

/-- The sets a single thread can build: a freshly constructed set, and what `add` and `remove`
return on such a set. -/
inductive Reachable {α : Type} (hash : α → CInt) : PTreeSet → Prop
  | fresh : Reachable hash PTreeSet.new
  | step_add (s s1 : PTreeSet) (b : Bool) (v : α) :
      Reachable hash s → add hash s v = some (s1, b) → Reachable hash s1
  | step_remove (s s1 : PTreeSet) (b : Bool) (v : α) :
      Reachable hash s → remove hash s v = some (s1, b) → Reachable hash s1

end pavltree

/-! ## Instrumented runs: exchanges of the lock, rounds of the retrace, stores to links -/

namespace pavltree

/-- The values that the successive `p.exchange(true)` of `SpinLock::lock()` return, in order,
with the lock at the return of the call. -/
def SpinLock.lockObserved : Nat → SpinLock → Option (List Bool × SpinLock)
  | 0, _ => none
  | fuel + 1, l =>
    let old := l.p
    let l1 : SpinLock := { p := true }
    if !old then
      match SpinLock.lockObserved fuel l1 with
      | none => none
      | some (obs, l2) => some (old :: obs, l2)
    else some ([old], l1)

/-- The block `if (node->bf() <= -2) ... else if (node->bf() >= 2) ...` of the loop of
`fixHeightAndRebalance`, which runs after `node->fixHeight()`. -/
def rebalanceAt (key : Int) (m : Store) (a : Nat) : Option Store := do
  let b ← bf m a
  if b ≤ -2 then do
    let n ← m[a]?
    let r ← n.right
    let rn ← m[r]?
    if key > rn.key then rotateLeft m a else doubleRotateLeft m a
  else do
    let b2 ← bf m a
    if b2 ≥ 2 then do
      let n ← m[a]?
      let l ← n.left
      let ln ← m[l]?
      if key < ln.key then rotateRight m a else doubleRotateRight m a
    else some m

/-- One round of the loop of `fixHeightAndRebalance`: the node visited, the store after
`node->fixHeight()`, the balance factor `node->bf()` read there, and the store after the
rotation block. -/
structure Round where
  node : Nat
  fixed : Store
  bal : Int
  after : Store
deriving DecidableEq, Repr

/-- The rounds of the loop of `fixHeightAndRebalance` from the pointer `node`, in order. -/
def retraceRounds (rootHolder : Nat) (key : Int) : Nat → Store → Option Nat → Option (List Round)
  | 0, _, _ => none
  | fuel + 1, m, node =>
    if node = some rootHolder then some []
    else do
      let a ← node
      let mf ← fixHeight m a
      let b ← bf mf a
      let m1 ← rebalanceAt key mf a
      let n ← m1[a]?
      let rest ← retraceRounds rootHolder key fuel m1 n.parent
      some ({ node := a, fixed := mf, bal := b, after := m1 } :: rest)

/-- The rounds of the loop of `fixHeightAndRebalance(node)`, with the key and the bound on the
rounds that `fixHeightAndRebalance` uses. -/
def fixHeightAndRebalanceRounds (rootHolder : Nat) (node : Nat) (m : Store) :
    Option (List Round) := do
  let n ← m[node]?
  retraceRounds rootHolder n.key (2 * m.length + 2) m (some node)

/-- Whether the balance factor `bf()` of the node at `a` is `-1`, `0` or `1`. -/
def balancedAt (m : Store) (a : Nat) : Bool :=
  match bf m a with
  | none => false
  | some b => decide (-1 ≤ b) && decide (b ≤ 1)

/-- Whether, after the rotation block of the round, the parent of the visited node (the new
root of the rotated subtree) has two children and it and both children have a balance factor
of `-1`, `0` or `1`. -/
def Round.rotatedBalanced (r : Round) : Bool :=
  match r.after[r.node]? with
  | none => false
  | some n =>
    match n.parent with
    | none => false
    | some root =>
      match r.after[root]? with
      | none => false
      | some rn =>
        match rn.left, rn.right with
        | some lc, some rc =>
          balancedAt r.after root && balancedAt r.after lc && balancedAt r.after rc
        | _, _ => false

/-- The store after the last of the rounds `rs` of a loop that started on the store `m`. -/
def lastStore (m : Store) : List Round → Store
  | [] => m
  | r :: rs => lastStore r.after rs

/-- The height of the subtree of the node `n` under the convention of `fixHeight`: `0` for a
leaf, otherwise the maximum over the children that exist of one more than the height of the
child. -/
def trueHeight (m : Store) : Nat → Node → Option Int
  | 0, _ => none
  | fuel + 1, n =>
    match n.left, n.right with
    | none, none => some 0
    | some l, none =>
      match m[l]? with
      | none => none
      | some ln => (trueHeight m fuel ln).map (fun lh => 1 + lh)
    | none, some r =>
      match m[r]? with
      | none => none
      | some rn => (trueHeight m fuel rn).map (fun rh => 1 + rh)
    | some l, some r =>
      match m[l]?, m[r]? with
      | some ln, some rn =>
        match trueHeight m fuel ln, trueHeight m fuel rn with
        | some lh, some rh => some (max (1 + lh) (1 + rh))
        | _, _ => none
      | _, _ => none

/-! ### Stores to the links -/

/-- A store to the `left`, `right` or `parent` link of the node at `node`, with the value of the
flag of `balance_lock` when the store happens. -/
structure LinkStore where
  node : Nat
  held : Bool
deriving DecidableEq, Repr

/-- The nodes whose links `rotateLeft` stores to, in the order of the stores: `this->right`,
`tR->left`, the child link of `tP`, `tR->parent`, `this->parent`, and `tRL->parent` when `tRL`
is not null. -/
def rotateLeftStores (m : Store) (this : Nat) : Option (List Nat) := do
  let n ← m[this]?
  let tR ← n.right
  let rn ← m[tR]?
  let tPa ← n.parent
  let _ ← rotateLeft m this
  some ([this, tR, tPa, tR, this] ++ (match rn.left with
    | none => []
    | some rl => [rl]))

/-- The nodes whose links `rotateRight` stores to, in the order of the stores. -/
def rotateRightStores (m : Store) (this : Nat) : Option (List Nat) := do
  let n ← m[this]?
  let tL ← n.left
  let ln ← m[tL]?
  let tPa ← n.parent
  let _ ← rotateRight m this
  some ([this, tL, tPa, tL, this] ++ (match ln.right with
    | none => []
    | some lr => [lr]))

/-- The nodes whose links `doubleRotateLeft` stores to. -/
def doubleRotateLeftStores (m : Store) (this : Nat) : Option (List Nat) := do
  let n ← m[this]?
  let r ← n.right
  let rn ← m[r]?
  if rn.left ≠ none then do
    let ev1 ← rotateRightStores m r
    let m1 ← rotateRight m r
    let ev2 ← rotateLeftStores m1 this
    some (ev1 ++ ev2)
  else rotateLeftStores m this

/-- The nodes whose links `doubleRotateRight` stores to. -/
def doubleRotateRightStores (m : Store) (this : Nat) : Option (List Nat) := do
  let n ← m[this]?
  let l ← n.left
  let ln ← m[l]?
  if ln.right ≠ none then do
    let ev1 ← rotateLeftStores m l
    let m1 ← rotateLeft m l
    let ev2 ← rotateRightStores m1 this
    some (ev1 ++ ev2)
  else rotateRightStores m this

/-- The nodes whose links the rotation block of the loop of `fixHeightAndRebalance` stores to. -/
def rebalanceAtStores (key : Int) (m : Store) (a : Nat) : Option (List Nat) := do
  let b ← bf m a
  if b ≤ -2 then do
    let n ← m[a]?
    let r ← n.right
    let rn ← m[r]?
    if key > rn.key then rotateLeftStores m a else doubleRotateLeftStores m a
  else do
    let b2 ← bf m a
    if b2 ≥ 2 then do
      let n ← m[a]?
      let l ← n.left
      let ln ← m[l]?
      if key < ln.key then rotateRightStores m a else doubleRotateRightStores m a
    else some []

/-- The nodes whose links the loop of `fixHeightAndRebalance` stores to. -/
def retraceStores (rootHolder : Nat) (key : Int) : Nat → Store → Option Nat → Option (List Nat)
  | 0, _, _ => none
  | fuel + 1, m, node =>
    if node = some rootHolder then some []
    else do
      let a ← node
      let mf ← fixHeight m a
      let ev ← rebalanceAtStores key mf a
      let m1 ← rebalanceAt key mf a
      let n ← m1[a]?
      let rest ← retraceStores rootHolder key fuel m1 n.parent
      some (ev ++ rest)

/-- The nodes whose links `fixHeightAndRebalance(node)` stores to: those of the loop, then the
sentinel for `rootHolder->right.store(...)`. -/
def fixHeightAndRebalanceStores (rootHolder : Nat) (node : Nat) (m : Store) :
    Option (List Nat) := do
  let n ← m[node]?
  let ev ← retraceStores rootHolder n.key (2 * m.length + 2) m (some node)
  let _ ← fixHeightAndRebalance rootHolder node m
  some (ev ++ [rootHolder])

/-- The nodes whose links `tryInsert(parent, node)` stores to: `parent` when the node is
attached, none when the function returns false. -/
def tryInsertStores (parent node : Nat) (m : Store) : Option (List Nat) :=
  match tryInsertBody parent node m with
  | none => none
  | some (_, true) => some [parent]
  | some (_, false) => some []

/-- The stores to links of a part of a function that runs under
`std::lock_guard<Lock> l(balance_lock)`: each happens with the flag that `lock()` left. -/
def lockGuardStores (s : PTreeSet) (stores : Store → Option (List Nat)) :
    Option (List LinkStore) :=
  match SpinLock.lock 2 s.balance_lock with
  | none => none
  | some l =>
    match stores s.heap with
    | none => none
    | some ev => some (ev.map (fun a => { node := a, held := l.p }))

/-- The stores to links of the `for (;;)` loop of `PTreeSet::add`, from the pointer `parent`. -/
def addDescendStores (key : Int) : Nat → PTreeSet → Nat → Option (List LinkStore)
  | 0, _, _ => none
  | fuel + 1, s, parent =>
    match s.heap[parent]? with
    | none => none
    | some p =>
      if p.key = key then
        if p.has_value then some []
        else
          match storeHasValue s.heap parent true with
          | none => none
          | some _ => some []
      else if p.key > key then
        if p.left ≠ none then
          match p.left with
          | none => some []
          | some l => addDescendStores key fuel s l
        else
          let (m, node) := alloc s.heap (Node.new (toUnsigned key) (some parent))
          lockGuardStores { s with heap := m } (tryInsertStores parent node)
      else
        if p.right ≠ none then
          match p.right with
          | none => some []
          | some r => addDescendStores key fuel s r
        else
          let (m, node) := alloc s.heap (Node.new (toUnsigned key) (some parent))
          lockGuardStores { s with heap := m } (tryInsertStores parent node)

/-- The stores to links of one pass of `PTreeSet::add` from the label `Retry` up to the block
that rebalances.  In the branch of the empty set, `rootHolder->left = new Node(...)` and
`rootHolder->right.store(...)` run before any lock guard, with the flag as the caller left
it. -/
def addPassStores (key : Int) (s : PTreeSet) : Option (List LinkStore) := do
  let rh ← s.heap[s.rootHolder]?
  if rh.left = none then
    let (m, node) := alloc s.heap (Node.new (toUnsigned key) (some s.rootHolder))
    let m ← storeLeft m s.rootHolder (some node)
    let rh1 ← m[s.rootHolder]?
    let _ ← storeRight m s.rootHolder rh1.left
    some [{ node := s.rootHolder, held := s.balance_lock.p },
      { node := s.rootHolder, held := s.balance_lock.p }]
  else do
    let parent ← rh.left
    addDescendStores key s.heap.length s parent

/-- The stores to links of the passes of `PTreeSet::add`. -/
def addLoopStores (key : Int) : Nat → PTreeSet → Option (List LinkStore)
  | 0, _ => none
  | fuel + 1, s =>
    match addPass key s, addPassStores key s with
    | some (AddPass.ret _ _), some ev => some ev
    | some (AddPass.retry s1), some ev => (addLoopStores key fuel s1).map (fun r => ev ++ r)
    | some (AddPass.attached s1 node), some ev =>
      (lockGuardStores s1 (fixHeightAndRebalanceStores s1.rootHolder node)).map
        (fun r => ev ++ r)
    | _, _ => none

/-- The stores to links of nodes of the set during `PTreeSet::add(T value)`, in order. -/
def addStores {α : Type} (hash : α → CInt) (s : PTreeSet) (value : α) :
    Option (List LinkStore) :=
  addLoopStores (hash value).val (s.heap.length + 1) s

end pavltree

/-! ## The tree a store represents

The proofs read the linked nodes of the store as a term: `Tree` records for every node its
address and its fields, `Repr` says that the store holds these nodes with matching links.  A
position inside the tree is a list of `Frame`s (the ancestors of the position, innermost
first); the methods of the program are mirrored on terms and shown to be what the store
versions compute. -/

namespace pavltree

/-- A binary tree of nodes: address, key, `has_value`, cached height. -/
inductive Tree where
  | nil : Tree
  | node (l : Tree) (a : Nat) (k : Int) (v : Bool) (h : Int) (r : Tree) : Tree
deriving DecidableEq, Repr

namespace Tree

/-- The pointer to the root of the tree. -/
def ptr : Tree → Option Nat
  | nil => none
  | node _ a _ _ _ _ => some a

/-- The addresses of the nodes, in order. -/
def addrs : Tree → List Nat
  | nil => []
  | node l a _ _ _ r => l.addrs ++ a :: r.addrs

/-- The number of nodes. -/
def size : Tree → Nat
  | nil => 0
  | node l _ _ _ _ r => l.size + 1 + r.size

/-- The node records in order, as the store holds them; `p` is the parent link of the root. -/
def nodes : Option Nat → Tree → List Node
  | _, nil => []
  | p, node l a k v h r =>
    l.nodes (some a) ++
      ({ left := l.ptr, right := r.ptr, parent := p, height := h, key := k, has_value := v } :
        Node) :: r.nodes (some a)

/-- The keys in order. -/
def keys : Tree → List Int
  | nil => []
  | node l _ k _ _ r => l.keys ++ k :: r.keys

/-- The `(key, has_value)` pairs in order. -/
def pairs : Tree → List (Int × Bool)
  | nil => []
  | node l _ k v _ r => l.pairs ++ (k, v) :: r.pairs

/-- The true height: `0` for the empty tree. -/
def ht : Tree → Int
  | nil => 0
  | node l _ _ _ _ r => 1 + max l.ht r.ht

/-- What a parent computes for this child from the cached height: `0` for a null child and
`1 + child->height` otherwise. -/
def ch : Tree → Int
  | nil => 0
  | node _ _ _ _ h _ => 1 + h

/-- Mirror of `Node::fixHeight`. -/
def fixHeight : Tree → Tree
  | nil => nil
  | node l a k v _ r => node l a k v (if l.ch > r.ch then l.ch else r.ch) r

/-- Mirror of `Node::bf`. -/
def bf : Tree → Int
  | nil => 0
  | node l _ _ _ _ r => l.ch - r.ch

/-- Mirror of `Node::rotateLeft`. -/
def rotateLeft : Tree → Option Tree
  | node l a k v h (node rl ra rk rv rh rr) =>
    some (fixHeight (node (fixHeight (node l a k v h rl)) ra rk rv rh rr))
  | _ => none

/-- Mirror of `Node::rotateRight`. -/
def rotateRight : Tree → Option Tree
  | node (node ll la lk lv lh lr) a k v h r =>
    some (fixHeight (node ll la lk lv lh (fixHeight (node lr a k v h r))))
  | _ => none

/-- Mirror of `Node::doubleRotateLeft`. -/
def doubleRotateLeft : Tree → Option Tree
  | node l a k v h (node rl ra rk rv rh rr) =>
    match (if rl.ptr ≠ none then rotateRight (node rl ra rk rv rh rr)
      else some (node rl ra rk rv rh rr)) with
    | none => none
    | some r1 => rotateLeft (node l a k v h r1)
  | _ => none

/-- Mirror of `Node::doubleRotateRight`. -/
def doubleRotateRight : Tree → Option Tree
  | node (node ll la lk lv lh lr) a k v h r =>
    match (if lr.ptr ≠ none then rotateLeft (node ll la lk lv lh lr)
      else some (node ll la lk lv lh lr)) with
    | none => none
    | some l1 => rotateRight (node l1 a k v h r)
  | _ => none

/-- Mirror of the loop of `contains`. -/
def lookup (key : Int) : Tree → Bool
  | nil => false
  | node l _ k v _ r =>
    if k = key then v else if k > key then l.lookup key else r.lookup key

/-- Mirror of the loop of `remove`: the tree afterwards and the returned value. -/
def erase (key : Int) : Tree → Tree × Bool
  | nil => (nil, false)
  | node l a k v h r =>
    if k = key then (node l a k false h r, v)
    else if k > key then (node (l.erase key).1 a k v h r, (l.erase key).2)
    else (node l a k v h (r.erase key).1, (r.erase key).2)

/-- Sets `has_value` of the node the descent for `key` finds. -/
def revive (key : Int) : Tree → Tree
  | nil => nil
  | node l a k v h r =>
    if k = key then node l a k true h r
    else if k > key then node (l.revive key) a k v h r
    else node l a k v h (r.revive key)

/-- The ordering invariant: the keys in order are strictly increasing. -/
def BST (t : Tree) : Prop := t.keys.Pairwise (fun x y => x < y)

/-- The balance invariant together with exact cached heights. -/
def Good : Tree → Prop
  | nil => True
  | node l _ _ _ h r =>
    Good l ∧ Good r ∧ h = max l.ht r.ht ∧ l.ht - r.ht ≤ 1 ∧ r.ht - l.ht ≤ 1

/-- The side of the root on which `key` lies is strictly the higher one (or the root is the
leaf holding `key`). -/
def Heavy (key : Int) : Tree → Prop
  | nil => False
  | node l _ k _ _ r =>
    (key = k ∧ l = nil ∧ r = nil) ∨ (key < k ∧ r.ht < l.ht) ∨ (k < key ∧ l.ht < r.ht)

end Tree

/-- The store `m` holds the nodes of `t`, linked as in `t`, with `p` the parent link of the
root. -/
def Repr (m : Store) : Option Nat → Tree → Prop
  | _, Tree.nil => True
  | p, Tree.node l a k v h r =>
    m[a]? = some { left := l.ptr, right := r.ptr, parent := p, height := h, key := k,
                   has_value := v } ∧
      Repr m (some a) l ∧ Repr m (some a) r

/-- An ancestor of a position, seen from the position: the ancestor's fields and its other
subtree. -/
inductive Frame where
  /-- The position is the left child. -/
  | L (a : Nat) (k : Int) (v : Bool) (h : Int) (r : Tree) : Frame
  /-- The position is the right child. -/
  | R (l : Tree) (a : Nat) (k : Int) (v : Bool) (h : Int) : Frame

namespace Frame

/-- The address of the ancestor. -/
def addr : Frame → Nat
  | L a _ _ _ _ => a
  | R _ a _ _ _ => a

/-- The ancestor with `t` put at the position. -/
def plug : Frame → Tree → Tree
  | L a k v h r, t => Tree.node t a k v h r
  | R l a k v h, t => Tree.node l a k v h t

/-- The addresses of the ancestor and its other subtree. -/
def addrs : Frame → List Nat
  | L a _ _ _ r => a :: r.addrs
  | R l a _ _ _ => a :: l.addrs

/-- The number of nodes of the ancestor and its other subtree. -/
def size : Frame → Nat
  | L _ _ _ _ r => 1 + r.size
  | R l _ _ _ _ => 1 + l.size

end Frame

/-- The whole tree: `t` put at the position with ancestors `ctx` (innermost first). -/
def plug : List Frame → Tree → Tree
  | [], t => t
  | f :: fs, t => plug fs (f.plug t)

/-- The address of the parent of the position; the sentinel (address `0`) at the top. -/
def ctxAddr : List Frame → Nat
  | [] => 0
  | f :: _ => f.addr

/-- All addresses of the ancestors and their other subtrees. -/
def ctxAddrs : List Frame → List Nat
  | [] => []
  | f :: fs => f.addrs ++ ctxAddrs fs

/-- The number of nodes outside the position. -/
def ctxSize : List Frame → Nat
  | [] => 0
  | f :: fs => f.size + ctxSize fs

/-- The pairs in order that lie before the position. -/
def ctxBefore : List Frame → List (Int × Bool)
  | [] => []
  | Frame.L _ _ _ _ _ :: fs => ctxBefore fs
  | Frame.R l _ k v _ :: fs => ctxBefore fs ++ l.pairs ++ [(k, v)]

/-- The pairs in order that lie after the position. -/
def ctxAfter : List Frame → List (Int × Bool)
  | [] => []
  | Frame.L _ k v _ r :: fs => (k, v) :: r.pairs ++ ctxAfter fs
  | Frame.R _ _ _ _ _ :: fs => ctxAfter fs

/-- The store holds the ancestors `ctx` of a position whose child link is `c`; at the top the
sentinel at address `0`, whose left link leads to the root. -/
def ReprCtx (m : Store) : List Frame → Option Nat → Prop
  | [], c => ∃ r, m[0]? = some { left := c, right := r, parent := none, height := 0, key := 0,
                                 has_value := true }
  | Frame.L a k v h r :: fs, c =>
    m[a]? = some { left := c, right := r.ptr, parent := some (ctxAddr fs), height := h,
                   key := k, has_value := v } ∧
      Repr m (some a) r ∧ ReprCtx m fs (some a)
  | Frame.R l a k v h :: fs, c =>
    m[a]? = some { left := l.ptr, right := c, parent := some (ctxAddr fs), height := h,
                   key := k, has_value := v } ∧
      Repr m (some a) l ∧ ReprCtx m fs (some a)

/-- The store holds the tree `plug ctx t`, seen from the position of `t`, all nodes at
different addresses, none at the sentinel's. -/
def ReprZ (m : Store) (ctx : List Frame) (t : Tree) : Prop :=
  ReprCtx m ctx t.ptr ∧ Repr m (some (ctxAddr ctx)) t ∧ (0 :: (t.addrs ++ ctxAddrs ctx)).Nodup

/-- Mirror of the descent of `add`: the position where the descent for `key` stops, either at the
node holding `key` or at an empty place. -/
def descendT (key : Int) : List Frame → Tree → List Frame × Tree
  | ctx, Tree.nil => (ctx, Tree.nil)
  | ctx, Tree.node l a k v h r =>
    if k = key then (ctx, Tree.node l a k v h r)
    else if k > key then descendT key (Frame.L a k v h r :: ctx) l
    else descendT key (Frame.R l a k v h :: ctx) r

/-- Mirror of one round of the loop of `fixHeightAndRebalance` at the root of `t`: the subtree
afterwards and whether it was rotated. -/
def rebalanceT (key : Int) (t : Tree) : Option (Tree × Bool) :=
  match t.fixHeight with
  | Tree.nil => none
  | Tree.node l a k v h r =>
    if (Tree.node l a k v h r).bf ≤ -2 then
      match r with
      | Tree.nil => none
      | Tree.node _ _ rk _ _ _ =>
        match (if key > rk then (Tree.node l a k v h r).rotateLeft
          else (Tree.node l a k v h r).doubleRotateLeft) with
        | none => none
        | some t1 => some (t1, true)
    else if (Tree.node l a k v h r).bf ≥ 2 then
      match l with
      | Tree.nil => none
      | Tree.node _ _ lk _ _ _ =>
        match (if key < lk then (Tree.node l a k v h r).rotateRight
          else (Tree.node l a k v h r).doubleRotateRight) with
        | none => none
        | some t1 => some (t1, true)
    else some (Tree.node l a k v h r, false)

/-- Mirror of the loop of `fixHeightAndRebalance`: after a rotation the loop goes on at the new
root of the subtree, otherwise at the parent; it ends at the sentinel. -/
def retraceT (key : Int) : Nat → List Frame → Tree → Option Tree
  | 0, _, _ => none
  | fuel + 1, ctx, t =>
    match rebalanceT key t with
    | none => none
    | some (t1, true) => retraceT key fuel ctx t1
    | some (t1, false) =>
      match ctx with
      | [] => some t1
      | f :: fs => retraceT key fuel fs (f.plug t1)

/-- The ancestors are balanced with exact cached heights when the subtree at the position has
height `H`. -/
def CtxGood : List Frame → Int → Prop
  | [], _ => True
  | Frame.L _ _ _ h r :: fs, H =>
    r.Good ∧ h = max H r.ht ∧ H - r.ht ≤ 1 ∧ r.ht - H ≤ 1 ∧ CtxGood fs (1 + max H r.ht)
  | Frame.R l _ _ _ h :: fs, H =>
    l.Good ∧ h = max l.ht H ∧ l.ht - H ≤ 1 ∧ H - l.ht ≤ 1 ∧ CtxGood fs (1 + max l.ht H)

/-- Every ancestor has `key` on the side of the position. -/
def CtxSide (key : Int) : List Frame → Prop
  | [] => True
  | Frame.L _ k _ _ _ :: fs => key < k ∧ CtxSide key fs
  | Frame.R _ _ k _ _ :: fs => k < key ∧ CtxSide key fs

/-- Every pair before the position has a key below `key`, every pair after it a key above. -/
def CtxBound (key : Int) (ctx : List Frame) : Prop :=
  (∀ p ∈ ctxBefore ctx, p.1 < key) ∧ (∀ p ∈ ctxAfter ctx, key < p.1)

/-- The subtree at the position when a round of the retrace starts, `H0` being the height the
subtree had before `key` was attached: the children are balanced with exact heights, and
either the root is balanced and the height is `H0` or has grown by one on the side of `key`,
or the side of `key` is higher by two. -/
def Pend (key : Int) (H0 : Int) : Tree → Prop
  | Tree.nil => False
  | Tree.node l a k v h r =>
    l.Good ∧ r.Good ∧
      ((l.ht - r.ht ≤ 1 ∧ r.ht - l.ht ≤ 1 ∧
          (1 + max l.ht r.ht = H0 ∨
            (1 + max l.ht r.ht = H0 + 1 ∧ (Tree.node l a k v h r).Heavy key))) ∨
        (r.ht = l.ht + 2 ∧ H0 = r.ht ∧ r.Heavy key) ∨
        (l.ht = r.ht + 2 ∧ H0 = l.ht ∧ l.Heavy key))

/-- The root is out of balance by two. -/
def Unb : Tree → Prop
  | Tree.nil => False
  | Tree.node l _ _ _ _ r => r.ht = l.ht + 2 ∨ l.ht = r.ht + 2

/-- A pair list with `(k, true)` put before the first pair whose key is not below `k`. -/
def insertPair (k : Int) : List (Int × Bool) → List (Int × Bool)
  | [] => [(k, true)]
  | p :: ps => if k < p.1 then (k, true) :: p :: ps else p :: insertPair k ps

/-- The invariant of a set built by one thread: the store is the sentinel and the nodes of a
tree `t` that is ordered, balanced, with exact cached heights; nothing else is allocated and the
lock is free. -/
def Inv (s : PTreeSet) (t : Tree) : Prop :=
  s.rootHolder = 0 ∧ s.balance_lock = { p := false } ∧
    s.heap[0]? = some { left := t.ptr, right := t.ptr, parent := none, height := 0, key := 0,
                        has_value := true } ∧
    Repr s.heap (some 0) t ∧ (0 :: t.addrs).Nodup ∧ s.heap.length = t.size + 1 ∧
    t.BST ∧ t.Good

end pavltree

/-! ## A run of calls, and a concrete set for the examples -/

namespace pavltree

/-- A sequence of calls by one thread: `(true, v)` is `add(v)`, `(false, v)` is `remove(v)`;
the result is the set after the last call. -/
def run {α : Type} (hash : α → CInt) : PTreeSet → List (Bool × α) → Option PTreeSet
  | s, [] => some s
  | s, (true, v) :: ops =>
    match add hash s v with
    | none => none
    | some (s1, _) => run hash s1 ops
  | s, (false, v) :: ops =>
    match remove hash s v with
    | none => none
    | some (s1, _) => run hash s1 ops

/-- A hash for the examples: a natural number below `1000` is its own key. -/
def exHash (n : Nat) : CInt := ⟨((n % 1000 : Nat) : Int), by omega⟩

/-- The calls that build the example set: the third `add` rotates at the root, the fifth is a
double rotation, and `20` ends as a tombstone. -/
def exCalls : List (Bool × Nat) :=
  [(true, 30), (true, 20), (true, 10), (true, 50), (true, 40), (false, 20)]

/-- The set the calls `exCalls` build from a fresh set. -/
def exSet : PTreeSet :=
  { heap := [⟨some 2, some 2, none, 0, 0, true⟩, ⟨none, none, some 5, 0, 30, true⟩,
             ⟨some 3, some 5, some 0, 2, 20, false⟩, ⟨none, none, some 2, 0, 10, true⟩,
             ⟨none, none, some 5, 0, 50, true⟩, ⟨some 1, some 4, some 2, 1, 40, true⟩],
    rootHolder := 0, balance_lock := ⟨false⟩ }

/-- The nodes of `exSet` in order. -/
def exNodes : List Node :=
  [⟨none, none, some 2, 0, 10, true⟩, ⟨some 3, some 5, some 0, 2, 20, false⟩,
   ⟨none, none, some 5, 0, 30, true⟩, ⟨some 1, some 4, some 2, 1, 40, true⟩,
   ⟨none, none, some 5, 0, 50, true⟩]

end pavltree

/-! ## A run whose retrace meets a balance factor of `+2` -/

namespace pavltree

/-- The `(key, has_value)` pairs in order of the tree that the store `m` holds under the
sentinel at address `0`. -/
def inorderPairs (m : Store) : Option (List (Int × Bool)) :=
  match inorder { heap := m, rootHolder := 0, balance_lock := { p := false } } with
  | none => none
  | some ns => some (ns.map (fun n => (n.key, n.has_value)))

/-- The calls that build `lhSet`: the tree has `40` at the root over `20` (with children `10`
and `30`) and `50`. -/
def lhCalls : List (Bool × Nat) :=
  [(true, 40), (true, 20), (true, 50), (true, 10), (true, 30)]

/-- The set the calls `lhCalls` build from a fresh set. -/
def lhSet : PTreeSet :=
  { heap := [⟨some 1, some 1, none, 0, 0, true⟩, ⟨some 2, some 3, some 0, 2, 40, true⟩,
             ⟨some 4, some 5, some 1, 1, 20, true⟩, ⟨none, none, some 1, 0, 50, true⟩,
             ⟨none, none, some 2, 0, 10, true⟩, ⟨none, none, some 2, 0, 30, true⟩],
    rootHolder := 0, balance_lock := ⟨false⟩ }

/-- The set `lhSet` after the pass of `add(5)` attached the new node at address `6` under the
node of `10`, before the retrace. -/
def lhAttached : PTreeSet :=
  { heap := [⟨some 1, some 1, none, 0, 0, true⟩, ⟨some 2, some 3, some 0, 2, 40, true⟩,
             ⟨some 4, some 5, some 1, 1, 20, true⟩, ⟨none, none, some 1, 0, 50, true⟩,
             ⟨some 6, none, some 2, 0, 10, true⟩, ⟨none, none, some 2, 0, 30, true⟩,
             ⟨none, none, some 4, 0, 5, true⟩],
    rootHolder := 0, balance_lock := ⟨false⟩ }

/-- The store of the fourth round of the retrace of `add(5)` on `lhSet`, after `fixHeight` at
the node of `40` (address `1`): its left subtree is higher by two. -/
def lhStore : Store :=
  [⟨some 1, some 1, none, 0, 0, true⟩, ⟨some 2, some 3, some 0, 3, 40, true⟩,
   ⟨some 4, some 5, some 1, 2, 20, true⟩, ⟨none, none, some 1, 0, 50, true⟩,
   ⟨some 6, none, some 2, 1, 10, true⟩, ⟨none, none, some 2, 0, 30, true⟩,
   ⟨none, none, some 4, 0, 5, true⟩]

/-- The left subtree of the node of `20` in `lhStore`: the node of `10` over the node of `5`. -/
def lhLeft : Tree :=
  Tree.node (Tree.node Tree.nil 6 5 true 0 Tree.nil) 4 10 true 1 Tree.nil

/-- The right subtree of the node of `20` in `lhStore`: the node of `30`. -/
def lhRight : Tree := Tree.node Tree.nil 5 30 true 0 Tree.nil

/-- The ancestors of the node of `20` in `lhStore`: it is the left child of the node of `40`,
whose right child is the node of `50`. -/
def lhCtx : List Frame := [Frame.L 1 40 true 3 (Tree.node Tree.nil 3 50 true 0 Tree.nil)]

end pavltree

/-! ## Basic facts about the store and the representation -/

namespace pavltree

theorem lt_of_get {m : Store} {a : Nat} {n : Node} (h : m[a]? = some n) : a < m.length := by
  rcases List.getElem?_eq_some.1 h with ⟨h1, _⟩
  exact h1

theorem get_set {m : Store} {a : Nat} {n n1 : Node} (h : m[a]? = some n) (b : Nat) :
    (m.set a n1)[b]? = if a = b then some n1 else m[b]? := by
  rw [List.getElem?_set]
  simp [lt_of_get h]

theorem storeLeft_eq {m : Store} {a : Nat} {n : Node} (h : m[a]? = some n) (v : Option Nat) :
    storeLeft m a v = some (m.set a { n with left := v }) := by
  simp [storeLeft, h]

theorem storeRight_eq {m : Store} {a : Nat} {n : Node} (h : m[a]? = some n) (v : Option Nat) :
    storeRight m a v = some (m.set a { n with right := v }) := by
  simp [storeRight, h]

theorem storeParent_eq {m : Store} {a : Nat} {n : Node} (h : m[a]? = some n) (v : Option Nat) :
    storeParent m a v = some (m.set a { n with parent := v }) := by
  simp [storeParent, h]

theorem storeHeight_eq {m : Store} {a : Nat} {n : Node} (h : m[a]? = some n) (v : Int) :
    storeHeight m a v = some (m.set a { n with height := v }) := by
  simp [storeHeight, h]

theorem storeHasValue_eq {m : Store} {a : Nat} {n : Node} (h : m[a]? = some n) (v : Bool) :
    storeHasValue m a v = some (m.set a { n with has_value := v }) := by
  simp [storeHasValue, h]

theorem toInt_toUnsigned (k : CInt) : toInt (toUnsigned k.val) = k.val := by
  obtain ⟨k, h1, h2⟩ := k
  simp only [toInt, toUnsigned]
  split <;> omega

/-! ### Trees -/

namespace Tree

theorem length_addrs (t : Tree) : t.addrs.length = t.size := by
  induction t with
  | nil => rfl
  | node l a k v h r ihl ihr => simp [addrs, size, ihl, ihr]; omega

theorem length_nodes (p : Option Nat) (t : Tree) : (t.nodes p).length = t.size := by
  induction t generalizing p with
  | nil => rfl
  | node l a k v h r ihl ihr => simp [nodes, size, ihl, ihr]; omega

theorem map_key_nodes (p : Option Nat) (t : Tree) : (t.nodes p).map Node.key = t.keys := by
  induction t generalizing p with
  | nil => rfl
  | node l a k v h r ihl ihr => simp [nodes, keys, ihl, ihr]

theorem map_pair_nodes (p : Option Nat) (t : Tree) :
    (t.nodes p).map (fun n => (n.key, n.has_value)) = t.pairs := by
  induction t generalizing p with
  | nil => rfl
  | node l a k v h r ihl ihr => simp [nodes, pairs, ihl, ihr]

theorem map_fst_pairs (t : Tree) : t.pairs.map Prod.fst = t.keys := by
  induction t with
  | nil => rfl
  | node l a k v h r ihl ihr => simp [pairs, keys, ihl, ihr]

@[simp] theorem ptr_nil : nil.ptr = none := rfl

@[simp] theorem ptr_node (l : Tree) (a : Nat) (k : Int) (v : Bool) (h : Int) (r : Tree) :
    (node l a k v h r).ptr = some a := rfl

@[simp] theorem ch_nil : nil.ch = 0 := rfl

@[simp] theorem ch_node (l : Tree) (a : Nat) (k : Int) (v : Bool) (h : Int) (r : Tree) :
    (node l a k v h r).ch = 1 + h := rfl

@[simp] theorem bf_node (l : Tree) (a : Nat) (k : Int) (v : Bool) (h : Int) (r : Tree) :
    (node l a k v h r).bf = l.ch - r.ch := rfl

@[simp] theorem fixHeight_node (l : Tree) (a : Nat) (k : Int) (v : Bool) (h : Int) (r : Tree) :
    (node l a k v h r).fixHeight = node l a k v (if l.ch > r.ch then l.ch else r.ch) r := rfl

theorem ptr_eq_none {t : Tree} : t.ptr = none ↔ t = nil := by
  cases t <;> simp

theorem ht_nonneg (t : Tree) : 0 ≤ t.ht := by
  induction t with
  | nil => simp [ht]
  | node l a k v h r ihl ihr => simp only [ht]; omega

theorem ht_pos_iff (t : Tree) : 0 < t.ht ↔ t ≠ nil := by
  cases t with
  | nil => simp [ht]
  | node l a k v h r =>
    have := ht_nonneg l
    simp only [ht]
    constructor
    · intro _; simp
    · intro _; omega

theorem Good.ch_eq {t : Tree} (h : t.Good) : t.ch = t.ht := by
  cases t with
  | nil => rfl
  | node l a k v h r =>
    simp only [Good] at h
    simp only [ch, ht, h.2.2.1]

end Tree

/-! ### Frame rule -/

theorem Repr.addr_lt {m : Store} {p : Option Nat} {t : Tree} (h : Repr m p t) :
    ∀ x ∈ t.addrs, x < m.length := by
  induction t generalizing p with
  | nil => simp [Tree.addrs]
  | node l a k v hh r ihl ihr =>
    obtain ⟨h1, h2, h3⟩ := h
    intro x hx
    simp only [Tree.addrs, List.mem_append, List.mem_cons] at hx
    rcases hx with hx | hx | hx
    · exact ihl h2 x hx
    · subst hx; exact lt_of_get h1
    · exact ihr h3 x hx

theorem Repr.frame {m m1 : Store} {p : Option Nat} {t : Tree} (h : Repr m p t)
    (hm : ∀ x ∈ t.addrs, m1[x]? = m[x]?) : Repr m1 p t := by
  induction t generalizing p with
  | nil => trivial
  | node l a k v hh r ihl ihr =>
    obtain ⟨h1, h2, h3⟩ := h
    refine ⟨?_, ihl h2 ?_, ihr h3 ?_⟩
    · rw [hm a (by simp [Tree.addrs])]; exact h1
    · intro x hx; exact hm x (by simp [Tree.addrs, hx])
    · intro x hx; exact hm x (by simp [Tree.addrs, hx])

theorem ReprCtx.ctx_frame {m m1 : Store} {ctx : List Frame} {c : Option Nat} (h : ReprCtx m ctx c)
    (hm : ∀ x ∈ 0 :: ctxAddrs ctx, m1[x]? = m[x]?) : ReprCtx m1 ctx c := by
  induction ctx generalizing c with
  | nil =>
    obtain ⟨r, hr⟩ := h
    exact ⟨r, by rw [hm 0 (by simp)]; exact hr⟩
  | cons f fs ih =>
    cases f with
    | L a k v hh r =>
      obtain ⟨h1, h2, h3⟩ := h
      refine ⟨?_, h2.frame ?_, ih h3 ?_⟩
      · rw [hm a (by simp [ctxAddrs, Frame.addrs])]; exact h1
      · intro x hx; exact hm x (by simp [ctxAddrs, Frame.addrs, hx])
      · intro x hx
        simp only [List.mem_cons] at hx
        rcases hx with hx | hx
        · exact hm x (by simp [hx])
        · exact hm x (by simp [ctxAddrs, hx])
    | R l a k v hh =>
      obtain ⟨h1, h2, h3⟩ := h
      refine ⟨?_, h2.frame ?_, ih h3 ?_⟩
      · rw [hm a (by simp [ctxAddrs, Frame.addrs])]; exact h1
      · intro x hx; exact hm x (by simp [ctxAddrs, Frame.addrs, hx])
      · intro x hx
        simp only [List.mem_cons] at hx
        rcases hx with hx | hx
        · exact hm x (by simp [hx])
        · exact hm x (by simp [ctxAddrs, hx])

theorem ReprCtx.ctx_lt {m : Store} {ctx : List Frame} {c : Option Nat} (h : ReprCtx m ctx c) :
    ∀ x ∈ 0 :: ctxAddrs ctx, x < m.length := by
  induction ctx generalizing c with
  | nil =>
    obtain ⟨r, hr⟩ := h
    intro x hx
    simp only [ctxAddrs, List.mem_cons, List.not_mem_nil, or_false] at hx
    subst hx; exact lt_of_get hr
  | cons f fs ih =>
    cases f with
    | L a k v hh r =>
      obtain ⟨h1, h2, h3⟩ := h
      intro x hx
      simp only [ctxAddrs, Frame.addrs, List.mem_cons, List.mem_append, List.cons_append] at hx
      rcases hx with hx | hx | hx | hx
      · exact ih h3 x (by simp [hx])
      · subst hx; exact lt_of_get h1
      · exact h2.addr_lt x hx
      · exact ih h3 x (by simp [hx])
    | R l a k v hh =>
      obtain ⟨h1, h2, h3⟩ := h
      intro x hx
      simp only [ctxAddrs, Frame.addrs, List.mem_cons, List.mem_append, List.cons_append] at hx
      rcases hx with hx | hx | hx | hx
      · exact ih h3 x (by simp [hx])
      · subst hx; exact lt_of_get h1
      · exact h2.addr_lt x hx
      · exact ih h3 x (by simp [hx])

/-- The parent of a position (the innermost ancestor, or the sentinel) is allocated. -/
theorem ReprCtx.ptr_irrel {m : Store} {ctx : List Frame} {c : Option Nat}
    (h : ReprCtx m ctx c) : ∃ n, m[ctxAddr ctx]? = some n := by
  cases ctx with
  | nil => obtain ⟨r, hr⟩ := h; exact ⟨_, hr⟩
  | cons f fs =>
    cases f with
    | L a k v hh r => exact ⟨_, h.1⟩
    | R l a k v hh => exact ⟨_, h.1⟩

/-! ### Reading the tree back from the store -/

theorem inorderFrom_repr {m : Store} {p : Option Nat} {t : Tree} (h : Repr m p t) (fuel : Nat)
    (hf : t.size ≤ fuel) : inorderFrom m fuel t.ptr = some (t.nodes p) := by
  induction t generalizing p fuel with
  | nil => cases fuel <;> rfl
  | node l a k v hh r ihl ihr =>
    obtain ⟨h1, h2, h3⟩ := h
    cases fuel with
    | zero => simp [Tree.size] at hf
    | succ fuel =>
      simp only [Tree.size] at hf
      simp only [Tree.ptr_node, inorderFrom, h1, Tree.nodes]
      rw [ihl h2 fuel (by omega), ihr h3 fuel (by omega)]

theorem heightFrom_repr {m : Store} {p : Option Nat} {t : Tree} (h : Repr m p t) (fuel : Nat)
    (hf : t.size ≤ fuel) : heightFrom m fuel t.ptr = some t.ht := by
  induction t generalizing p fuel with
  | nil => cases fuel <;> rfl
  | node l a k v hh r ihl ihr =>
    obtain ⟨h1, h2, h3⟩ := h
    cases fuel with
    | zero => simp [Tree.size] at hf
    | succ fuel =>
      simp only [Tree.size] at hf
      simp only [Tree.ptr_node, heightFrom, h1, Tree.ht]
      rw [ihl h2 fuel (by omega), ihr h3 fuel (by omega)]

end pavltree

/-! ## The frame rule for stores, and the node methods on represented trees -/

namespace pavltree


theorem agree_set {m1 m : Store} {S : List Nat} {a : Nat} {n : Node}
    (hm : ∀ x ∈ S, m1[x]? = m[x]?) (ha : a ∉ S) : ∀ x ∈ S, (m1.set a n)[x]? = m[x]? := by
  intro x hx
  rw [List.getElem?_set_ne, hm x hx]
  rintro rfl
  exact ha hx

theorem agree_refl (m : Store) (S : List Nat) : ∀ x ∈ S, m[x]? = m[x]? := fun _ _ => rfl

theorem Tree.ptr_ne_of_not_mem {t : Tree} {a : Nat} (h : a ∉ t.addrs) : t.ptr ≠ some a := by
  cases t with
  | nil => simp
  | node l b k v hh r =>
    simp only [Tree.addrs, List.mem_append, List.mem_cons, not_or] at h
    simp only [Tree.ptr_node, ne_eq, Option.some.injEq]
    omega

theorem ctxAddr_mem (ctx : List Frame) : ctxAddr ctx ∈ 0 :: ctxAddrs ctx := by
  cases ctx with
  | nil => simp [ctxAddr]
  | cons f fs => cases f <;> simp [ctxAddr, ctxAddrs, Frame.addr, Frame.addrs]

theorem ctxAddr_not_mem {ctx : List Frame} {S : List Nat} (h0 : 0 ∉ S)
    (hd : S.Disjoint (ctxAddrs ctx)) : ctxAddr ctx ∉ S := by
  intro h
  have := ctxAddr_mem ctx
  simp only [List.mem_cons] at this
  rcases this with e | e
  · rw [e] at h; exact h0 h
  · exact hd h e

theorem ctxAddr_ne {ctx : List Frame} {a : Nat} (h0 : 0 ≠ a) (hd : a ∉ ctxAddrs ctx) :
    ctxAddr ctx ≠ a := by
  intro h
  have := ctxAddr_mem ctx
  simp only [List.mem_cons] at this
  rcases this with e | e
  · omega
  · rw [h] at e; exact hd e

/-- Redirecting the child link of the parent of the position, the way the rotations do it
(`if (tP->left == this) tP->left.store(c) else tP->right.store(c)`). -/
theorem ReprCtx.relink {m : Store} {ctx : List Frame} {a : Nat} (hc : ReprCtx m ctx (some a))
    (hna : a ∉ ctxAddrs ctx) (hnd : (0 :: ctxAddrs ctx).Nodup) :
    ∃ pn, m[ctxAddr ctx]? = some pn ∧
      ∀ (m1 : Store) (c : Option Nat),
        (∀ x ∈ 0 :: ctxAddrs ctx, x ≠ ctxAddr ctx → m1[x]? = m[x]?) →
        m1[ctxAddr ctx]? = some (if pn.left = some a then { pn with left := c }
          else { pn with right := c }) →
        ReprCtx m1 ctx c := by
  cases ctx with
  | nil =>
    obtain ⟨r, hr⟩ := hc
    refine ⟨_, hr, ?_⟩
    intro m1 c _ h1
    simp only [ctxAddr, if_true] at h1
    exact ⟨r, h1⟩
  | cons f fs =>
    simp only [ctxAddrs, List.nodup_cons, List.nodup_append, List.mem_append,
      List.mem_cons, not_or, List.disjoint_cons_left, List.disjoint_cons_right,
      List.disjoint_append_left, List.disjoint_append_right] at hnd hna
    cases f with
    | L fa k v hh r =>
      obtain ⟨h1, h2, h3⟩ := hc
      refine ⟨_, h1, ?_⟩
      intro m1 c hag hp
      simp only [ctxAddr, Frame.addr, if_true] at hp hag
      simp only [Frame.addrs, List.mem_cons, not_or, List.nodup_cons,
        List.disjoint_cons_left] at hnd hna
      refine ⟨hp, h2.frame ?_, h3.ctx_frame ?_⟩
      · intro x hx
        refine hag x ?_ ?_
        · simp [ctxAddrs, Frame.addrs, hx]
        · rintro rfl; tauto
      · intro x hx
        refine hag x ?_ ?_
        · simp only [List.mem_cons] at hx
          simp only [ctxAddrs, List.mem_cons, List.mem_append]; tauto
        · rintro rfl
          simp only [List.mem_cons] at hx
          rcases hx with hx | hx
          · tauto
          · tauto
    | R l fa k v hh =>
      obtain ⟨h1, h2, h3⟩ := hc
      refine ⟨_, h1, ?_⟩
      intro m1 c hag hp
      simp only [Frame.addrs, List.mem_cons, not_or, List.nodup_cons,
        List.disjoint_cons_left] at hnd hna
      have hne : l.ptr ≠ some a := Tree.ptr_ne_of_not_mem (by tauto)
      simp only [ctxAddr, Frame.addr, hne, if_false] at hp hag
      refine ⟨hp, h2.frame ?_, h3.ctx_frame ?_⟩
      · intro x hx
        refine hag x ?_ ?_
        · simp [ctxAddrs, Frame.addrs, hx]
        · rintro rfl; tauto
      · intro x hx
        refine hag x ?_ ?_
        · simp only [List.mem_cons] at hx
          simp only [ctxAddrs, List.mem_cons, List.mem_append]; tauto
        · rintro rfl
          simp only [List.mem_cons] at hx
          rcases hx with hx | hx
          · tauto
          · tauto


theorem childHeight_repr {m : Store} {p : Option Nat} {t : Tree} (h : Repr m p t) :
    childHeight m t.ptr = some t.ch := by
  cases t with
  | nil => rfl
  | node l a k v hh r => simp [childHeight, h.1]

theorem bf_repr {m : Store} {p : Option Nat} {l r : Tree} {a : Nat} {k : Int} {v : Bool} {h : Int}
    (hr : Repr m p (Tree.node l a k v h r)) : bf m a = some (l.ch - r.ch) := by
  obtain ⟨h1, h2, h3⟩ := hr
  simp [bf, h1, childHeight_repr h2, childHeight_repr h3]

theorem fixHeight_repr {m : Store} {ctx : List Frame} {l r : Tree} {a : Nat} {k : Int} {v : Bool}
    {h : Int} (hz : ReprZ m ctx (Tree.node l a k v h r)) :
    ∃ m1, fixHeight m a = some m1 ∧ m1.length = m.length ∧
      ReprZ m1 ctx (Tree.node l a k v h r).fixHeight := by
  obtain ⟨hc, ⟨h1, h2, h3⟩, hnd⟩ := hz
  have e : fixHeight m a = some (m.set a
        ⟨l.ptr, r.ptr, some (ctxAddr ctx), if l.ch > r.ch then l.ch else r.ch, k, v⟩) := by
    simp [fixHeight, h1, childHeight_repr h2, childHeight_repr h3, storeHeight]
  refine ⟨_, e, by simp, ?_⟩
  have hnd0 := hnd
  simp only [Tree.addrs, List.nodup_cons, List.nodup_append, List.mem_append, List.mem_cons,
    not_or, List.disjoint_cons_left, List.disjoint_cons_right, List.disjoint_append_left,
    List.disjoint_append_right] at hnd
  refine ⟨hc.ctx_frame (agree_set (agree_refl _ _) ?_),
    ⟨?_, h2.frame (agree_set (agree_refl _ _) ?_), h3.frame (agree_set (agree_refl _ _) ?_)⟩,
    hnd0⟩
  · simp only [List.mem_cons, not_or]; tauto
  · rw [get_set h1, if_pos rfl]
  · tauto
  · tauto


theorem reprZ_cons {m : Store} {f : Frame} {fs : List Frame} {t : Tree} :
    ReprZ m (f :: fs) t ↔ ReprZ m fs (f.plug t) := by
  cases f with
  | L a k v h r =>
    simp only [ReprZ, ReprCtx, Frame.plug, Repr, ctxAddr, Frame.addr, Tree.ptr_node, ctxAddrs,
      Frame.addrs, Tree.addrs, List.append_assoc, List.cons_append]
    tauto
  | R l a k v h =>
    have hp : (0 :: (t.addrs ++ (a :: l.addrs ++ ctxAddrs fs))).Perm
        (0 :: ((l.addrs ++ a :: t.addrs) ++ ctxAddrs fs)) := by
      refine List.Perm.cons 0 ?_
      rw [← List.append_assoc]
      refine List.Perm.append_right _ ?_
      refine List.perm_append_comm.trans ?_
      simp only [List.cons_append]
      exact List.perm_middle.symm
    simp only [ReprZ, ReprCtx, Frame.plug, Repr, ctxAddr, Frame.addr, Tree.ptr_node, ctxAddrs,
      Frame.addrs, Tree.addrs, hp.nodup_iff]
    tauto

end pavltree

/-! ## Rotations on represented trees -/

namespace pavltree


theorem ne_of_mem_cons_zero {x a : Nat} {S : List Nat} (hx : x ∈ 0 :: S) (h0 : ¬ 0 = a)
    (hS : a ∉ S) : a ≠ x := by
  rintro rfl
  simp only [List.mem_cons] at hx
  rcases hx with hx | hx
  · exact h0 hx.symm
  · exact hS hx

set_option maxHeartbeats 2000000 in
/-- The link stores of `rotateLeft`, before the two calls of `fixHeight`. -/
theorem rotateLeft_links {m : Store} {ctx : List Frame} {l rl rr : Tree} {a ra : Nat}
    {k rk : Int} {v rv : Bool} {h rh : Int}
    (hz : ReprZ m ctx (Tree.node l a k v h (Tree.node rl ra rk rv rh rr))) :
    ∃ m6, rotateLeft m a = (fixHeight m6 a).bind (fun m7 => fixHeight m7 ra) ∧
      m6.length = m.length ∧
      ReprZ m6 ctx (Tree.node (Tree.node l a k v h rl) ra rk rv rh rr) := by
  obtain ⟨hc, ⟨h1, hl, hr1, hrl, hrr⟩, hnd⟩ := hz
  have hnd1 : (0 :: ((Tree.node (Tree.node l a k v h rl) ra rk rv rh rr).addrs ++
      ctxAddrs ctx)).Nodup := by
    simpa [Tree.addrs] using hnd
  have ha_lt := lt_of_get h1
  have hra_lt := lt_of_get hr1
  cases rl with
  | nil =>
    simp only [Tree.addrs, List.nodup_cons, List.nodup_append, List.mem_append,
      List.mem_cons, not_or, List.disjoint_cons_left, List.disjoint_cons_right,
      List.disjoint_append_left, List.disjoint_append_right, List.nil_append,
      List.not_mem_nil, not_false_eq_true, List.nodup_nil, List.disjoint_nil_left,
      List.disjoint_nil_right, true_and, and_true] at hnd
    casesm* _ ∧ _
    obtain ⟨pn, hpn, hrel⟩ := hc.relink (by assumption)
      (by simp only [List.nodup_cons]; exact ⟨by assumption, by assumption⟩)
    have hpa_lt := lt_of_get hpn
    have n1 : a ≠ ra := by omega
    have n2 : ctxAddr ctx ≠ a := ctxAddr_ne (by assumption) (by assumption)
    have n3 : ctxAddr ctx ≠ ra := ctxAddr_ne (by assumption) (by assumption)
    by_cases hpl : pn.left = some a <;>
    · simp only [rotateLeft, h1, hr1, hpn, hpl, storeLeft, storeRight, storeParent,
          List.getElem?_set,
          n1, n2, n3, n1.symm, n2.symm, n3.symm, ha_lt, hra_lt, hpa_lt, Option.bind_eq_bind,
          Option.some_bind, Tree.ptr_nil, Tree.ptr_node, List.length_set, if_true, if_false,
          ite_true, ite_false, reduceIte]
      refine ⟨_, rfl, by simp, ?_⟩
      refine ⟨hrel _ _ ?_ ?_, ⟨?_, ⟨?_, hl.frame ?_, trivial⟩, hrr.frame ?_⟩, hnd1⟩
      · intro x hx hne
        simp only [List.getElem?_set, List.length_set, ha_lt, hra_lt, hpa_lt, if_true]
        have e1 : a ≠ x := ne_of_mem_cons_zero hx (by assumption) (by assumption)
        have e2 : ra ≠ x := ne_of_mem_cons_zero hx (by assumption) (by assumption)
        simp only [e1, e2, hne.symm, if_false]
      all_goals first
        | (repeat (first | exact agree_refl _ _ | refine agree_set ?_ ?_)
           all_goals first
             | assumption
             | exact ctxAddr_not_mem (by assumption) (by assumption))
        | simp [List.getElem?_set, n1, n2, n3, n1.symm, n2.symm, n3.symm, ha_lt, hra_lt,
            hpa_lt, hpl]
  | node rll rla rlk rlv rlh rlr =>
    obtain ⟨hrl1, hrll, hrlr⟩ := hrl
    have hrla_lt := lt_of_get hrl1
    simp only [Tree.addrs, List.nodup_cons, List.nodup_append, List.mem_append,
      List.mem_cons, not_or, List.disjoint_cons_left, List.disjoint_cons_right,
      List.disjoint_append_left, List.disjoint_append_right] at hnd
    casesm* _ ∧ _
    obtain ⟨pn, hpn, hrel⟩ := hc.relink (by assumption)
      (by simp only [List.nodup_cons]; exact ⟨by assumption, by assumption⟩)
    have hpa_lt := lt_of_get hpn
    have n1 : a ≠ ra := by omega
    have n2 : ctxAddr ctx ≠ a := ctxAddr_ne (by assumption) (by assumption)
    have n3 : ctxAddr ctx ≠ ra := ctxAddr_ne (by assumption) (by assumption)
    have n4 : rla ≠ a := by omega
    have n5 : rla ≠ ra := by omega
    have n6 : ctxAddr ctx ≠ rla := ctxAddr_ne (by assumption) (by assumption)
    by_cases hpl : pn.left = some a <;>
    · simp only [rotateLeft, h1, hr1, hpn, hpl, hrl1, storeLeft, storeRight, storeParent,
          List.getElem?_set,
          n1, n2, n3, n4, n5, n6, n1.symm, n2.symm, n3.symm, n4.symm, n5.symm, n6.symm,
          ha_lt, hra_lt, hpa_lt, hrla_lt, Option.bind_eq_bind,
          Option.some_bind, Tree.ptr_nil, Tree.ptr_node, List.length_set, if_true, if_false,
          ite_true, ite_false, reduceIte]
      refine ⟨_, rfl, by simp, ?_⟩
      refine ⟨hrel _ _ ?_ ?_, ⟨?_, ⟨?_, hl.frame ?_, ?_, hrll.frame ?_, hrlr.frame ?_⟩,
        hrr.frame ?_⟩, hnd1⟩
      · intro x hx hne
        simp only [List.getElem?_set, List.length_set, ha_lt, hra_lt, hpa_lt, hrla_lt, if_true]
        have e1 : a ≠ x := ne_of_mem_cons_zero hx (by assumption) (by assumption)
        have e2 : ra ≠ x := ne_of_mem_cons_zero hx (by assumption) (by assumption)
        have e3 : rla ≠ x := ne_of_mem_cons_zero hx (by assumption) (by assumption)
        simp only [e1, e2, e3, hne.symm, if_false]
      all_goals first
        | (repeat (first | exact agree_refl _ _ | refine agree_set ?_ ?_)
           all_goals first
             | assumption
             | exact ctxAddr_not_mem (by assumption) (by assumption))
        | simp [List.getElem?_set, n1, n2, n3, n4, n5, n6, n1.symm, n2.symm, n3.symm, n4.symm,
            n5.symm, n6.symm, ha_lt, hra_lt, hpa_lt, hrla_lt, hpl]


set_option maxHeartbeats 2000000 in
/-- The link stores of `rotateRight`, before the two calls of `fixHeight`. -/
theorem rotateRight_links {m : Store} {ctx : List Frame} {ll lr r : Tree} {a la : Nat}
    {k lk : Int} {v lv : Bool} {h lh : Int}
    (hz : ReprZ m ctx (Tree.node (Tree.node ll la lk lv lh lr) a k v h r)) :
    ∃ m6, rotateRight m a = (fixHeight m6 a).bind (fun m7 => fixHeight m7 la) ∧
      m6.length = m.length ∧
      ReprZ m6 ctx (Tree.node ll la lk lv lh (Tree.node lr a k v h r)) := by
  obtain ⟨hc, ⟨h1, ⟨hl1, hll, hlr⟩, hr⟩, hnd⟩ := hz
  have hnd1 : (0 :: ((Tree.node ll la lk lv lh (Tree.node lr a k v h r)).addrs ++
      ctxAddrs ctx)).Nodup := by
    simpa [Tree.addrs] using hnd
  have ha_lt := lt_of_get h1
  have hla_lt := lt_of_get hl1
  cases lr with
  | nil =>
    simp only [Tree.addrs, List.nodup_cons, List.nodup_append, List.mem_append,
      List.mem_cons, not_or, List.disjoint_cons_left, List.disjoint_cons_right,
      List.disjoint_append_left, List.disjoint_append_right, List.nil_append,
      List.not_mem_nil, not_false_eq_true, List.nodup_nil, List.disjoint_nil_left,
      List.disjoint_nil_right, true_and, and_true] at hnd
    casesm* _ ∧ _
    obtain ⟨pn, hpn, hrel⟩ := hc.relink (by assumption)
      (by simp only [List.nodup_cons]; exact ⟨by assumption, by assumption⟩)
    have hpa_lt := lt_of_get hpn
    have n1 : la ≠ a := by omega
    have n2 : ctxAddr ctx ≠ a := ctxAddr_ne (by assumption) (by assumption)
    have n3 : ctxAddr ctx ≠ la := ctxAddr_ne (by assumption) (by assumption)
    by_cases hpl : pn.left = some a <;>
    · simp only [rotateRight, h1, hl1, hpn, hpl, storeLeft, storeRight, storeParent,
          List.getElem?_set,
          n1, n2, n3, n1.symm, n2.symm, n3.symm, ha_lt, hla_lt, hpa_lt, Option.bind_eq_bind,
          Option.some_bind, Tree.ptr_nil, Tree.ptr_node, List.length_set, if_true, if_false,
          ite_true, ite_false, reduceIte]
      refine ⟨_, rfl, by simp, ?_⟩
      refine ⟨hrel _ _ ?_ ?_, ⟨?_, hll.frame ?_, ?_, trivial, hr.frame ?_⟩, hnd1⟩
      · intro x hx hne
        simp only [List.getElem?_set, List.length_set, ha_lt, hla_lt, hpa_lt, if_true]
        have e1 : a ≠ x := ne_of_mem_cons_zero hx (by assumption) (by assumption)
        have e2 : la ≠ x := ne_of_mem_cons_zero hx (by assumption) (by assumption)
        simp only [e1, e2, hne.symm, if_false]
      all_goals first
        | (repeat (first | exact agree_refl _ _ | refine agree_set ?_ ?_)
           all_goals first
             | assumption
             | exact ctxAddr_not_mem (by assumption) (by assumption))
        | simp [List.getElem?_set, n1, n2, n3, n1.symm, n2.symm, n3.symm, ha_lt, hla_lt,
            hpa_lt, hpl]
  | node lrl lra lrk lrv lrh lrr =>
    obtain ⟨hlr1, hlrl, hlrr⟩ := hlr
    have hlra_lt := lt_of_get hlr1
    simp only [Tree.addrs, List.nodup_cons, List.nodup_append, List.mem_append,
      List.mem_cons, not_or, List.disjoint_cons_left, List.disjoint_cons_right,
      List.disjoint_append_left, List.disjoint_append_right] at hnd
    casesm* _ ∧ _
    obtain ⟨pn, hpn, hrel⟩ := hc.relink (by assumption)
      (by simp only [List.nodup_cons]; exact ⟨by assumption, by assumption⟩)
    have hpa_lt := lt_of_get hpn
    have n1 : la ≠ a := by omega
    have n2 : ctxAddr ctx ≠ a := ctxAddr_ne (by assumption) (by assumption)
    have n3 : ctxAddr ctx ≠ la := ctxAddr_ne (by assumption) (by assumption)
    have n4 : lra ≠ a := by omega
    have n5 : lra ≠ la := by omega
    have n6 : ctxAddr ctx ≠ lra := ctxAddr_ne (by assumption) (by assumption)
    by_cases hpl : pn.left = some a <;>
    · simp only [rotateRight, h1, hl1, hpn, hpl, hlr1, storeLeft, storeRight, storeParent,
          List.getElem?_set,
          n1, n2, n3, n4, n5, n6, n1.symm, n2.symm, n3.symm, n4.symm, n5.symm, n6.symm,
          ha_lt, hla_lt, hpa_lt, hlra_lt, Option.bind_eq_bind,
          Option.some_bind, Tree.ptr_nil, Tree.ptr_node, List.length_set, if_true, if_false,
          ite_true, ite_false, reduceIte]
      refine ⟨_, rfl, by simp, ?_⟩
      refine ⟨hrel _ _ ?_ ?_, ⟨?_, hll.frame ?_, ?_, ⟨?_, hlrl.frame ?_, hlrr.frame ?_⟩,
        hr.frame ?_⟩, hnd1⟩
      · intro x hx hne
        simp only [List.getElem?_set, List.length_set, ha_lt, hla_lt, hpa_lt, hlra_lt, if_true]
        have e1 : a ≠ x := ne_of_mem_cons_zero hx (by assumption) (by assumption)
        have e2 : la ≠ x := ne_of_mem_cons_zero hx (by assumption) (by assumption)
        have e3 : lra ≠ x := ne_of_mem_cons_zero hx (by assumption) (by assumption)
        simp only [e1, e2, e3, hne.symm, if_false]
      all_goals first
        | (repeat (first | exact agree_refl _ _ | refine agree_set ?_ ?_)
           all_goals first
             | assumption
             | exact ctxAddr_not_mem (by assumption) (by assumption))
        | simp [List.getElem?_set, n1, n2, n3, n4, n5, n6, n1.symm, n2.symm, n3.symm, n4.symm,
            n5.symm, n6.symm, ha_lt, hla_lt, hpa_lt, hlra_lt, hpl]




theorem rotateLeft_repr {m : Store} {ctx : List Frame} {t t1 : Tree} {a : Nat}
    (hz : ReprZ m ctx t) (ha : t.ptr = some a) (ht : t.rotateLeft = some t1) :
    ∃ m1, rotateLeft m a = some m1 ∧ m1.length = m.length ∧ ReprZ m1 ctx t1 ∧
      ∃ n, m1[a]? = some n ∧ n.parent = t1.ptr := by
  cases t with
  | nil => simp [Tree.rotateLeft] at ht
  | node l a0 k v h r =>
    cases r with
    | nil => simp [Tree.rotateLeft] at ht
    | node rl ra rk rv rh rr =>
      simp only [Tree.ptr_node, Option.some.injEq] at ha
      subst ha
      simp only [Tree.rotateLeft, Option.some.injEq] at ht
      subst ht
      obtain ⟨m6, e6, len6, hz6⟩ := rotateLeft_links hz
      have hz6a : ReprZ m6 (Frame.L ra rk rv rh rr :: ctx) (Tree.node l a0 k v h rl) :=
        reprZ_cons.2 hz6
      obtain ⟨m7, e7, len7, hz7⟩ := fixHeight_repr hz6a
      have hz7a := reprZ_cons.1 hz7
      simp only [Frame.plug] at hz7a
      obtain ⟨m8, e8, len8, hz8⟩ := fixHeight_repr hz7a
      refine ⟨m8, ?_, by omega, hz8, ?_⟩
      · rw [e6, e7]; exact e8
      · have := hz8.2.1
        simp only [Tree.fixHeight_node, Repr] at this
        exact ⟨_, this.2.1.1, rfl⟩

theorem rotateRight_repr {m : Store} {ctx : List Frame} {t t1 : Tree} {a : Nat}
    (hz : ReprZ m ctx t) (ha : t.ptr = some a) (ht : t.rotateRight = some t1) :
    ∃ m1, rotateRight m a = some m1 ∧ m1.length = m.length ∧ ReprZ m1 ctx t1 ∧
      ∃ n, m1[a]? = some n ∧ n.parent = t1.ptr := by
  cases t with
  | nil => simp [Tree.rotateRight] at ht
  | node l a0 k v h r =>
    cases l with
    | nil => simp [Tree.rotateRight] at ht
    | node ll la lk lv lh lr =>
      simp only [Tree.ptr_node, Option.some.injEq] at ha
      subst ha
      simp only [Tree.rotateRight, Option.some.injEq] at ht
      subst ht
      obtain ⟨m6, e6, len6, hz6⟩ := rotateRight_links hz
      have hz6a : ReprZ m6 (Frame.R ll la lk lv lh :: ctx) (Tree.node lr a0 k v h r) :=
        reprZ_cons.2 hz6
      obtain ⟨m7, e7, len7, hz7⟩ := fixHeight_repr hz6a
      have hz7a := reprZ_cons.1 hz7
      simp only [Frame.plug] at hz7a
      obtain ⟨m8, e8, len8, hz8⟩ := fixHeight_repr hz7a
      refine ⟨m8, ?_, by omega, hz8, ?_⟩
      · rw [e6, e7]; exact e8
      · have := hz8.2.1
        simp only [Tree.fixHeight_node, Repr] at this
        exact ⟨_, this.2.2.1, rfl⟩

theorem Tree.rotateLeft_ptr {t t1 : Tree} (h : t.rotateLeft = some t1) : t1.ptr ≠ none := by
  cases t with
  | nil => simp [Tree.rotateLeft] at h
  | node l a k v hh r =>
    cases r with
    | nil => simp [Tree.rotateLeft] at h
    | node rl ra rk rv rh rr =>
      simp only [Tree.rotateLeft, Option.some.injEq] at h
      subst h; simp

theorem Tree.rotateRight_ptr {t t1 : Tree} (h : t.rotateRight = some t1) : t1.ptr ≠ none := by
  cases t with
  | nil => simp [Tree.rotateRight] at h
  | node l a k v hh r =>
    cases l with
    | nil => simp [Tree.rotateRight] at h
    | node rl ra rk rv rh rr =>
      simp only [Tree.rotateRight, Option.some.injEq] at h
      subst h; simp

theorem doubleRotateLeft_repr {m : Store} {ctx : List Frame} {t t1 : Tree} {a : Nat}
    (hz : ReprZ m ctx t) (ha : t.ptr = some a) (ht : t.doubleRotateLeft = some t1) :
    ∃ m1, doubleRotateLeft m a = some m1 ∧ m1.length = m.length ∧ ReprZ m1 ctx t1 ∧
      ∃ n, m1[a]? = some n ∧ n.parent = t1.ptr := by
  cases t with
  | nil => simp [Tree.doubleRotateLeft] at ht
  | node l a0 k v h r =>
    cases r with
    | nil => simp [Tree.doubleRotateLeft] at ht
    | node rl ra rk rv rh rr =>
      simp only [Tree.ptr_node, Option.some.injEq] at ha
      subst ha
      have h1 := hz.2.1.1
      have hr1 := hz.2.1.2.2.1
      simp only [Tree.doubleRotateLeft] at ht
      simp only [doubleRotateLeft, h1, hr1, Option.bind_eq_bind, Option.some_bind, Tree.ptr_node]
      by_cases hrl : rl.ptr = none
      · simp only [hrl, ne_eq, not_true_eq_false, if_false] at ht ⊢
        exact rotateLeft_repr hz rfl ht
      · simp only [hrl, ne_eq, not_false_eq_true, if_true] at ht ⊢
        cases hrr : (Tree.node rl ra rk rv rh rr).rotateRight with
        | none => simp [hrr] at ht
        | some r1 =>
          simp only [hrr] at ht
          have hza : ReprZ m (Frame.R l a0 k v h :: ctx) (Tree.node rl ra rk rv rh rr) :=
            reprZ_cons.2 hz
          obtain ⟨m1, e1, len1, hz1, _⟩ := rotateRight_repr hza rfl hrr
          have hz1a := reprZ_cons.1 hz1
          simp only [Frame.plug] at hz1a
          obtain ⟨m2, e2, len2, hz2, hp2⟩ := rotateLeft_repr hz1a rfl ht
          refine ⟨m2, ?_, by omega, hz2, hp2⟩
          simp only [e1, Option.some_bind, e2]

theorem doubleRotateRight_repr {m : Store} {ctx : List Frame} {t t1 : Tree} {a : Nat}
    (hz : ReprZ m ctx t) (ha : t.ptr = some a) (ht : t.doubleRotateRight = some t1) :
    ∃ m1, doubleRotateRight m a = some m1 ∧ m1.length = m.length ∧ ReprZ m1 ctx t1 ∧
      ∃ n, m1[a]? = some n ∧ n.parent = t1.ptr := by
  cases t with
  | nil => simp [Tree.doubleRotateRight] at ht
  | node l a0 k v h r =>
    cases l with
    | nil => simp [Tree.doubleRotateRight] at ht
    | node ll la lk lv lh lr =>
      simp only [Tree.ptr_node, Option.some.injEq] at ha
      subst ha
      have h1 := hz.2.1.1
      have hl1 := hz.2.1.2.1.1
      simp only [Tree.doubleRotateRight] at ht
      simp only [doubleRotateRight, h1, hl1, Option.bind_eq_bind, Option.some_bind,
        Tree.ptr_node]
      by_cases hlr : lr.ptr = none
      · simp only [hlr, ne_eq, not_true_eq_false, if_false] at ht ⊢
        exact rotateRight_repr hz rfl ht
      · simp only [hlr, ne_eq, not_false_eq_true, if_true] at ht ⊢
        cases hll : (Tree.node ll la lk lv lh lr).rotateLeft with
        | none => simp [hll] at ht
        | some l1 =>
          simp only [hll] at ht
          have hza : ReprZ m (Frame.L a0 k v h r :: ctx) (Tree.node ll la lk lv lh lr) :=
            reprZ_cons.2 hz
          obtain ⟨m1, e1, len1, hz1, _⟩ := rotateLeft_repr hza rfl hll
          have hz1a := reprZ_cons.1 hz1
          simp only [Frame.plug] at hz1a
          obtain ⟨m2, e2, len2, hz2, hp2⟩ := rotateRight_repr hz1a rfl ht
          refine ⟨m2, ?_, by omega, hz2, hp2⟩
          simp only [e1, Option.some_bind, e2]


end pavltree

/-! ## The retrace loop on represented trees -/

namespace pavltree


theorem ReprZ.root_ne_zero {m : Store} {ctx : List Frame} {t : Tree} {a : Nat}
    (hz : ReprZ m ctx t) (ha : t.ptr = some a) : a ≠ 0 := by
  cases t with
  | nil => simp at ha
  | node l a0 k v h r =>
    simp only [Tree.ptr_node, Option.some.injEq] at ha
    subst ha
    have := hz.2.2
    simp only [Tree.addrs, List.nodup_cons, List.mem_append, List.mem_cons, not_or] at this
    omega

theorem loop_step {m : Store} {ctx : List Frame} {t t1 : Tree} {a : Nat} {key : Int}
    {rot : Bool} (hz : ReprZ m ctx t) (ha : t.ptr = some a)
    (hR : rebalanceT key t = some (t1, rot)) :
    ∃ m1 n, m1.length = m.length ∧ ReprZ m1 ctx t1 ∧ m1[a]? = some n ∧
      n.parent = (if rot then t1.ptr else some (ctxAddr ctx)) ∧
      ∀ fuel, fixHeightAndRebalanceLoop 0 key (fuel + 1) m (some a) =
        fixHeightAndRebalanceLoop 0 key fuel m1 n.parent := by
  have ha0 := hz.root_ne_zero ha
  cases t with
  | nil => simp at ha
  | node l a0 k v h r =>
    simp only [Tree.ptr_node, Option.some.injEq] at ha
    subst ha
    obtain ⟨m1, e1, len1, hz1⟩ := fixHeight_repr hz
    simp only [Tree.fixHeight_node] at hz1
    have hb := bf_repr hz1.2.1
    simp only [rebalanceT, Tree.fixHeight_node, Tree.bf_node] at hR
    generalize (if l.ch > r.ch then l.ch else r.ch) = h2 at hz1 hR
    have h1 := hz1.2.1.1
    by_cases c1 : l.ch - r.ch ≤ -2
    · simp only [c1, if_true] at hR
      cases r with
      | nil => simp at hR
      | node rl ra rk rv rh rr =>
        have hr1 := hz1.2.1.2.2.1
        by_cases c2 : key > rk
        · simp only [c2, if_true] at hR
          cases hrot : (Tree.node l a0 k v h2 (Tree.node rl ra rk rv rh rr)).rotateLeft with
          | none => simp [hrot] at hR
          | some t2 =>
            simp only [hrot, Option.some.injEq, Prod.mk.injEq] at hR
            obtain ⟨rfl, rfl⟩ := hR
            obtain ⟨m2, e2, len2, hz2, n, hn, hp⟩ := rotateLeft_repr hz1 rfl hrot
            refine ⟨m2, n, by omega, hz2, hn, by simpa using hp, ?_⟩
            intro fuel
            simp only [fixHeightAndRebalanceLoop, Option.some.injEq, ha0, if_false, e1, hb, c1,
              h1, hr1, c2, e2, hn, Option.bind_eq_bind, Option.some_bind, if_true,
              Tree.ptr_node]
        · simp only [c2, if_false] at hR
          cases hrot : (Tree.node l a0 k v h2 (Tree.node rl ra rk rv rh rr)).doubleRotateLeft with
          | none => simp [hrot] at hR
          | some t2 =>
            simp only [hrot, Option.some.injEq, Prod.mk.injEq] at hR
            obtain ⟨rfl, rfl⟩ := hR
            obtain ⟨m2, e2, len2, hz2, n, hn, hp⟩ := doubleRotateLeft_repr hz1 rfl hrot
            refine ⟨m2, n, by omega, hz2, hn, by simpa using hp, ?_⟩
            intro fuel
            simp only [fixHeightAndRebalanceLoop, Option.some.injEq, ha0, if_false, e1, hb, c1,
              h1, hr1, c2, e2, hn, Option.bind_eq_bind, Option.some_bind, if_true,
              Tree.ptr_node]
    · simp only [c1, if_false] at hR
      by_cases c3 : l.ch - r.ch ≥ 2
      · simp only [c3, if_true] at hR
        cases l with
        | nil => simp at hR
        | node ll la lk lv lh lr =>
          have hl1 := hz1.2.1.2.1.1
          by_cases c2 : key < lk
          · simp only [c2, if_true] at hR
            cases hrot : (Tree.node (Tree.node ll la lk lv lh lr) a0 k v h2 r).rotateRight with
            | none => simp [hrot] at hR
            | some t2 =>
              simp only [hrot, Option.some.injEq, Prod.mk.injEq] at hR
              obtain ⟨rfl, rfl⟩ := hR
              obtain ⟨m2, e2, len2, hz2, n, hn, hp⟩ := rotateRight_repr hz1 rfl hrot
              refine ⟨m2, n, by omega, hz2, hn, by simpa using hp, ?_⟩
              intro fuel
              simp only [fixHeightAndRebalanceLoop, Option.some.injEq, ha0, if_false, e1, hb,
                c1, c3, h1, hl1, c2, e2, hn, Option.bind_eq_bind, Option.some_bind, if_true,
                Tree.ptr_node]
          · simp only [c2, if_false] at hR
            cases hrot : (Tree.node (Tree.node ll la lk lv lh lr) a0 k v h2 r).doubleRotateRight with
            | none => simp [hrot] at hR
            | some t2 =>
              simp only [hrot, Option.some.injEq, Prod.mk.injEq] at hR
              obtain ⟨rfl, rfl⟩ := hR
              obtain ⟨m2, e2, len2, hz2, n, hn, hp⟩ := doubleRotateRight_repr hz1 rfl hrot
              refine ⟨m2, n, by omega, hz2, hn, by simpa using hp, ?_⟩
              intro fuel
              simp only [fixHeightAndRebalanceLoop, Option.some.injEq, ha0, if_false, e1, hb,
                c1, c3, h1, hl1, c2, e2, hn, Option.bind_eq_bind, Option.some_bind, if_true,
                Tree.ptr_node]
      · simp only [c3, if_false, Option.some.injEq, Prod.mk.injEq] at hR
        obtain ⟨rfl, rfl⟩ := hR
        refine ⟨m1, _, len1, hz1, h1, by simp, ?_⟩
        intro fuel
        simp only [fixHeightAndRebalanceLoop, Option.some.injEq, ha0, if_false, e1, hb,
          c1, c3, h1, Option.bind_eq_bind, Option.some_bind, if_true]

theorem retrace_repr (key : Int) (fuel : Nat) : ∀ {m : Store} {ctx : List Frame} {t T : Tree}
    {a : Nat}, ReprZ m ctx t → t.ptr = some a → retraceT key fuel ctx t = some T →
    ∃ m1, fixHeightAndRebalanceLoop 0 key (fuel + 1) m (some a) = some m1 ∧
      m1.length = m.length ∧ ReprZ m1 [] T := by
  induction fuel with
  | zero => intro m ctx t T a _ _ h; simp [retraceT] at h
  | succ fuel ih =>
    intro m ctx t T a hz ha hT
    simp only [retraceT] at hT
    cases hR : rebalanceT key t with
    | none => simp [hR] at hT
    | some p =>
      obtain ⟨t1, rot⟩ := p
      obtain ⟨m1, n, len1, hz1, hn, hp, hloop⟩ := loop_step hz ha hR
      rw [hloop]
      cases rot with
      | true =>
        simp only [hR] at hT
        simp only [if_true] at hp
        cases hpt : t1.ptr with
        | none =>
          cases t1 with
          | nil => cases fuel <;> simp [retraceT, rebalanceT, Tree.fixHeight] at hT
          | node _ _ _ _ _ _ => simp at hpt
        | some a1 =>
          rw [hp, hpt]
          obtain ⟨m2, e2, len2, hz2⟩ := ih hz1 hpt hT
          exact ⟨m2, e2, by omega, hz2⟩
      | false =>
        simp only [hR] at hT
        simp only [Bool.false_eq_true, if_false] at hp
        cases ctx with
        | nil =>
          simp only [Option.some.injEq] at hT
          subst hT
          refine ⟨m1, ?_, len1, hz1⟩
          rw [hp]
          simp [fixHeightAndRebalanceLoop, ctxAddr]
        | cons f fs =>
          simp only at hT
          have hz1a := reprZ_cons.1 hz1
          have hpf : (f.plug t1).ptr = some (ctxAddr (f :: fs)) := by
            cases f <;> simp [Frame.plug, ctxAddr, Frame.addr]
          rw [hp]
          obtain ⟨m2, e2, len2, hz2⟩ := ih hz1a hpf hT
          exact ⟨m2, e2, by omega, hz2⟩


end pavltree

/-! ## The descents of `contains`, `remove` and `add` on represented trees -/

namespace pavltree


theorem containsLoop_repr {m : Store} {p : Option Nat} {t : Tree} (key : Int) (h : Repr m p t)
    (fuel : Nat) (hf : t.size ≤ fuel) : containsLoop m key fuel t.ptr = some (t.lookup key) := by
  induction t generalizing p fuel with
  | nil => cases fuel <;> rfl
  | node l a k v hh r ihl ihr =>
    obtain ⟨h1, h2, h3⟩ := h
    cases fuel with
    | zero => simp [Tree.size] at hf
    | succ fuel =>
      simp only [Tree.size] at hf
      simp only [Tree.ptr_node, containsLoop, h1, Tree.lookup]
      by_cases c1 : k = key
      · cases v <;> simp [c1]
      · by_cases c2 : k > key
        · simp only [c1, c2, if_false, if_true]
          exact ihl h2 fuel (by omega)
        · simp only [c1, c2, if_false]
          exact ihr h3 fuel (by omega)

theorem agree_append {m : Store} {S : List Nat} (n : Node) (h : ∀ x ∈ S, x < m.length) :
    ∀ x ∈ S, (m ++ [n])[x]? = m[x]? := by
  intro x hx
  exact List.getElem?_append_left (h x hx)

namespace Tree

@[simp] theorem erase_ptr (key : Int) (t : Tree) : (t.erase key).1.ptr = t.ptr := by
  cases t with
  | nil => rfl
  | node l a k v h r => simp only [erase]; split_ifs <;> rfl

@[simp] theorem erase_addrs (key : Int) (t : Tree) : (t.erase key).1.addrs = t.addrs := by
  induction t with
  | nil => rfl
  | node l a k v h r ihl ihr => simp only [erase]; split_ifs <;> simp [addrs, ihl, ihr]

@[simp] theorem erase_size (key : Int) (t : Tree) : (t.erase key).1.size = t.size := by
  induction t with
  | nil => rfl
  | node l a k v h r ihl ihr => simp only [erase]; split_ifs <;> simp [size, ihl, ihr]

@[simp] theorem erase_keys (key : Int) (t : Tree) : (t.erase key).1.keys = t.keys := by
  induction t with
  | nil => rfl
  | node l a k v h r ihl ihr => simp only [erase]; split_ifs <;> simp [keys, ihl, ihr]

@[simp] theorem erase_ht (key : Int) (t : Tree) : (t.erase key).1.ht = t.ht := by
  induction t with
  | nil => rfl
  | node l a k v h r ihl ihr => simp only [erase]; split_ifs <;> simp [ht, ihl, ihr]

theorem erase_good (key : Int) {t : Tree} (h : t.Good) : (t.erase key).1.Good := by
  induction t with
  | nil => trivial
  | node l a k v hh r ihl ihr =>
    obtain ⟨h1, h2, h3⟩ := h
    simp only [erase]; split_ifs <;> simp only [Good, erase_ht] <;> exact ⟨by tauto, by tauto, h3⟩

@[simp] theorem revive_ptr (key : Int) (t : Tree) : (t.revive key).ptr = t.ptr := by
  cases t with
  | nil => rfl
  | node l a k v h r => simp only [revive]; split_ifs <;> rfl

@[simp] theorem revive_addrs (key : Int) (t : Tree) : (t.revive key).addrs = t.addrs := by
  induction t with
  | nil => rfl
  | node l a k v h r ihl ihr => simp only [revive]; split_ifs <;> simp [addrs, ihl, ihr]

@[simp] theorem revive_size (key : Int) (t : Tree) : (t.revive key).size = t.size := by
  induction t with
  | nil => rfl
  | node l a k v h r ihl ihr => simp only [revive]; split_ifs <;> simp [size, ihl, ihr]

@[simp] theorem revive_keys (key : Int) (t : Tree) : (t.revive key).keys = t.keys := by
  induction t with
  | nil => rfl
  | node l a k v h r ihl ihr => simp only [revive]; split_ifs <;> simp [keys, ihl, ihr]

@[simp] theorem revive_ht (key : Int) (t : Tree) : (t.revive key).ht = t.ht := by
  induction t with
  | nil => rfl
  | node l a k v h r ihl ihr => simp only [revive]; split_ifs <;> simp [ht, ihl, ihr]

theorem revive_good (key : Int) {t : Tree} (h : t.Good) : (t.revive key).Good := by
  induction t with
  | nil => trivial
  | node l a k v hh r ihl ihr =>
    obtain ⟨h1, h2, h3⟩ := h
    simp only [revive]; split_ifs <;> simp only [Good, revive_ht] <;> exact ⟨by tauto, by tauto, h3⟩

end Tree

/-- The loop of `remove` on a represented tree. -/
theorem removeLoop_repr {m : Store} {p : Option Nat} {t : Tree} (key : Int) (h : Repr m p t)
    (hnd : t.addrs.Nodup) (fuel : Nat) (hf : t.size ≤ fuel) :
    ∃ m1, removeLoop m key fuel t.ptr = some (m1, (t.erase key).2) ∧
      m1.length = m.length ∧ Repr m1 p (t.erase key).1 ∧
      (∀ x, x ∉ t.addrs → m1[x]? = m[x]?) ∧
      ((t.erase key).2 = false → m1 = m) ∧
      ((t.erase key).2 = true → ∃ c n, c ∈ t.addrs ∧ m[c]? = some n ∧ n.key = key ∧
        n.has_value = true ∧ m1 = m.set c { n with has_value := false }) := by
  induction t generalizing p fuel with
  | nil =>
    refine ⟨m, ?_, rfl, trivial, fun _ _ => rfl, fun _ => rfl, ?_⟩
    · cases fuel <;> rfl
    · simp [Tree.erase]
  | node l a k v hh r ihl ihr =>
    obtain ⟨h1, h2, h3⟩ := h
    simp only [Tree.addrs, List.nodup_append, List.nodup_cons, List.disjoint_cons_right] at hnd
    obtain ⟨ndl, ⟨nar, ndr⟩, nal, dlr⟩ := hnd
    cases fuel with
    | zero => simp [Tree.size] at hf
    | succ fuel =>
      simp only [Tree.size] at hf
      simp only [Tree.ptr_node, removeLoop, h1, Tree.erase]
      by_cases c1 : k = key
      · subst c1
        simp only [↓reduceIte]
        cases v with
        | true =>
          simp only [if_true, storeHasValue_eq h1]
          refine ⟨_, rfl, by simp, ⟨?_, h2.frame ?_, h3.frame ?_⟩, ?_, by simp, ?_⟩
          · rw [get_set h1, if_pos rfl]
          · exact agree_set (agree_refl _ _) nal
          · exact agree_set (agree_refl _ _) nar
          · intro x hx
            rw [List.getElem?_set_ne]
            rintro rfl
            exact hx (by simp [Tree.addrs])
          · intro _
            exact ⟨a, _, by simp [Tree.addrs], h1, rfl, rfl, rfl⟩
        | false =>
          simp only [Bool.false_eq_true, if_false]
          refine ⟨_, rfl, rfl, ⟨h1, h2, h3⟩, fun _ _ => rfl, fun _ => rfl, by simp⟩
      · by_cases c2 : k > key
        · simp only [c1, c2, if_false, if_true]
          obtain ⟨m1, e1, len1, hr1, hag, hf1, ht1⟩ := ihl h2 ndl fuel (by omega)
          refine ⟨m1, e1, len1, ⟨?_, hr1, h3.frame ?_⟩, ?_, hf1, ?_⟩
          · rw [hag a nal, Tree.erase_ptr]; exact h1
          · intro x hx; exact hag x (fun h => dlr h hx)
          · intro x hx; exact hag x (fun h => hx (by simp [Tree.addrs, h]))
          · intro hb
            obtain ⟨c, n, hc, hm, hk, hv, hm1⟩ := ht1 hb
            exact ⟨c, n, by simp [Tree.addrs, hc], hm, hk, hv, hm1⟩
        · simp only [c1, c2, if_false]
          obtain ⟨m1, e1, len1, hr1, hag, hf1, ht1⟩ := ihr h3 ndr fuel (by omega)
          refine ⟨m1, e1, len1, ⟨?_, h2.frame ?_, hr1⟩, ?_, hf1, ?_⟩
          · rw [hag a nar, Tree.erase_ptr]; exact h1
          · intro x hx; exact hag x (fun h => dlr hx h)
          · intro x hx; exact hag x (fun h => hx (by simp [Tree.addrs, h]))
          · intro hb
            obtain ⟨c, n, hc, hm, hk, hv, hm1⟩ := ht1 hb
            exact ⟨c, n, by simp [Tree.addrs, hc], hm, hk, hv, hm1⟩




theorem storeHasValue_repr {m : Store} {ctx : List Frame} {l r : Tree} {a : Nat} {k : Int}
    {v : Bool} {h : Int} (b : Bool) (hz : ReprZ m ctx (Tree.node l a k v h r)) :
    ∃ m1, storeHasValue m a b = some m1 ∧ m1.length = m.length ∧
      ReprZ m1 ctx (Tree.node l a k b h r) ∧
      m1 = m.set a ⟨l.ptr, r.ptr, some (ctxAddr ctx), h, k, b⟩ := by
  obtain ⟨hc, ⟨h1, h2, h3⟩, hnd⟩ := hz
  refine ⟨_, storeHasValue_eq h1 b, by simp, ?_, rfl⟩
  have hnd0 := hnd
  simp only [Tree.addrs, List.nodup_cons, List.nodup_append, List.mem_append, List.mem_cons,
    not_or, List.disjoint_cons_left, List.disjoint_cons_right, List.disjoint_append_left,
    List.disjoint_append_right] at hnd
  refine ⟨hc.ctx_frame (agree_set (agree_refl _ _) ?_),
    ⟨?_, h2.frame (agree_set (agree_refl _ _) ?_), h3.frame (agree_set (agree_refl _ _) ?_)⟩,
    hnd0⟩
  · simp only [List.mem_cons, not_or]; tauto
  · rw [get_set h1, if_pos rfl]
  · tauto
  · tauto

theorem lockGuard_free {β : Type} (m : Store) (rh : Nat) (body : Store → Option (Store × β)) :
    lockGuard ⟨m, rh, ⟨false⟩⟩ body = (body m).map (fun p => (⟨p.1, rh, ⟨false⟩⟩, p.2)) := by
  simp only [lockGuard, SpinLock.lock, Bool.not_false, if_true, Bool.not_true,
    Bool.false_eq_true, if_false, SpinLock.unlock]
  cases body m with
  | none => rfl
  | some p => rfl

/-- Attaching a new leaf below the node at `a`, on its left. -/
theorem attach_left {s : PTreeSet} {ctx : List Frame} {a : Nat} {k : Int} {v : Bool} {h : Int}
    {r : Tree} {key : Int} (hk : toInt (toUnsigned key) = key)
    (hl : s.balance_lock = { p := false })
    (hz : ReprZ s.heap (Frame.L a k v h r :: ctx) Tree.nil) (hlt : k > key) :
    ∃ m1, tryInsert { s with heap := s.heap ++ [Node.new (toUnsigned key) (some a)] } a
        s.heap.length = some ({ s with heap := m1 }, true) ∧
      m1.length = s.heap.length + 1 ∧
      ReprZ m1 (Frame.L a k v h r :: ctx) (Tree.node Tree.nil s.heap.length key true 0 Tree.nil) := by
  obtain ⟨⟨h1, hr, hc⟩, -, hnd⟩ := hz
  have ha_lt := lt_of_get h1
  have hne : a ≠ s.heap.length := by omega
  have hlt_r := hr.addr_lt
  have hlt_c := hc.ctx_lt
  have e1 : (s.heap ++ [Node.new (toUnsigned key) (some a)])[a]? = s.heap[a]? :=
    List.getElem?_append_left ha_lt
  have e2 : (s.heap ++ [Node.new (toUnsigned key) (some a)])[s.heap.length]? =
      some (Node.new (toUnsigned key) (some a)) := List.getElem?_concat_length _ _
  simp only [Tree.addrs, ctxAddrs, Frame.addrs, List.nil_append, List.nodup_cons,
    List.nodup_append, List.mem_append, List.mem_cons, not_or, List.disjoint_cons_left,
    List.disjoint_cons_right, List.disjoint_append_left, List.disjoint_append_right,
    List.cons_append] at hnd
  refine ⟨(s.heap ++ [Node.new (toUnsigned key) (some a)]).set a
    ⟨some s.heap.length, r.ptr, some (ctxAddr ctx), h, k, v⟩, ?_, ?_, ?_⟩
  · rw [tryInsert, hl, lockGuard_free]
    have e3 : (Node.new (toUnsigned key) (some a)).key = key := hk
    simp only [tryInsertBody, e1, e2, h1, e3, hlt, Option.bind_eq_bind,
      Option.some_bind, if_true, Tree.ptr_nil, ne_eq, not_true_eq_false, if_false, storeLeft,
      Option.map_some']
  · simp
  · refine ⟨⟨?_, hr.frame ?_, hc.ctx_frame ?_⟩, ⟨?_, trivial, trivial⟩, ?_⟩
    · rw [List.getElem?_set_self (by simp; omega)]; rfl
    · exact agree_set (agree_append _ hlt_r) (by tauto)
    · refine agree_set (agree_append _ hlt_c) ?_
      simp only [List.mem_cons, not_or]; tauto
    · rw [List.getElem?_set_ne hne, e2]
      simp [Node.new, hk, ctxAddr, Frame.addr]
    · have n1 : s.heap.length ∉ r.addrs := fun hx => absurd (hlt_r _ hx) (by omega)
      have n2 : s.heap.length ∉ ctxAddrs ctx := fun hx =>
        absurd (hlt_c _ (List.mem_cons_of_mem _ hx)) (by omega)
      have n3 : 0 ≠ s.heap.length := by omega
      simp only [Tree.addrs, ctxAddrs, Frame.addrs, List.nil_append, List.nodup_cons,
        List.nodup_append, List.mem_append, List.mem_cons, not_or, List.disjoint_cons_left,
        List.disjoint_cons_right, List.disjoint_append_left, List.disjoint_append_right,
        List.cons_append, List.not_mem_nil, not_false_eq_true, List.nodup_nil]
      tauto



/-- Attaching a new leaf below the node at `a`, on its right. -/
theorem attach_right {s : PTreeSet} {ctx : List Frame} {a : Nat} {k : Int} {v : Bool} {h : Int}
    {l : Tree} {key : Int} (hk : toInt (toUnsigned key) = key)
    (hl : s.balance_lock = { p := false })
    (hz : ReprZ s.heap (Frame.R l a k v h :: ctx) Tree.nil) (hlt : k < key) :
    ∃ m1, tryInsert { s with heap := s.heap ++ [Node.new (toUnsigned key) (some a)] } a
        s.heap.length = some ({ s with heap := m1 }, true) ∧
      m1.length = s.heap.length + 1 ∧
      ReprZ m1 (Frame.R l a k v h :: ctx) (Tree.node Tree.nil s.heap.length key true 0 Tree.nil) := by
  obtain ⟨⟨h1, hr, hc⟩, -, hnd⟩ := hz
  have ha_lt := lt_of_get h1
  have hne : a ≠ s.heap.length := by omega
  have hlt_r := hr.addr_lt
  have hlt_c := hc.ctx_lt
  have e1 : (s.heap ++ [Node.new (toUnsigned key) (some a)])[a]? = s.heap[a]? :=
    List.getElem?_append_left ha_lt
  have e2 : (s.heap ++ [Node.new (toUnsigned key) (some a)])[s.heap.length]? =
      some (Node.new (toUnsigned key) (some a)) := List.getElem?_concat_length _ _
  simp only [Tree.addrs, ctxAddrs, Frame.addrs, List.nil_append, List.nodup_cons,
    List.nodup_append, List.mem_append, List.mem_cons, not_or, List.disjoint_cons_left,
    List.disjoint_cons_right, List.disjoint_append_left, List.disjoint_append_right,
    List.cons_append] at hnd
  refine ⟨(s.heap ++ [Node.new (toUnsigned key) (some a)]).set a
    ⟨l.ptr, some s.heap.length, some (ctxAddr ctx), h, k, v⟩, ?_, ?_, ?_⟩
  · rw [tryInsert, hl, lockGuard_free]
    have e3 : (Node.new (toUnsigned key) (some a)).key = key := hk
    have hlt2 : ¬ k > key := by omega
    simp only [tryInsertBody, e1, e2, h1, e3, hlt, hlt2, Option.bind_eq_bind,
      Option.some_bind, if_true, Tree.ptr_nil, ne_eq, not_true_eq_false, if_false, storeRight,
      Option.map_some']
  · simp
  · refine ⟨⟨?_, hr.frame ?_, hc.ctx_frame ?_⟩, ⟨?_, trivial, trivial⟩, ?_⟩
    · rw [List.getElem?_set_self (by simp; omega)]; rfl
    · exact agree_set (agree_append _ hlt_r) (by tauto)
    · refine agree_set (agree_append _ hlt_c) ?_
      simp only [List.mem_cons, not_or]; tauto
    · rw [List.getElem?_set_ne hne, e2]
      simp [Node.new, hk, ctxAddr, Frame.addr]
    · have n1 : s.heap.length ∉ l.addrs := fun hx => absurd (hlt_r _ hx) (by omega)
      have n2 : s.heap.length ∉ ctxAddrs ctx := fun hx =>
        absurd (hlt_c _ (List.mem_cons_of_mem _ hx)) (by omega)
      have n3 : 0 ≠ s.heap.length := by omega
      simp only [Tree.addrs, ctxAddrs, Frame.addrs, List.nil_append, List.nodup_cons,
        List.nodup_append, List.mem_append, List.mem_cons, not_or, List.disjoint_cons_left,
        List.disjoint_cons_right, List.disjoint_append_left, List.disjoint_append_right,
        List.cons_append, List.not_mem_nil, not_false_eq_true, List.nodup_nil]
      tauto

/-- The `for (;;)` loop of `add` on a represented tree: it ends at the position `descendT`
gives, either reviving the node found there or attaching a new leaf. -/
theorem addDescend_repr {key : Int} (hk : toInt (toUnsigned key) = key) (t : Tree) :
    ∀ (ctx : List Frame) (s : PTreeSet) (a fuel : Nat), ReprZ s.heap ctx t → t.ptr = some a →
      t.size ≤ fuel → s.balance_lock = { p := false } →
      (∀ l1 a1 k1 v1 h1 r1, (descendT key ctx t).2 = Tree.node l1 a1 k1 v1 h1 r1 →
        k1 = key ∧ ReprZ s.heap (descendT key ctx t).1 (Tree.node l1 a1 k1 v1 h1 r1) ∧
        ∃ m1, addDescend key fuel s a = some (AddPass.ret { s with heap := m1 } (!v1)) ∧
          ReprZ m1 (descendT key ctx t).1 (Tree.node l1 a1 k1 true h1 r1) ∧
          m1 = (if v1 then s.heap else s.heap.set a1
            ⟨l1.ptr, r1.ptr, some (ctxAddr (descendT key ctx t).1), h1, k1, true⟩)) ∧
      ((descendT key ctx t).2 = Tree.nil →
        ∃ m1, addDescend key fuel s a =
            some (AddPass.attached { s with heap := m1 } s.heap.length) ∧
          m1.length = s.heap.length + 1 ∧
          ReprZ m1 (descendT key ctx t).1
            (Tree.node Tree.nil s.heap.length key true 0 Tree.nil)) := by
  induction t with
  | nil => intro ctx s a fuel _ ha; simp at ha
  | node l a0 k v h r ihl ihr =>
    intro ctx s a fuel hz ha hf hl
    simp only [Tree.ptr_node, Option.some.injEq] at ha
    subst ha
    have h1 := hz.2.1.1
    cases fuel with
    | zero => simp [Tree.size] at hf
    | succ fuel =>
      simp only [Tree.size] at hf
      by_cases c1 : k = key
      · subst c1
        simp only [descendT, ↓reduceIte]
        refine ⟨?_, by simp⟩
        intro l1 a1 k1 v1 hh1 r1 e
        simp only [Tree.node.injEq] at e
        obtain ⟨rfl, rfl, rfl, rfl, rfl, rfl⟩ := e
        refine ⟨rfl, hz, ?_⟩
        cases v with
        | true =>
          refine ⟨s.heap, ?_, hz, by simp⟩
          simp [addDescend, h1]
        | false =>
          obtain ⟨m1, e1, len1, hz1, em⟩ := storeHasValue_repr true hz
          refine ⟨m1, ?_, hz1, by simpa using em⟩
          simp [addDescend, h1, e1]
      · by_cases c2 : k > key
        · simp only [descendT, c1, c2, if_false, if_true]
          cases l with
          | nil =>
            simp only [descendT]
            refine ⟨by simp, fun _ => ?_⟩
            obtain ⟨m1, e1, len1, hz1⟩ := attach_left hk hl (reprZ_cons.2 hz) c2
            refine ⟨m1, ?_, len1, hz1⟩
            simp only [addDescend, h1, c1, c2, if_false, if_true, Tree.ptr_nil, ne_eq,
              not_true_eq_false, alloc, e1]
          | node ll la lk lv lh lr =>
            have hz' : ReprZ s.heap (Frame.L a0 k v h r :: ctx) (Tree.node ll la lk lv lh lr) :=
              reprZ_cons.2 hz
            have := ihl (Frame.L a0 k v h r :: ctx) s la fuel hz' rfl (by omega) hl
            have e : addDescend key (fuel + 1) s a0 = addDescend key fuel s la := by
              simp only [addDescend, h1, c1, c2, if_false, if_true, Tree.ptr_node, ne_eq,
                not_false_eq_true, reduceCtorEq]
            rw [e]
            exact this
        · have c3 : k < key := by omega
          simp only [descendT, c1, c2, if_false]
          cases r with
          | nil =>
            simp only [descendT]
            refine ⟨by simp, fun _ => ?_⟩
            obtain ⟨m1, e1, len1, hz1⟩ := attach_right hk hl (reprZ_cons.2 hz) c3
            refine ⟨m1, ?_, len1, hz1⟩
            simp only [addDescend, h1, c1, c2, if_false, if_true, Tree.ptr_nil, ne_eq,
              not_true_eq_false, alloc, e1]
          | node rl ra rk rv rh rr =>
            have hz' : ReprZ s.heap (Frame.R l a0 k v h :: ctx) (Tree.node rl ra rk rv rh rr) :=
              reprZ_cons.2 hz
            have := ihr (Frame.R l a0 k v h :: ctx) s ra fuel hz' rfl (by omega) hl
            have e : addDescend key (fuel + 1) s a0 = addDescend key fuel s ra := by
              simp only [addDescend, h1, c1, c2, if_false, if_true, Tree.ptr_node, ne_eq,
                not_false_eq_true, reduceCtorEq]
            rw [e]
            exact this


end pavltree

/-! ## Facts about trees and positions -/

namespace pavltree


/-! ### Positions -/

theorem plug_pairs (ctx : List Frame) (t : Tree) :
    (plug ctx t).pairs = ctxBefore ctx ++ t.pairs ++ ctxAfter ctx := by
  induction ctx generalizing t with
  | nil => simp [plug, ctxBefore, ctxAfter]
  | cons f fs ih =>
    cases f with
    | L a k v h r => simp [plug, ih, Frame.plug, Tree.pairs, ctxBefore, ctxAfter]
    | R l a k v h => simp [plug, ih, Frame.plug, Tree.pairs, ctxBefore, ctxAfter]

theorem plug_size (ctx : List Frame) (t : Tree) : (plug ctx t).size = ctxSize ctx + t.size := by
  induction ctx generalizing t with
  | nil => simp [plug, ctxSize]
  | cons f fs ih =>
    cases f with
    | L a k v h r => simp [plug, ih, Frame.plug, Tree.size, ctxSize, Frame.size]; omega
    | R l a k v h => simp [plug, ih, Frame.plug, Tree.size, ctxSize, Frame.size]; omega

theorem length_le_ctxSize (ctx : List Frame) : ctx.length ≤ ctxSize ctx := by
  induction ctx with
  | nil => simp
  | cons f fs ih => cases f <;> simp [ctxSize, Frame.size] <;> omega

theorem plug_good (ctx : List Frame) (t : Tree) :
    (plug ctx t).Good ↔ t.Good ∧ CtxGood ctx t.ht := by
  induction ctx generalizing t with
  | nil => simp [plug, CtxGood]
  | cons f fs ih =>
    cases f with
    | L a k v h r =>
      simp only [plug, ih, Frame.plug, Tree.Good, CtxGood, Tree.ht]
      tauto
    | R l a k v h =>
      simp only [plug, ih, Frame.plug, Tree.Good, CtxGood, Tree.ht]
      tauto

theorem plug_descendT (key : Int) (t : Tree) (ctx : List Frame) :
    plug (descendT key ctx t).1 (descendT key ctx t).2 = plug ctx t := by
  induction t generalizing ctx with
  | nil => rfl
  | node l a k v h r ihl ihr =>
    simp only [descendT]
    split_ifs
    · rfl
    · rw [ihl]; rfl
    · rw [ihr]; rfl

theorem descendT_key (key : Int) (t : Tree) (ctx : List Frame) {l1 r1 : Tree} {a1 : Nat}
    {k1 h1 : Int} {v1 : Bool} (h : (descendT key ctx t).2 = Tree.node l1 a1 k1 v1 h1 r1) :
    k1 = key := by
  induction t generalizing ctx with
  | nil => simp [descendT] at h
  | node l a k v hh r ihl ihr =>
    simp only [descendT] at h
    split_ifs at h with c1 c2
    · simp only [Tree.node.injEq] at h; omega
    · exact ihl _ h
    · exact ihr _ h

/-! ### Ordering -/

namespace Tree

theorem bst_node {l r : Tree} {a : Nat} {k : Int} {v : Bool} {h : Int} :
    (node l a k v h r).BST ↔
      l.BST ∧ r.BST ∧ (∀ x ∈ l.keys, x < k) ∧ (∀ x ∈ r.keys, k < x) := by
  simp only [BST, keys, List.pairwise_append, List.pairwise_cons, List.mem_cons]
  constructor
  · rintro ⟨h1, ⟨h2, h3⟩, h4⟩
    exact ⟨h1, h3, fun x hx => h4 x hx k (Or.inl rfl), h2⟩
  · rintro ⟨h1, h2, h3, h4⟩
    refine ⟨h1, ⟨h4, h2⟩, ?_⟩
    intro x hx y hy
    rcases hy with rfl | hy
    · exact h3 x hx
    · exact lt_trans (h3 x hx) (h4 y hy)

theorem mem_keys_iff {t : Tree} {x : Int} : x ∈ t.keys ↔ ∃ b, (x, b) ∈ t.pairs := by
  rw [← map_fst_pairs]
  simp

theorem lookup_iff {t : Tree} (key : Int) (h : t.BST) :
    t.lookup key = true ↔ (key, true) ∈ t.pairs := by
  induction t with
  | nil => simp [lookup, pairs]
  | node l a k v hh r ihl ihr =>
    obtain ⟨h1, h2, h3, h4⟩ := bst_node.1 h
    simp only [lookup, pairs, List.mem_append, List.mem_cons, Prod.mk.injEq]
    have hl : ∀ b, (key, b) ∈ l.pairs → key < k := fun b hb => h3 _ (mem_keys_iff.2 ⟨b, hb⟩)
    have hr : ∀ b, (key, b) ∈ r.pairs → k < key := fun b hb => h4 _ (mem_keys_iff.2 ⟨b, hb⟩)
    by_cases c1 : k = key
    · subst c1
      simp only [↓reduceIte, true_and]
      constructor
      · intro e; exact Or.inr (Or.inl e.symm)
      · rintro (e | e | e)
        · exact absurd (hl _ e) (lt_irrefl _)
        · exact e.symm
        · exact absurd (hr _ e) (lt_irrefl _)
    · by_cases c2 : k > key
      · simp only [c1, c2, if_false, if_true, ihl h1]
        constructor
        · intro e; exact Or.inl e
        · rintro (e | e | e)
          · exact e
          · exact absurd e.1.symm c1
          · exact absurd (hr _ e) (by omega)
      · simp only [c1, c2, if_false, ihr h2]
        constructor
        · intro e; exact Or.inr (Or.inr e)
        · rintro (e | e | e)
          · exact absurd (hl _ e) (by omega)
          · exact absurd e.1.symm c1
          · exact e

theorem erase_snd (key : Int) (t : Tree) : (t.erase key).2 = t.lookup key := by
  induction t with
  | nil => rfl
  | node l a k v h r ihl ihr => simp only [erase, lookup]; split_ifs <;> simp [ihl, ihr]

theorem erase_pairs (key : Int) {t : Tree} (h : t.BST) :
    (t.erase key).1.pairs = t.pairs.map (fun p => if p.1 = key then (p.1, false) else p) := by
  induction t with
  | nil => rfl
  | node l a k v hh r ihl ihr =>
    obtain ⟨h1, h2, h3, h4⟩ := bst_node.1 h
    have hl : ∀ p ∈ l.pairs, p.1 < k := fun p hp => h3 _ (mem_keys_iff.2 ⟨p.2, hp⟩)
    have hr : ∀ p ∈ r.pairs, k < p.1 := fun p hp => h4 _ (mem_keys_iff.2 ⟨p.2, hp⟩)
    have idl : ∀ {key : Int}, key ≤ k → ∀ p ∈ r.pairs,
        (if p.1 = key then (p.1, false) else p) = p := by
      intro key hk p hp; rw [if_neg]; have := hr p hp; omega
    have idr : ∀ {key : Int}, k ≤ key → ∀ p ∈ l.pairs,
        (if p.1 = key then (p.1, false) else p) = p := by
      intro key hk p hp; rw [if_neg]; have := hl p hp; omega
    simp only [erase]
    split_ifs with c1 c2
    · subst c1
      simp only [pairs, List.map_append, List.map_cons, ↓reduceIte]
      rw [List.map_congr_left (idl le_rfl), List.map_congr_left (idr le_rfl)]
      simp
    · simp only [pairs, List.map_append, List.map_cons, c1, if_false, ihl h1]
      rw [List.map_congr_left (idl (le_of_lt c2))]
      simp
    · simp only [pairs, List.map_append, List.map_cons, c1, if_false, ihr h2]
      rw [List.map_congr_left (idr (by omega))]
      simp

theorem revive_pairs (key : Int) {t : Tree} (h : t.BST) :
    (t.revive key).pairs = t.pairs.map (fun p => if p.1 = key then (p.1, true) else p) := by
  induction t with
  | nil => rfl
  | node l a k v hh r ihl ihr =>
    obtain ⟨h1, h2, h3, h4⟩ := bst_node.1 h
    have hl : ∀ p ∈ l.pairs, p.1 < k := fun p hp => h3 _ (mem_keys_iff.2 ⟨p.2, hp⟩)
    have hr : ∀ p ∈ r.pairs, k < p.1 := fun p hp => h4 _ (mem_keys_iff.2 ⟨p.2, hp⟩)
    have idl : ∀ {key : Int}, key ≤ k → ∀ p ∈ r.pairs,
        (if p.1 = key then (p.1, true) else p) = p := by
      intro key hk p hp; rw [if_neg]; have := hr p hp; omega
    have idr : ∀ {key : Int}, k ≤ key → ∀ p ∈ l.pairs,
        (if p.1 = key then (p.1, true) else p) = p := by
      intro key hk p hp; rw [if_neg]; have := hl p hp; omega
    simp only [revive]
    split_ifs with c1 c2
    · subst c1
      simp only [pairs, List.map_append, List.map_cons, ↓reduceIte]
      rw [List.map_congr_left (idl le_rfl), List.map_congr_left (idr le_rfl)]
      simp
    · simp only [pairs, List.map_append, List.map_cons, c1, if_false, ihl h1]
      rw [List.map_congr_left (idl (le_of_lt c2))]
      simp
    · simp only [pairs, List.map_append, List.map_cons, c1, if_false, ihr h2]
      rw [List.map_congr_left (idr (by omega))]
      simp

theorem erase_bst (key : Int) {t : Tree} (h : t.BST) : (t.erase key).1.BST := by
  simpa [BST] using h

theorem revive_bst (key : Int) {t : Tree} (h : t.BST) : (t.revive key).BST := by
  simpa [BST] using h

end Tree


theorem descendT_bound (key : Int) (t : Tree) (ctx : List Frame) (hb : (plug ctx t).BST)
    (hc : CtxBound key ctx) (hs : CtxSide key ctx) :
    CtxBound key (descendT key ctx t).1 ∧ CtxSide key (descendT key ctx t).1 := by
  induction t generalizing ctx with
  | nil => exact ⟨hc, hs⟩
  | node l a k v h r ihl ihr =>
    have hp : ((plug ctx (Tree.node l a k v h r)).pairs.map Prod.fst).Pairwise
        (fun x y => x < y) := by
      rw [Tree.map_fst_pairs]; exact hb
    simp only [plug_pairs, Tree.pairs, List.map_append, List.map_cons, List.pairwise_append,
      List.pairwise_cons, List.mem_append, List.mem_cons, List.mem_map] at hp
    simp only [descendT]
    split_ifs with c1 c2
    · exact ⟨hc, hs⟩
    · refine ihl (Frame.L a k v h r :: ctx) hb ⟨hc.1, ?_⟩ ⟨c2, hs⟩
      intro p hp'
      simp only [ctxAfter, List.mem_cons, List.mem_append, List.cons_append] at hp'
      rcases hp' with rfl | hp' | hp'
      · exact c2
      · have := hp.1.2.1.2.1.1 p.1 ⟨p, hp', rfl⟩
        omega
      · exact hc.2 p hp'
    · have c3 : k < key := by omega
      refine ihr (Frame.R l a k v h :: ctx) hb ⟨?_, hc.2⟩ ⟨c3, hs⟩
      intro p hp'
      simp only [ctxBefore, List.mem_cons, List.mem_append, List.mem_singleton,
        List.not_mem_nil, or_false] at hp'
      rcases hp' with (hp' | hp') | rfl
      · exact hc.1 p hp'
      · have := hp.1.2.1.2.2 p.1 ⟨p, hp', rfl⟩ k (Or.inl rfl)
        omega
      · exact c3

theorem insertPair_append (key : Int) (xs ys : List (Int × Bool)) (hx : ∀ p ∈ xs, p.1 < key)
    (hy : ∀ p ∈ ys, key < p.1) : insertPair key (xs ++ ys) = xs ++ (key, true) :: ys := by
  induction xs with
  | nil =>
    cases ys with
    | nil => rfl
    | cons y ys => simp [insertPair, hy y (by simp)]
  | cons x xs ih =>
    have h1 : ¬ key < x.1 := by have := hx x (by simp); omega
    have := ih (fun p hp => hx p (by simp [hp]))
    simp only [List.cons_append, insertPair, h1, if_false]
    exact congrArg (List.cons x) this


end pavltree

/-! ## The retrace keeps the tree balanced -/

namespace pavltree


theorem ite_gt_eq_max (a b : Int) : (if a > b then a else b) = max a b := by
  split_ifs <;> omega

theorem Tree.Good.pend {t : Tree} (key : Int) (h : t.Good) (hn : t ≠ Tree.nil) :
    Pend key t.ht t ∧ ¬ Unb t := by
  cases t with
  | nil => exact absurd rfl hn
  | node l a k v hh r =>
    obtain ⟨h1, h2, h3, h4, h5⟩ := h
    refine ⟨⟨h1, h2, Or.inl ⟨h4, h5, Or.inl rfl⟩⟩, ?_⟩
    simp only [Unb]; omega

set_option maxHeartbeats 1000000 in
theorem rebalanceT_pend {key H0 : Int} {t : Tree} (hp : Pend key H0 t) :
    ∃ t1 rot, rebalanceT key t = some (t1, rot) ∧ t1.Good ∧
      (t1.ht = H0 ∨ (t1.ht = H0 + 1 ∧ t1.Heavy key)) ∧
      t1.pairs = t.pairs ∧ t1.size = t.size ∧ t1 ≠ Tree.nil ∧
      (rot = true → t1.ht = H0 ∧ Unb t) := by
  cases t with
  | nil => exact absurd hp (by simp [Pend])
  | node l a k v h r =>
    obtain ⟨gl, gr, hcase⟩ := hp
    have el := gl.ch_eq
    have er := gr.ch_eq
    have nl := l.ht_nonneg
    have nr := r.ht_nonneg
    simp only [rebalanceT, Tree.fixHeight_node, Tree.bf_node, ite_gt_eq_max]
    rcases hcase with ⟨b1, b2, hh⟩ | ⟨u1, u2, hv⟩ | ⟨u1, u2, hv⟩
    · have c1 : ¬ l.ch - r.ch ≤ -2 := by omega
      have c2 : ¬ l.ch - r.ch ≥ 2 := by omega
      simp only [c1, c2, if_false]
      refine ⟨_, false, rfl, ⟨gl, gr, by omega, b1, b2⟩, ?_, rfl, rfl, by simp, by simp⟩
      simpa [Tree.ht, Tree.Heavy] using hh
    · have c1 : l.ch - r.ch ≤ -2 := by omega
      simp only [c1, if_true]
      cases r with
      | nil => simp [Tree.ht] at u1; omega
      | node rl ra rk rv rh rr =>
        obtain ⟨grl, grr, erh, b1, b2⟩ := gr
        have nrl := rl.ht_nonneg
        have nrr := rr.ht_nonneg
        simp only [Tree.ht] at u1 u2 nr
        simp only [Tree.ch_node, Tree.ht] at er
        simp only [Tree.Heavy] at hv
        rcases hv with ⟨_, rfl, rfl⟩ | ⟨hk, hh⟩ | ⟨hk, hh⟩
        · simp [Tree.ht] at u1; omega
        · have c2 : ¬ key > rk := by omega
          simp only [c2, if_false]
          cases rl with
          | nil => simp [Tree.ht] at hh; omega
          | node rll rla rlk rlv rlh rlr =>
            obtain ⟨grll, grlr, erlh, b3, b4⟩ := grl
            have e1 := grll.ch_eq
            have e2 := grlr.ch_eq
            have e3 := grr.ch_eq
            simp only [Tree.ht] at hh u1 u2 b1 b2 nrl erh
            simp only [Tree.doubleRotateLeft, Tree.rotateRight, Tree.rotateLeft, Tree.ptr_node,
              ne_eq, not_false_eq_true, reduceCtorEq, if_true, Tree.fixHeight_node, Tree.ch_node,
              ite_gt_eq_max]
            refine ⟨_, true, rfl, ?_, ?_, ?_, ?_, by simp, ?_⟩
            · simp only [Tree.Good, Tree.ht]
              refine ⟨⟨gl, grll, ?_, ?_, ?_⟩, ⟨grlr, grr, ?_, ?_, ?_⟩, ?_, ?_, ?_⟩ <;> omega
            · left; simp only [Tree.ht]; omega
            · simp [Tree.pairs]
            · simp only [Tree.size]; omega
            · intro _
              refine ⟨?_, ?_⟩
              · simp only [Tree.ht]; omega
              · simp only [Unb, Tree.ht]; omega
        · have c2 : key > rk := by omega
          have e3 := grr.ch_eq
          have e1 := grl.ch_eq
          simp only [c2, if_true, Tree.rotateLeft, Tree.fixHeight_node, Tree.ch_node,
            ite_gt_eq_max]
          refine ⟨_, true, rfl, ?_, ?_, ?_, ?_, by simp, ?_⟩
          · simp only [Tree.Good, Tree.ht]
            refine ⟨⟨gl, grl, ?_, ?_, ?_⟩, grr, ?_, ?_, ?_⟩ <;> omega
          · left; simp only [Tree.ht]; omega
          · simp [Tree.pairs]
          · simp only [Tree.size]; omega
          · intro _
            refine ⟨?_, ?_⟩
            · simp only [Tree.ht]; omega
            · simp only [Unb, Tree.ht]; omega
    · have c1 : ¬ l.ch - r.ch ≤ -2 := by omega
      have c3 : l.ch - r.ch ≥ 2 := by omega
      simp only [c1, c3, if_false, if_true]
      cases l with
      | nil => simp [Tree.ht] at u1; omega
      | node ll la lk lv lh lr =>
        obtain ⟨gll, glr, elh, b1, b2⟩ := gl
        have nll := ll.ht_nonneg
        have nlr := lr.ht_nonneg
        simp only [Tree.ht] at u1 u2 nl
        simp only [Tree.ch_node, Tree.ht] at el
        simp only [Tree.Heavy] at hv
        rcases hv with ⟨_, rfl, rfl⟩ | ⟨hk, hh⟩ | ⟨hk, hh⟩
        · simp [Tree.ht] at u1; omega
        · have c2 : key < lk := hk
          have e3 := glr.ch_eq
          have e1 := gll.ch_eq
          simp only [c2, if_true, Tree.rotateRight, Tree.fixHeight_node, Tree.ch_node,
            ite_gt_eq_max]
          refine ⟨_, true, rfl, ?_, ?_, ?_, ?_, by simp, ?_⟩
          · simp only [Tree.Good, Tree.ht]
            refine ⟨gll, ⟨glr, gr, ?_, ?_, ?_⟩, ?_, ?_, ?_⟩ <;> omega
          · left; simp only [Tree.ht]; omega
          · simp [Tree.pairs]
          · simp only [Tree.size]; omega
          · intro _
            refine ⟨?_, ?_⟩
            · simp only [Tree.ht]; omega
            · simp only [Unb, Tree.ht]; omega
        · have c2 : ¬ key < lk := by omega
          simp only [c2, if_false]
          cases lr with
          | nil => simp [Tree.ht] at hh; omega
          | node lrl lra lrk lrv lrh lrr =>
            obtain ⟨glrl, glrr, elrh, b3, b4⟩ := glr
            have e1 := glrl.ch_eq
            have e2 := glrr.ch_eq
            have e3 := gll.ch_eq
            simp only [Tree.ht] at hh u1 u2 b1 b2 nlr elh
            simp only [Tree.doubleRotateRight, Tree.rotateRight, Tree.rotateLeft, Tree.ptr_node,
              ne_eq, not_false_eq_true, reduceCtorEq, if_true, Tree.fixHeight_node, Tree.ch_node,
              ite_gt_eq_max]
            refine ⟨_, true, rfl, ?_, ?_, ?_, ?_, by simp, ?_⟩
            · simp only [Tree.Good, Tree.ht]
              refine ⟨⟨gll, glrl, ?_, ?_, ?_⟩, ⟨glrr, gr, ?_, ?_, ?_⟩, ?_, ?_, ?_⟩ <;> omega
            · left; simp only [Tree.ht]; omega
            · simp [Tree.pairs]
            · simp only [Tree.size]; omega
            · intro _
              refine ⟨?_, ?_⟩
              · simp only [Tree.ht]; omega
              · simp only [Unb, Tree.ht]; omega




theorem pend_plug {key H0 : Int} {t1 : Tree} {f : Frame} {fs : List Frame} (g : t1.Good)
    (hh : t1.ht = H0 ∨ (t1.ht = H0 + 1 ∧ t1.Heavy key)) (hc : CtxGood (f :: fs) H0)
    (hs : CtxSide key (f :: fs)) :
    ∃ H1, Pend key H1 (f.plug t1) ∧ CtxGood fs H1 ∧ CtxSide key fs := by
  cases f with
  | L a k v h r =>
    obtain ⟨gr, eh, b1, b2, hc'⟩ := hc
    obtain ⟨hk, hs'⟩ := hs
    refine ⟨1 + max H0 r.ht, ⟨g, gr, ?_⟩, hc', hs'⟩
    rcases hh with e | ⟨e, hv⟩
    · left; refine ⟨by omega, by omega, Or.inl (by omega)⟩
    · by_cases c : H0 = r.ht + 1
      · right; right; exact ⟨by omega, by omega, hv⟩
      · left
        refine ⟨by omega, by omega, ?_⟩
        by_cases c2 : H0 = r.ht
        · right
          refine ⟨by omega, ?_⟩
          simp only [Tree.Heavy]
          right; left; exact ⟨hk, by omega⟩
        · left; omega
  | R l a k v h =>
    obtain ⟨gl, eh, b1, b2, hc'⟩ := hc
    obtain ⟨hk, hs'⟩ := hs
    refine ⟨1 + max l.ht H0, ⟨gl, g, ?_⟩, hc', hs'⟩
    rcases hh with e | ⟨e, hv⟩
    · left; refine ⟨by omega, by omega, Or.inl (by omega)⟩
    · by_cases c : H0 = l.ht + 1
      · right; left; exact ⟨by omega, by omega, hv⟩
      · left
        refine ⟨by omega, by omega, ?_⟩
        by_cases c2 : H0 = l.ht
        · right
          refine ⟨by omega, ?_⟩
          simp only [Tree.Heavy]
          right; right; exact ⟨hk, by omega⟩
        · left; omega

theorem retraceT_spec (key : Int) (fuel : Nat) : ∀ (ctx : List Frame) (t : Tree) (H0 : Int),
    Pend key H0 t → CtxGood ctx H0 → CtxSide key ctx → 2 * ctx.length + 1 ≤ fuel →
    (Unb t → 2 * ctx.length + 2 ≤ fuel) →
    ∃ T, retraceT key fuel ctx t = some T ∧ T.Good ∧
      T.pairs = ctxBefore ctx ++ t.pairs ++ ctxAfter ctx ∧ T.size = ctxSize ctx + t.size := by
  induction fuel with
  | zero => intro ctx t H0 _ _ _ h; omega
  | succ n ih =>
    intro ctx t H0 hp hc hs hf hu
    obtain ⟨t1, rot, e, g1, hh, ep, es, hn, hrot⟩ := rebalanceT_pend hp
    simp only [retraceT, e]
    cases rot with
    | true =>
      obtain ⟨eh, hu1⟩ := hrot rfl
      have := g1.pend key hn
      rw [eh] at this
      obtain ⟨T, eT, gT, pT, sT⟩ := ih ctx t1 H0 this.1 hc hs (by have := hu hu1; omega)
        (fun h => absurd h this.2)
      exact ⟨T, eT, gT, by rw [pT, ep], by rw [sT, es]⟩
    | false =>
      cases ctx with
      | nil => exact ⟨t1, rfl, g1, by simp [ctxBefore, ctxAfter, ep], by simp [ctxSize, es]⟩
      | cons f fs =>
        obtain ⟨H1, hp1, hc1, hs1⟩ := pend_plug g1 hh hc hs
        simp only [List.length_cons] at hf
        obtain ⟨T, eT, gT, pT, sT⟩ := ih fs (f.plug t1) H1 hp1 hc1 hs1 (by omega)
          (fun _ => by omega)
        refine ⟨T, eT, gT, ?_, ?_⟩
        · rw [pT]
          cases f <;> simp [Frame.plug, Tree.pairs, ctxBefore, ctxAfter, ep]
        · rw [sT]
          cases f <;> simp [Frame.plug, Tree.size, ctxSize, Frame.size, es] <;> omega


end pavltree

/-! ## The invariant of the reachable sets -/

namespace pavltree


theorem inv_fresh : Inv PTreeSet.new Tree.nil := by
  refine ⟨rfl, rfl, ?_, trivial, by simp [Tree.addrs], rfl, ?_, trivial⟩
  · rfl
  · simp [Tree.BST, Tree.keys]

theorem Inv.reprZ {s : PTreeSet} {t : Tree} (h : Inv s t) : ReprZ s.heap [] t := by
  obtain ⟨_, _, h0, hr, hnd, _⟩ := h
  exact ⟨⟨_, h0⟩, hr, by simpa [ctxAddrs] using hnd⟩

theorem inv_remove {α : Type} (hash : α → CInt) {s : PTreeSet} {t : Tree} (h : Inv s t)
    (v : α) :
    ∃ s1, remove hash s v = some (s1, t.lookup (hash v).val) ∧
      Inv s1 (t.erase (hash v).val).1 ∧
      s1.rootHolder = s.rootHolder ∧ s1.balance_lock = s.balance_lock ∧
      (t.lookup (hash v).val = false → s1 = s) ∧
      (t.lookup (hash v).val = true → ∃ c n, c ∈ t.addrs ∧ s.heap[c]? = some n ∧
        n.key = (hash v).val ∧ n.has_value = true ∧
        s1.heap = s.heap.set c { n with has_value := false }) := by
  obtain ⟨hrh, hlk, h0, hr, hnd, hlen, hb, hg⟩ := h
  simp only [List.nodup_cons] at hnd
  obtain ⟨m1, e1, len1, hr1, hag, hf1, ht1⟩ :=
    removeLoop_repr (hash v).val hr hnd.2 s.heap.length (by omega)
  rw [Tree.erase_snd] at e1 hf1 ht1
  refine ⟨{ s with heap := m1 }, ?_, ⟨hrh, hlk, ?_, hr1, ?_, ?_, Tree.erase_bst _ hb,
    Tree.erase_good _ hg⟩, rfl, rfl, ?_, ht1⟩
  · simp only [remove, hrh, h0, e1]
  · show m1[0]? = _
    rw [hag 0 hnd.1, Tree.erase_ptr]; exact h0
  · simpa using hnd
  · show m1.length = _
    rw [len1, hlen, Tree.erase_size]
  · intro hf
    have := hf1 hf
    subst this
    rfl



theorem reprZ_plug {m : Store} (ctx : List Frame) (t : Tree) :
    ReprZ m ctx t ↔ ReprZ m [] (plug ctx t) := by
  induction ctx generalizing t with
  | nil => rfl
  | cons f fs ih => rw [reprZ_cons, ih]; rfl

theorem plug_descendT_revive (key : Int) (t : Tree) (ctx : List Frame) {l1 r1 : Tree} {a1 : Nat}
    {k1 h1 : Int} {v1 : Bool} (h : (descendT key ctx t).2 = Tree.node l1 a1 k1 v1 h1 r1) :
    plug (descendT key ctx t).1 (Tree.node l1 a1 k1 true h1 r1) = plug ctx (t.revive key) ∧
      t.lookup key = v1 ∧ a1 ∈ t.addrs := by
  induction t generalizing ctx with
  | nil => simp [descendT] at h
  | node l a k v hh r ihl ihr =>
    simp only [descendT, Tree.revive, Tree.lookup, Tree.addrs] at h ⊢
    split_ifs at h ⊢ with c1 c2
    · simp only [Tree.node.injEq] at h
      obtain ⟨rfl, rfl, rfl, rfl, rfl, rfl⟩ := h
      simp
    · obtain ⟨e1, e2, e3⟩ := ihl _ h
      exact ⟨e1, e2, by simp [e3]⟩
    · obtain ⟨e1, e2, e3⟩ := ihr _ h
      exact ⟨e1, e2, by simp [e3]⟩

theorem descendT_nil_lookup (key : Int) (t : Tree) (ctx : List Frame)
    (h : (descendT key ctx t).2 = Tree.nil) : t.lookup key = false := by
  induction t generalizing ctx with
  | nil => rfl
  | node l a k v hh r ihl ihr =>
    simp only [descendT, Tree.lookup] at h ⊢
    split_ifs at h ⊢ with c1 c2
    · exact ihl _ h
    · exact ihr _ h

theorem pairwise_insert {key : Int} {xs ys : List (Int × Bool)}
    (h : ((xs ++ ys).map Prod.fst).Pairwise (fun x y => x < y)) (hx : ∀ p ∈ xs, p.1 < key)
    (hy : ∀ p ∈ ys, key < p.1) :
    ((xs ++ (key, true) :: ys).map Prod.fst).Pairwise (fun x y => x < y) := by
  simp only [List.map_append, List.map_cons, List.pairwise_append, List.pairwise_cons,
    List.mem_map, List.mem_cons] at h ⊢
  obtain ⟨h1, h2, h3⟩ := h
  refine ⟨h1, ⟨?_, h2⟩, ?_⟩
  · rintro a ⟨p, hp, rfl⟩; exact hy p hp
  · rintro a ⟨p, hp, rfl⟩ b (rfl | ⟨q, hq, rfl⟩)
    · exact hx p hp
    · exact h3 _ ⟨p, hp, rfl⟩ _ ⟨q, hq, rfl⟩

theorem mem_insertPair {key : Int} {xs : List (Int × Bool)} {q : Int × Bool} :
    q ∈ insertPair key xs ↔ q = (key, true) ∨ q ∈ xs := by
  induction xs with
  | nil => simp [insertPair]
  | cons x xs ih =>
    simp only [insertPair]
    split_ifs
    · simp
    · simp only [List.mem_cons, ih]; tauto

/-- The retrace after a new leaf has been attached at the position `ctx`. -/
theorem retrace_leaf {s : PTreeSet} {t : Tree} {ctx : List Frame} {m : Store} {key : Int}
    (hrh : s.rootHolder = 0) (hlk : s.balance_lock = { p := false })
    (hg : t.Good) (hb : t.BST) (hpl : plug ctx Tree.nil = t) (hbd : CtxBound key ctx)
    (hsd : CtxSide key ctx) (hlen : m.length = t.size + 2) {a : Nat}
    (hz : ReprZ m ctx (Tree.node Tree.nil a key true 0 Tree.nil)) :
    ∃ m2 T, lockGuard { s with heap := m } (fixHeightAndRebalance s.rootHolder a) =
        some ({ s with heap := m2 }, ()) ∧
      Inv { s with heap := m2 } T ∧ T.pairs = insertPair key t.pairs ∧
      m2.length = m.length := by
  have hcg : CtxGood ctx 0 := by
    have := (plug_good ctx Tree.nil).1 (by rw [hpl]; exact hg)
    simpa [Tree.ht] using this.2
  have hsz : ctxSize ctx = t.size := by
    have := plug_size ctx Tree.nil
    rw [hpl] at this; simp [Tree.size] at this; omega
  have hpend : Pend key 0 (Tree.node Tree.nil a key true 0 Tree.nil) := by
    refine ⟨trivial, trivial, Or.inl ⟨by simp [Tree.ht], by simp [Tree.ht], Or.inr ⟨by simp [Tree.ht], ?_⟩⟩⟩
    simp [Tree.Heavy]
  have hlen_ctx := length_le_ctxSize ctx
  obtain ⟨T, eT, gT, pT, sT⟩ := retraceT_spec key (2 * m.length + 1) ctx _ 0 hpend hcg hsd
    (by omega) (fun _ => by omega)
  obtain ⟨m1, e1, len1, hz1⟩ := retrace_repr key _ hz rfl eT
  obtain ⟨⟨r0, h0⟩, hr1, hnd1⟩ := hz1
  have ha := hz.2.1.1
  have e0 := storeRight_eq h0 T.ptr
  simp only [ctxAddrs, List.append_nil] at hnd1
  have hps : t.pairs = ctxBefore ctx ++ ctxAfter ctx := by
    have := plug_pairs ctx Tree.nil
    rw [hpl] at this; simpa [Tree.pairs] using this
  refine ⟨m1.set 0 ⟨T.ptr, T.ptr, none, 0, 0, true⟩, T, ?_,
    ⟨hrh, hlk, ?_, hr1.frame ?_, hnd1, ?_, ?_, gT⟩, ?_, ?_⟩
  · rw [hlk, lockGuard_free]
    simp only [fixHeightAndRebalance, ha, hrh, e1, h0, e0, Option.bind_eq_bind,
      Option.some_bind, Option.map_some']
  · show (m1.set 0 _)[0]? = _
    rw [get_set h0, if_pos rfl]
  · exact agree_set (agree_refl _ _) (List.nodup_cons.1 hnd1).1
  · show (m1.set 0 _).length = _
    simp [len1, hlen, sT, hsz, Tree.size]
  · show (T.keys).Pairwise _
    rw [← Tree.map_fst_pairs, pT]
    simp only [Tree.pairs, List.nil_append, List.append_assoc, List.cons_append]
    refine pairwise_insert ?_ hbd.1 hbd.2
    rw [← hps, Tree.map_fst_pairs]; exact hb
  · rw [pT, hps, insertPair_append key _ _ hbd.1 hbd.2]
    simp [Tree.pairs]
  · simp [len1]




theorem heap_of_inv_nil {s : PTreeSet} (h : Inv s Tree.nil) :
    s.heap = [⟨none, none, none, 0, 0, true⟩] := by
  obtain ⟨_, _, h0, _, _, hlen, _⟩ := h
  simp only [Tree.size, Tree.ptr_nil] at hlen h0
  match hs : s.heap with
  | [] => simp [hs] at hlen
  | [x] => simp [hs] at h0; rw [h0]
  | x :: y :: zs => simp [hs] at hlen

/-- A pass of `add` for a key that is not in the tree attaches a new leaf. -/
theorem addPass_new {s : PTreeSet} {t : Tree} {key : Int} (hk : toInt (toUnsigned key) = key)
    (h : Inv s t) (hd : (descendT key [] t).2 = Tree.nil) :
    ∃ m1, addPass key s = some (AddPass.attached { s with heap := m1 } s.heap.length) ∧
      m1.length = s.heap.length + 1 ∧
      ReprZ m1 (descendT key [] t).1 (Tree.node Tree.nil s.heap.length key true 0 Tree.nil) := by
  cases t with
  | nil =>
    have hs := heap_of_inv_nil h
    obtain ⟨hrh, _⟩ := h
    refine ⟨[⟨some 1, some 1, none, 0, 0, true⟩, Node.new (toUnsigned key) (some 0)], ?_, ?_, ?_⟩
    · simp [addPass, hrh, hs, alloc, storeLeft, storeRight]
    · simp [hs]
    · simp only [descendT, hs, List.length_singleton]
      refine ⟨⟨_, rfl⟩, ⟨?_, trivial, trivial⟩, by simp [Tree.addrs, ctxAddrs]⟩
      simp [Node.new, hk, ctxAddr]
  | node l a k v hh r =>
    have hz := h.reprZ
    obtain ⟨hrh, hlk, h0, hr, hnd, hlen, hb, hg⟩ := h
    obtain ⟨m1, e1, len1, hz1⟩ :=
      (addDescend_repr hk _ [] s a s.heap.length hz rfl (by omega) hlk).2 hd
    refine ⟨m1, ?_, len1, hz1⟩
    simp [addPass, hrh, h0, e1]

/-- A pass of `add` for a key that is in the tree returns after setting `has_value`. -/
theorem addPass_found {s : PTreeSet} {t : Tree} {key : Int} (hk : toInt (toUnsigned key) = key)
    (h : Inv s t) {l1 r1 : Tree} {a1 : Nat} {k1 h1 : Int} {v1 : Bool}
    (hd : (descendT key [] t).2 = Tree.node l1 a1 k1 v1 h1 r1) :
    ∃ s1 n, addPass key s = some (AddPass.ret s1 (!v1)) ∧ Inv s1 (t.revive key) ∧
      s.heap[a1]? = some n ∧ n.key = key ∧ n.has_value = v1 ∧ a1 ∈ t.addrs ∧
      s1 = { s with heap := s.heap.set a1 { n with has_value := true } } := by
  have hz := h.reprZ
  obtain ⟨hrh, hlk, h0, hr, hnd, hlen, hb, hg⟩ := h
  cases t with
  | nil => simp [descendT] at hd
  | node l a k v hh r =>
    obtain ⟨ek, hz0, m1, e1, hz1, em⟩ :=
      (addDescend_repr hk _ [] s a s.heap.length hz rfl (by omega) hlk).1 _ _ _ _ _ _ hd
    obtain ⟨ep, el, ea⟩ := plug_descendT_revive key _ [] hd
    have hget := hz0.2.1.1
    have hm1 : m1 = s.heap.set a1 ⟨l1.ptr, r1.ptr,
        some (ctxAddr (descendT key [] (Tree.node l a k v hh r)).1), h1, k1, true⟩ := by
      rw [em]
      cases v1 with
      | false => simp
      | true =>
        simp only [if_true]
        refine List.ext_getElem? (fun i => ?_)
        rw [get_set hget]
        split_ifs with c
        · subst c; exact hget
        · rfl
    have hz2 := (reprZ_plug _ _).1 hz1
    rw [ep] at hz2
    simp only [plug] at hz2
    obtain ⟨⟨r0, h02⟩, hr2, hnd2⟩ := hz2
    have ha10 : a1 ≠ 0 := by
      rintro rfl
      exact (List.nodup_cons.1 hnd).1 ea
    have h0' : m1[0]? = s.heap[0]? := by
      rw [hm1, List.getElem?_set_ne ha10]
    refine ⟨{ s with heap := m1 }, _, ?_, ⟨hrh, hlk, ?_, hr2, ?_, ?_, Tree.revive_bst _ hb,
      Tree.revive_good _ hg⟩, hget, ek, rfl, ea, ?_⟩
    · simp [addPass, hrh, h0, e1]
    · show m1[0]? = _
      rw [h0', h0, Tree.revive_ptr]
    · simpa [ctxAddrs] using hnd2
    · show m1.length = _
      rw [hm1]; simpa using hlen
    · rw [hm1]





theorem revive_lookup_of_found (key : Int) (t : Tree) (ctx : List Frame)
    (h : (descendT key ctx t).2 ≠ Tree.nil) :
    (t.revive key).lookup key = true ∧ key ∈ t.keys := by
  induction t generalizing ctx with
  | nil => simp [descendT] at h
  | node l a k v hh r ihl ihr =>
    simp only [descendT, Tree.revive, Tree.keys] at h ⊢
    split_ifs at h ⊢ with c1 c2
    · simp [Tree.lookup, c1]
    · have := ihl _ h
      simp [Tree.lookup, c1, c2, this.1, this.2]
    · have := ihr _ h
      simp [Tree.lookup, c1, c2, this.1, this.2]

theorem Repr.mem_nodes {m : Store} {p : Option Nat} {t : Tree} (h : Repr m p t) {a : Nat}
    (ha : a ∈ t.addrs) : ∃ n, m[a]? = some n ∧ n ∈ t.nodes p := by
  induction t generalizing p with
  | nil => simp [Tree.addrs] at ha
  | node l b k v hh r ihl ihr =>
    obtain ⟨h1, h2, h3⟩ := h
    simp only [Tree.addrs, List.mem_append, List.mem_cons] at ha
    simp only [Tree.nodes, List.mem_append, List.mem_cons]
    rcases ha with ha | rfl | ha
    · obtain ⟨n, e, hn⟩ := ihl h2 ha
      exact ⟨n, e, Or.inl hn⟩
    · exact ⟨_, h1, Or.inr (Or.inl rfl)⟩
    · obtain ⟨n, e, hn⟩ := ihr h3 ha
      exact ⟨n, e, Or.inr (Or.inr hn)⟩

/-- What `add` does on a set that satisfies the invariant. -/
theorem inv_add {α : Type} (hash : α → CInt) {s : PTreeSet} {t : Tree} (h : Inv s t) (v : α) :
    ∃ s1 T, add hash s v = some (s1, !(t.lookup (hash v).val)) ∧ Inv s1 T ∧
      T.lookup (hash v).val = true ∧
      (((hash v).val ∈ t.keys ∧ T = t.revive (hash v).val ∧
          ∃ a1 n, a1 ∈ t.addrs ∧ s.heap[a1]? = some n ∧ n.key = (hash v).val ∧
            s1 = { s with heap := s.heap.set a1 { n with has_value := true } }) ∨
        ((∀ p ∈ t.pairs, p.1 ≠ (hash v).val) ∧ T.pairs = insertPair (hash v).val t.pairs ∧
          s1.heap.length = s.heap.length + 1 ∧ s1.rootHolder = s.rootHolder ∧
          s1.balance_lock = s.balance_lock)) := by
  have hk := toInt_toUnsigned (hash v)
  unfold add
  generalize (hash v).val = key at hk ⊢
  cases hd : (descendT key [] t).2 with
  | node l1 a1 k1 v1 h1 r1 =>
    obtain ⟨s1, n, e1, hinv, hget, hkey, hv, ha, es⟩ := addPass_found hk h hd
    obtain ⟨_, el, _⟩ := plug_descendT_revive key _ [] hd
    have hf := revive_lookup_of_found key t [] (by rw [hd]; simp)
    refine ⟨s1, _, ?_, hinv, hf.1, Or.inl ⟨hf.2, rfl, a1, n, ha, hget, hkey, es⟩⟩
    simp [addLoop, e1, el]
  | nil =>
    obtain ⟨m1, e1, len1, hz1⟩ := addPass_new hk h hd
    have el := descendT_nil_lookup key t [] hd
    have hpl : plug (descendT key [] t).1 Tree.nil = t := by
      rw [← hd]; exact plug_descendT key t []
    obtain ⟨hrh, hlk, h0, hr, hnd, hlen, hb, hg⟩ := h
    have hbs := descendT_bound key t [] hb ⟨by simp [ctxBefore], by simp [ctxAfter]⟩ trivial
    obtain ⟨m2, T, e2, hinv, hp, len2⟩ := retrace_leaf hrh hlk hg hb hpl hbs.1 hbs.2
      (by omega) hz1
    have hps : t.pairs = ctxBefore (descendT key [] t).1 ++ ctxAfter (descendT key [] t).1 := by
      have := plug_pairs (descendT key [] t).1 Tree.nil
      rw [hpl] at this; simpa [Tree.pairs] using this
    refine ⟨{ s with heap := m2 }, T, ?_, hinv, ?_, Or.inr ⟨?_, hp, ?_, rfl, rfl⟩⟩
    · simp only [addLoop, e1, el, Bool.not_false]
      have e2' : lockGuard ⟨m1, s.rootHolder, s.balance_lock⟩
          (fixHeightAndRebalance s.rootHolder s.heap.length) =
          some (⟨m2, s.rootHolder, s.balance_lock⟩, ()) := e2
      simp only [e2']
    · rw [Tree.lookup_iff _ hinv.2.2.2.2.2.2.1, hp, mem_insertPair]
      exact Or.inl rfl
    · intro p hp'
      rw [hps, List.mem_append] at hp'
      rcases hp' with hp' | hp'
      · have := hbs.1.1 p hp'; omega
      · have := hbs.1.2 p hp'; omega
    · show m2.length = _
      omega


end pavltree

/-! ## What the observers see on a reachable set -/

namespace pavltree


theorem reachable_inv {α : Type} {hash : α → CInt} {s : PTreeSet} (h : Reachable hash s) :
    ∃ t, Inv s t := by
  induction h with
  | fresh => exact ⟨Tree.nil, inv_fresh⟩
  | step_add s s1 b v _ e ih =>
    obtain ⟨t, ht⟩ := ih
    obtain ⟨s2, T, e2, hinv, _⟩ := inv_add hash ht v
    rw [e2] at e
    simp only [Option.some.injEq, Prod.mk.injEq] at e
    rw [← e.1]
    exact ⟨T, hinv⟩
  | step_remove s s1 b v _ e ih =>
    obtain ⟨t, ht⟩ := ih
    obtain ⟨s2, e2, hinv, _⟩ := inv_remove hash ht v
    rw [e2] at e
    simp only [Option.some.injEq, Prod.mk.injEq] at e
    rw [← e.1]
    exact ⟨_, hinv⟩

theorem Inv.inorder {s : PTreeSet} {t : Tree} (h : Inv s t) :
    inorder s = some (t.nodes (some 0)) := by
  obtain ⟨hrh, _, h0, hr, _, hlen, _⟩ := h
  simp only [pavltree.inorder, hrh, h0]
  exact inorderFrom_repr hr _ (by omega)

theorem Inv.contains {α : Type} (hash : α → CInt) {s : PTreeSet} {t : Tree} (h : Inv s t)
    (v : α) : contains hash s v = some (t.lookup (hash v).val) := by
  obtain ⟨hrh, _, h0, hr, _, hlen, _⟩ := h
  simp only [pavltree.contains, hrh, h0]
  exact containsLoop_repr _ hr _ (by omega)

theorem Tree.lookup_iff_nodes {t : Tree} (key : Int) (h : t.BST) (p : Option Nat) :
    t.lookup key = true ↔ ∃ n ∈ t.nodes p, n.key = key ∧ n.has_value = true := by
  rw [Tree.lookup_iff key h, ← Tree.map_pair_nodes p]
  simp only [List.mem_map, Prod.mk.injEq]

/-- Every node of a represented ordered tree has smaller keys on its left and larger keys on
its right. -/
theorem subtree_order {m : Store} {p : Option Nat} {t : Tree} (h : Repr m p t) (hb : t.BST)
    (fuel : Nat) (hf : t.size ≤ fuel) :
    ∀ n ∈ t.nodes p, ∃ ls rs, inorderFrom m fuel n.left = some ls ∧
      inorderFrom m fuel n.right = some rs ∧ (∀ x ∈ ls, x.key < n.key) ∧
      (∀ x ∈ rs, n.key < x.key) := by
  induction t generalizing p with
  | nil => simp [Tree.nodes]
  | node l a k v hh r ihl ihr =>
    obtain ⟨h1, h2, h3⟩ := h
    obtain ⟨b1, b2, b3, b4⟩ := Tree.bst_node.1 hb
    simp only [Tree.size] at hf
    intro n hn
    simp only [Tree.nodes, List.mem_append, List.mem_cons] at hn
    rcases hn with hn | rfl | hn
    · exact ihl h2 b1 (by omega) n hn
    · refine ⟨_, _, inorderFrom_repr h2 fuel (by omega), inorderFrom_repr h3 fuel (by omega),
        ?_, ?_⟩
      · intro x hx
        exact b3 _ (by rw [← Tree.map_key_nodes (some a)]; exact List.mem_map_of_mem _ hx)
      · intro x hx
        exact b4 _ (by rw [← Tree.map_key_nodes (some a)]; exact List.mem_map_of_mem _ hx)
    · exact ihr h3 b2 (by omega) n hn

/-- Every node of a represented balanced tree has subtrees whose true heights differ by at
most one. -/
theorem subtree_balance {m : Store} {p : Option Nat} {t : Tree} (h : Repr m p t) (hg : t.Good)
    (fuel : Nat) (hf : t.size ≤ fuel) :
    ∀ n ∈ t.nodes p, ∃ lh rh, heightFrom m fuel n.left = some lh ∧
      heightFrom m fuel n.right = some rh ∧ lh - rh ≤ 1 ∧ rh - lh ≤ 1 := by
  induction t generalizing p with
  | nil => simp [Tree.nodes]
  | node l a k v hh r ihl ihr =>
    obtain ⟨h1, h2, h3⟩ := h
    obtain ⟨g1, g2, _, g4, g5⟩ := hg
    simp only [Tree.size] at hf
    intro n hn
    simp only [Tree.nodes, List.mem_append, List.mem_cons] at hn
    rcases hn with hn | rfl | hn
    · exact ihl h2 g1 (by omega) n hn
    · exact ⟨_, _, heightFrom_repr h2 fuel (by omega), heightFrom_repr h3 fuel (by omega),
        g4, g5⟩
    · exact ihr h3 g2 (by omega) n hn

theorem Tree.root_key_mem {l r : Tree} {a : Nat} {k : Int} {v : Bool} {h : Int} :
    k ∈ (Tree.node l a k v h r).keys := by
  simp [Tree.keys]

/-- The check `verify(Node*)` passes on a represented tree that is ordered and balanced. -/
theorem verifyNode_repr {m : Store} {t : Tree} {pa : Nat} {pn : Node}
    (h : Repr m (some pa) t) (hpa : m[pa]? = some pn)
    (hpl : pn.left = t.ptr ∨ pn.right = t.ptr) (hb : t.BST) (hg : t.Good) (fuel : Nat)
    (hf : t.size ≤ fuel) : verifyNode m fuel t.ptr = some true := by
  induction t generalizing pa pn fuel with
  | nil => cases fuel <;> rfl
  | node l a k v hh r ihl ihr =>
    obtain ⟨h1, h2, h3⟩ := h
    obtain ⟨b1, b2, b3, b4⟩ := Tree.bst_node.1 hb
    have hbf := bf_repr (show Repr m (some pa) (Tree.node l a k v hh r) from ⟨h1, h2, h3⟩)
    obtain ⟨g1, g2, g3, g4, g5⟩ := hg
    cases fuel with
    | zero => simp [Tree.size] at hf
    | succ fuel =>
      simp only [Tree.size] at hf
      have el := ihl h2 h1 (Or.inl rfl) b1 g1 fuel (by omega)
      have er := ihr h3 h1 (Or.inr rfl) b2 g2 fuel (by omega)
      have cl : childCheck m l.ptr (fun ln => decide (ln.parent = some a)) = some true ∧
          childCheck m l.ptr (fun ln => decide (ln.key < k)) = some true := by
        cases l with
        | nil => exact ⟨rfl, rfl⟩
        | node ll la lk lv lh lr =>
          have := b3 lk Tree.root_key_mem
          simp [childCheck, h2.1, this]
      have cr : childCheck m r.ptr (fun rn => decide (rn.parent = some a)) = some true ∧
          childCheck m r.ptr (fun rn => decide (rn.key > k)) = some true := by
        cases r with
        | nil => exact ⟨rfl, rfl⟩
        | node rl ra rk rv rh rr =>
          have := b4 rk Tree.root_key_mem
          simp [childCheck, h3.1, this]
      have e1 := g1.ch_eq
      have e2 := g2.ch_eq
      have c1 : l.ch - r.ch < 2 := by omega
      have c2 : l.ch - r.ch > -2 := by omega
      simp only [Tree.ptr_node] at hpl
      simp only [Tree.ptr_node, verifyNode, h1, hpa, hpl, decide_True, assertThen, cl.1, cl.2,
        cr.1, cr.2, hbf, c1, c2, if_true, el, er]

theorem Inv.verify {s : PTreeSet} {t : Tree} (h : Inv s t) : verify s = some true := by
  obtain ⟨hrh, _, h0, hr, _, hlen, hb, hg⟩ := h
  simp only [pavltree.verify, hrh, h0, decide_True, assertThen]
  exact verifyNode_repr hr h0 (Or.inl rfl) hb hg _ (by omega)


theorem Tree.revive_erase (key : Int) (t : Tree) :
    (t.erase key).1.revive key = t.revive key := by
  induction t with
  | nil => rfl
  | node l a k v h r ihl ihr =>
    simp only [Tree.erase]
    split_ifs with c1 c2
    · simp [Tree.revive, c1]
    · simp [Tree.revive, c1, c2, ihl]
    · simp [Tree.revive, c1, c2, ihr]

theorem Tree.revive_of_lookup (key : Int) (t : Tree) (h : t.lookup key = true) :
    t.revive key = t := by
  induction t with
  | nil => rfl
  | node l a k v hh r ihl ihr =>
    simp only [Tree.lookup] at h
    simp only [Tree.revive]
    split_ifs at h ⊢ with c1 c2
    · rw [h]
    · rw [ihl h]
    · rw [ihr h]

theorem run_reachable {α : Type} (hash : α → CInt) (ops : List (Bool × α)) :
    ∀ (s s1 : PTreeSet), Reachable hash s → run hash s ops = some s1 → Reachable hash s1 := by
  induction ops with
  | nil =>
    intro s s1 hs e
    simp only [run, Option.some.injEq] at e
    subst e; exact hs
  | cons op ops ih =>
    intro s s1 hs e
    obtain ⟨b, v⟩ := op
    cases b with
    | true =>
      simp only [run] at e
      cases ha : add hash s v with
      | none => simp [ha] at e
      | some p =>
        obtain ⟨s2, b2⟩ := p
        simp only [ha] at e
        exact ih s2 s1 (Reachable.step_add s s2 b2 v hs ha) e
    | false =>
      simp only [run] at e
      cases ha : remove hash s v with
      | none => simp [ha] at e
      | some p =>
        obtain ⟨s2, b2⟩ := p
        simp only [ha] at e
        exact ih s2 s1 (Reachable.step_remove s s2 b2 v hs ha) e

theorem exSet_run : run exHash PTreeSet.new exCalls = some exSet := by decide

theorem exSet_reachable : Reachable exHash exSet :=
  run_reachable exHash exCalls _ _ Reachable.fresh exSet_run

end pavltree

/-! ## The rounds of the retrace -/

namespace pavltree


theorem loop_succ (rh : Nat) (key : Int) (fuel : Nat) (m : Store) (a : Nat) (c : a ≠ rh) :
    fixHeightAndRebalanceLoop rh key (fuel + 1) m (some a) =
      (fixHeight m a).bind fun mf => (rebalanceAt key mf a).bind fun m1 =>
        m1[a]?.bind fun n => fixHeightAndRebalanceLoop rh key fuel m1 n.parent := by
  simp only [fixHeightAndRebalanceLoop, Option.some.injEq, c, if_false, Option.bind_eq_bind,
    Option.some_bind, rebalanceAt]
  cases fixHeight m a with
  | none => rfl
  | some mf =>
    simp only [Option.some_bind]
    cases bf mf a with
    | none => rfl
    | some b =>
      simp only [Option.some_bind]
      by_cases c1 : b ≤ -2
      · simp only [c1, if_true]
        cases mf[a]? with
        | none => rfl
        | some n =>
          cases h2 : n.right with
          | none => simp [h2]
          | some r =>
            simp only [Option.some_bind, h2]
            cases mf[r]? with
            | none => rfl
            | some rn => by_cases c2 : key > rn.key <;> simp [c2]
      · simp only [c1, if_false]
        by_cases c3 : b ≥ 2
        · simp only [c3, if_true]
          cases mf[a]? with
          | none => rfl
          | some n =>
            cases h2 : n.left with
            | none => simp [h2]
            | some l =>
              simp only [Option.some_bind, h2]
              cases mf[l]? with
              | none => rfl
              | some ln => by_cases c2 : key < ln.key <;> simp [c2]
        · simp only [c3, if_false, Option.some_bind]

/-- The loop of `fixHeightAndRebalance` returns the store after the last of its rounds. -/
theorem loop_rounds (rh : Nat) (key : Int) (fuel : Nat) : ∀ (m : Store) (node : Option Nat),
    fixHeightAndRebalanceLoop rh key fuel m node =
      (retraceRounds rh key fuel m node).map (lastStore m) := by
  induction fuel with
  | zero => intro m node; rfl
  | succ fuel ih =>
    intro m node
    by_cases c : node = some rh
    · simp [fixHeightAndRebalanceLoop, retraceRounds, c, lastStore]
    · cases node with
      | none => simp [fixHeightAndRebalanceLoop, retraceRounds]
      | some a =>
        have c' : a ≠ rh := fun e => c (by rw [e])
        rw [loop_succ rh key fuel m a c']
        simp only [retraceRounds, c, if_false, Option.bind_eq_bind, Option.some_bind]
        cases hf : fixHeight m a with
        | none => rfl
        | some mf =>
          simp only [Option.some_bind]
          cases hb : bf mf a with
          | none => simp [rebalanceAt, hb]
          | some b =>
            simp only [Option.some_bind]
            cases rebalanceAt key mf a with
            | none => rfl
            | some m1 =>
              simp only [Option.some_bind]
              cases hn : m1[a]? with
              | none => rfl
              | some n =>
                simp only [Option.some_bind, ih]
                cases retraceRounds rh key fuel m1 n.parent with
                | none => rfl
                | some rs => simp [lastStore]

/-- Every round visits a node other than the sentinel, reads the balance factor after
`fixHeight`, and ends with the store the rotation block returns. -/
theorem retraceRounds_mem (rh : Nat) (key : Int) (fuel : Nat) : ∀ (m : Store) (node : Option Nat)
    (rs : List Round), retraceRounds rh key fuel m node = some rs →
    ∀ r ∈ rs, r.node ≠ rh ∧ bf r.fixed r.node = some r.bal ∧
      rebalanceAt key r.fixed r.node = some r.after := by
  induction fuel with
  | zero => intro m node rs h; simp [retraceRounds] at h
  | succ fuel ih =>
    intro m node rs h
    simp only [retraceRounds] at h
    by_cases c : node = some rh
    · simp only [c, if_true, Option.some.injEq] at h
      subst h; simp
    · simp only [c, if_false, Option.bind_eq_bind, Option.bind_eq_some] at h
      obtain ⟨a, rfl, mf, hf, b, hb, m1, h1, n, hn, rest, hrest, e⟩ := h
      simp only [Option.some.injEq] at e
      subst e
      intro r hr
      rcases List.mem_cons.1 hr with rfl | hr
      · exact ⟨fun e => c (congrArg some e), hb, h1⟩
      · exact ih _ _ _ hrest r hr

theorem rebalanceAt_right {key : Int} {m m1 : Store} {a : Nat} {b : Int}
    (hb : bf m a = some b) (c : b ≤ -2) (h : rebalanceAt key m a = some m1) :
    ∃ n r rn, m[a]? = some n ∧ n.right = some r ∧ m[r]? = some rn ∧
      (if key > rn.key then rotateLeft m a else doubleRotateLeft m a) = some m1 := by
  simp only [rebalanceAt, hb, Option.bind_eq_bind, Option.some_bind, c, if_true,
    Option.bind_eq_some] at h
  obtain ⟨n, hn, r, hr, rn, hrn, e⟩ := h
  exact ⟨n, r, rn, hn, hr, hrn, e⟩

theorem rebalanceAt_left {key : Int} {m m1 : Store} {a : Nat} {b : Int}
    (hb : bf m a = some b) (c : 2 ≤ b) (h : rebalanceAt key m a = some m1) :
    ∃ n l ln, m[a]? = some n ∧ n.left = some l ∧ m[l]? = some ln ∧
      (if key < ln.key then rotateRight m a else doubleRotateRight m a) = some m1 := by
  have c1 : ¬ b ≤ -2 := by omega
  have c2 : b ≥ 2 := c
  simp only [rebalanceAt, hb, Option.bind_eq_bind, Option.some_bind, c1, c2, if_true, if_false,
    Option.bind_eq_some] at h
  obtain ⟨n, hn, l, hl, ln, hln, e⟩ := h
  exact ⟨n, l, ln, hn, hl, hln, e⟩

theorem rebalanceAt_balanced {key : Int} {m : Store} {a : Nat} {b : Int}
    (hb : bf m a = some b) (c1 : -2 < b) (c2 : b < 2) : rebalanceAt key m a = some m := by
  have c1' : ¬ b ≤ -2 := by omega
  have c2' : ¬ b ≥ 2 := by omega
  simp only [rebalanceAt, hb, Option.bind_eq_bind, Option.some_bind, c1', c2', if_false]

theorem rotateLeft_some {m m1 : Store} {a : Nat} (h : rotateLeft m a = some m1) :
    ∃ n r rn p, m[a]? = some n ∧ n.right = some r ∧ m[r]? = some rn ∧ n.parent = some p := by
  simp only [rotateLeft, Option.bind_eq_bind, Option.bind_eq_some] at h
  obtain ⟨n, hn, r, hr, rn, hrn, _, _, _, _, p, hp, _⟩ := h
  exact ⟨n, r, rn, p, hn, hr, hrn, hp⟩

theorem rotateRight_some {m m1 : Store} {a : Nat} (h : rotateRight m a = some m1) :
    ∃ n l ln p, m[a]? = some n ∧ n.left = some l ∧ m[l]? = some ln ∧ n.parent = some p := by
  simp only [rotateRight, Option.bind_eq_bind, Option.bind_eq_some] at h
  obtain ⟨n, hn, l, hl, ln, hln, _, _, _, _, p, hp, _⟩ := h
  exact ⟨n, l, ln, p, hn, hl, hln, hp⟩

theorem doubleRotateLeft_some {m m1 : Store} {a : Nat} (h : doubleRotateLeft m a = some m1) :
    ∃ n r rn, m[a]? = some n ∧ n.right = some r ∧ m[r]? = some rn ∧
      (rn.left ≠ none → ∃ m2, rotateRight m r = some m2 ∧ rotateLeft m2 a = some m1) ∧
      (rn.left = none → rotateLeft m a = some m1) := by
  simp only [doubleRotateLeft, Option.bind_eq_bind, Option.bind_eq_some] at h
  obtain ⟨n, hn, r, hr, rn, hrn, e⟩ := h
  refine ⟨n, r, rn, hn, hr, hrn, fun c => ?_, fun c => ?_⟩
  · simpa [c, Option.bind_eq_some] using e
  · simpa [c] using e

theorem doubleRotateRight_some {m m1 : Store} {a : Nat} (h : doubleRotateRight m a = some m1) :
    ∃ n l ln, m[a]? = some n ∧ n.left = some l ∧ m[l]? = some ln ∧
      (ln.right ≠ none → ∃ m2, rotateLeft m l = some m2 ∧ rotateRight m2 a = some m1) ∧
      (ln.right = none → rotateRight m a = some m1) := by
  simp only [doubleRotateRight, Option.bind_eq_bind, Option.bind_eq_some] at h
  obtain ⟨n, hn, l, hl, ln, hln, e⟩ := h
  refine ⟨n, l, ln, hn, hl, hln, fun c => ?_, fun c => ?_⟩
  · simpa [c, Option.bind_eq_some] using e
  · simpa [c] using e

theorem round_step {m : Store} {ctx : List Frame} {t t1 : Tree} {a : Nat} {key : Int}
    {rot : Bool} (hz : ReprZ m ctx t) (ha : t.ptr = some a)
    (hR : rebalanceT key t = some (t1, rot)) :
    ∃ mf m1 n, fixHeight m a = some mf ∧ bf mf a = some t.fixHeight.bf ∧
      rebalanceAt key mf a = some m1 ∧ m1.length = m.length ∧ ReprZ m1 ctx t1 ∧
      m1[a]? = some n ∧ n.parent = (if rot then t1.ptr else some (ctxAddr ctx)) := by
  cases t with
  | nil => simp at ha
  | node l a0 k v h r =>
    simp only [Tree.ptr_node, Option.some.injEq] at ha
    subst ha
    obtain ⟨m1, e1, len1, hz1⟩ := fixHeight_repr hz
    simp only [Tree.fixHeight_node] at hz1
    have hb := bf_repr hz1.2.1
    simp only [rebalanceT, Tree.fixHeight_node, Tree.bf_node] at hR
    simp only [Tree.fixHeight_node, Tree.bf_node]
    generalize (if l.ch > r.ch then l.ch else r.ch) = h2 at hz1 hR
    have h1 := hz1.2.1.1
    refine ⟨m1, ?_⟩
    by_cases c1 : l.ch - r.ch ≤ -2
    · simp only [c1, if_true] at hR
      cases r with
      | nil => simp at hR
      | node rl ra rk rv rh rr =>
        have hr1 := hz1.2.1.2.2.1
        by_cases c2 : key > rk
        · simp only [c2, if_true] at hR
          cases hrot : (Tree.node l a0 k v h2 (Tree.node rl ra rk rv rh rr)).rotateLeft with
          | none => simp [hrot] at hR
          | some t2 =>
            simp only [hrot, Option.some.injEq, Prod.mk.injEq] at hR
            obtain ⟨rfl, rfl⟩ := hR
            obtain ⟨m2, e2, len2, hz2, n, hn, hp⟩ := rotateLeft_repr hz1 rfl hrot
            refine ⟨m2, n, e1, hb, ?_, by omega, hz2, hn, by simpa using hp⟩
            simp only [rebalanceAt, hb, c1, h1, hr1, c2, e2, Option.bind_eq_bind,
              Option.some_bind, if_true, Tree.ptr_node]
        · simp only [c2, if_false] at hR
          cases hrot : (Tree.node l a0 k v h2 (Tree.node rl ra rk rv rh rr)).doubleRotateLeft with
          | none => simp [hrot] at hR
          | some t2 =>
            simp only [hrot, Option.some.injEq, Prod.mk.injEq] at hR
            obtain ⟨rfl, rfl⟩ := hR
            obtain ⟨m2, e2, len2, hz2, n, hn, hp⟩ := doubleRotateLeft_repr hz1 rfl hrot
            refine ⟨m2, n, e1, hb, ?_, by omega, hz2, hn, by simpa using hp⟩
            simp only [rebalanceAt, hb, c1, h1, hr1, c2, e2, Option.bind_eq_bind,
              Option.some_bind, if_true, if_false, Tree.ptr_node]
    · simp only [c1, if_false] at hR
      by_cases c3 : l.ch - r.ch ≥ 2
      · simp only [c3, if_true] at hR
        cases l with
        | nil => simp at hR
        | node ll la lk lv lh lr =>
          have hl1 := hz1.2.1.2.1.1
          by_cases c2 : key < lk
          · simp only [c2, if_true] at hR
            cases hrot : (Tree.node (Tree.node ll la lk lv lh lr) a0 k v h2 r).rotateRight with
            | none => simp [hrot] at hR
            | some t2 =>
              simp only [hrot, Option.some.injEq, Prod.mk.injEq] at hR
              obtain ⟨rfl, rfl⟩ := hR
              obtain ⟨m2, e2, len2, hz2, n, hn, hp⟩ := rotateRight_repr hz1 rfl hrot
              refine ⟨m2, n, e1, hb, ?_, by omega, hz2, hn, by simpa using hp⟩
              simp only [rebalanceAt, hb, c1, c3, h1, hl1, c2, e2, Option.bind_eq_bind,
                Option.some_bind, if_true, if_false, Tree.ptr_node]
          · simp only [c2, if_false] at hR
            cases hrot : (Tree.node (Tree.node ll la lk lv lh lr) a0 k v h2 r).doubleRotateRight with
            | none => simp [hrot] at hR
            | some t2 =>
              simp only [hrot, Option.some.injEq, Prod.mk.injEq] at hR
              obtain ⟨rfl, rfl⟩ := hR
              obtain ⟨m2, e2, len2, hz2, n, hn, hp⟩ := doubleRotateRight_repr hz1 rfl hrot
              refine ⟨m2, n, e1, hb, ?_, by omega, hz2, hn, by simpa using hp⟩
              simp only [rebalanceAt, hb, c1, c3, h1, hl1, c2, e2, Option.bind_eq_bind,
                Option.some_bind, if_true, if_false, Tree.ptr_node]
      · simp only [c3, if_false, Option.some.injEq, Prod.mk.injEq] at hR
        obtain ⟨rfl, rfl⟩ := hR
        refine ⟨m1, _, e1, hb, ?_, len1, hz1, h1, by simp⟩
        simp only [rebalanceAt, hb, c1, c3, Option.bind_eq_bind, Option.some_bind, if_false]

theorem Tree.ht_le_size (t : Tree) : t.ht ≤ (t.size : Int) := by
  induction t with
  | nil => simp [Tree.ht, Tree.size]
  | node l a k v h r ihl ihr =>
    simp only [Tree.ht, Tree.size]
    have := l.ht_nonneg
    have := r.ht_nonneg
    push_cast
    omega

theorem pend_bf {key H0 : Int} {t : Tree} (hp : Pend key H0 t) :
    -2 ≤ t.fixHeight.bf ∧ t.fixHeight.bf ≤ 2 := by
  cases t with
  | nil => exact absurd hp (by simp [Pend])
  | node l a k v h r =>
    obtain ⟨gl, gr, hcase⟩ := hp
    have el := gl.ch_eq
    have er := gr.ch_eq
    simp only [Tree.fixHeight_node, Tree.bf_node]
    rcases hcase with ⟨b1, b2, _⟩ | ⟨u1, _, _⟩ | ⟨u1, _, _⟩ <;> omega

theorem rebalanceT_rot {key : Int} {t t1 : Tree} {rot : Bool}
    (hR : rebalanceT key t = some (t1, rot))
    (hb : t.fixHeight.bf ≤ -2 ∨ 2 ≤ t.fixHeight.bf) : rot = true := by
  cases t with
  | nil => simp [rebalanceT, Tree.fixHeight] at hR
  | node l a k v h r =>
    simp only [rebalanceT, Tree.fixHeight_node, Tree.bf_node] at hR hb
    by_cases c1 : l.ch - r.ch ≤ -2
    · simp only [c1, if_true] at hR
      cases r with
      | nil => simp at hR
      | node rl ra rk rv rh rr =>
        simp only at hR
        split at hR
        · simp at hR
        · simp only [Option.some.injEq, Prod.mk.injEq] at hR
          exact hR.2.symm
    · have c3 : l.ch - r.ch ≥ 2 := by omega
      simp only [c1, c3, if_true, if_false] at hR
      cases l with
      | nil => simp at hR
      | node ll la lk lv lh lr =>
        simp only at hR
        split at hR
        · simp at hR
        · simp only [Option.some.injEq, Prod.mk.injEq] at hR
          exact hR.2.symm

theorem Tree.size_le_one {t : Tree} (h : t.ht ≤ 1) : t.size ≤ 1 := by
  cases t with
  | nil => simp [Tree.size]
  | node l a k v hh r =>
    simp only [Tree.ht] at h
    have hl : l = Tree.nil := by
      by_contra c
      have := (l.ht_pos_iff).2 c
      omega
    have hr : r = Tree.nil := by
      by_contra c
      have := (r.ht_pos_iff).2 c
      omega
    subst hl; subst hr
    simp [Tree.size]

/-- A balanced tree with as many nodes as a tree out of balance by two has two children. -/
theorem kids_of_unb {t t1 : Tree} (g : t1.Good) (hs : t1.size = t.size) (hu : Unb t) :
    ∃ ll la lk lv lh lr a k v h rl ra rk rv rh rr,
      t1 = Tree.node (Tree.node ll la lk lv lh lr) a k v h (Tree.node rl ra rk rv rh rr) := by
  have h3 : 3 ≤ t.size := by
    cases t with
    | nil => exact absurd hu (by simp [Unb])
    | node l a k v h r =>
      simp only [Unb] at hu
      simp only [Tree.size]
      have := l.ht_nonneg
      have := r.ht_nonneg
      have := l.ht_le_size
      have := r.ht_le_size
      omega
  cases t1 with
  | nil => simp [Tree.size] at hs; omega
  | node l1 a1 k1 v1 h1 r1 =>
    obtain ⟨g1, g2, _, b1, b2⟩ := g
    simp only [Tree.size] at hs
    cases l1 with
    | nil =>
      have := Tree.size_le_one (t := r1) (by simp [Tree.ht] at b2; omega)
      simp [Tree.size] at hs; omega
    | node ll la lk lv lh lr =>
      cases r1 with
      | nil =>
        have := Tree.size_le_one (t := Tree.node ll la lk lv lh lr)
          (by simp only [Tree.ht] at b1 ⊢; omega)
        simp [Tree.size] at hs this; omega
      | node rl ra rk rv rh rr => exact ⟨_, _, _, _, _, _, _, _, _, _, _, _, _, _, _, _, rfl⟩

theorem balancedAt_good {m : Store} {p : Option Nat} {l r : Tree} {a : Nat} {k : Int}
    {v : Bool} {h : Int} (hr : Repr m p (Tree.node l a k v h r))
    (g : (Tree.node l a k v h r).Good) : balancedAt m a = true := by
  obtain ⟨gl, gr, _, b1, b2⟩ := g
  have el := gl.ch_eq
  have er := gr.ch_eq
  simp only [balancedAt, bf_repr hr, Bool.and_eq_true, decide_eq_true_eq]
  omega


theorem retraceRounds_succ (rh : Nat) (key : Int) (fuel : Nat) (m : Store) (a : Nat)
    (c : a ≠ rh) :
    retraceRounds rh key (fuel + 1) m (some a) =
      (fixHeight m a).bind fun mf => (bf mf a).bind fun b =>
        (rebalanceAt key mf a).bind fun m1 => m1[a]?.bind fun n =>
          (retraceRounds rh key fuel m1 n.parent).bind fun rest =>
            some ({ node := a, fixed := mf, bal := b, after := m1 } :: rest) := by
  simp only [retraceRounds, Option.some.injEq, c, if_false, Option.bind_eq_bind,
    Option.some_bind]

/-- The rounds of the retrace from a subtree that satisfies `Pend`: the loop ends, every
balance factor read is between `-2` and `2`, and a rotation leaves its subtree balanced. -/
theorem rounds_spec (key : Int) (fuel : Nat) : ∀ (ctx : List Frame) (t : Tree) (H0 : Int)
    (m : Store) (a : Nat), ReprZ m ctx t → t.ptr = some a →
    Pend key H0 t → CtxGood ctx H0 → CtxSide key ctx → 2 * ctx.length + 1 ≤ fuel →
    (Unb t → 2 * ctx.length + 2 ≤ fuel) →
    ∃ rs, retraceRounds 0 key (fuel + 1) m (some a) = some rs ∧
      ∀ r ∈ rs, -2 ≤ r.bal ∧ r.bal ≤ 2 ∧
        ((r.bal = -2 ∨ r.bal = 2) → r.rotatedBalanced = true) := by
  induction fuel with
  | zero => intro ctx t H0 m a _ _ _ _ _ h; omega
  | succ n ih =>
    intro ctx t H0 m a hz ha hp hc hs hf hu
    obtain ⟨t1, rot, e, g1, hh, ep, es, hn, hrot⟩ := rebalanceT_pend hp
    obtain ⟨mf, m1, nd, e1, hb, e2, len1, hz1, hnd, hpar⟩ := round_step hz ha e
    have ha0 := hz.root_ne_zero ha
    have hbal := pend_bf hp
    have hhead : (t.fixHeight.bf = -2 ∨ t.fixHeight.bf = 2) →
        (Round.mk a mf t.fixHeight.bf m1).rotatedBalanced = true := by
      intro hb2
      have hr := rebalanceT_rot e (by omega)
      subst hr
      obtain ⟨_, hu1⟩ := hrot rfl
      obtain ⟨ll, la, lk, lv, lh, lr, a1, k1, v1, h1, rl, ra, rk, rv, rh, rr, rfl⟩ :=
        kids_of_unb g1 es hu1
      simp only [if_true, Tree.ptr_node] at hpar
      have hrep := hz1.2.1
      have b0 := balancedAt_good hrep g1
      have bl := balancedAt_good hrep.2.1 g1.1
      have br := balancedAt_good hrep.2.2 g1.2.1
      simp [Round.rotatedBalanced, hnd, hpar, hrep.1, b0, bl, br]
    have hunf : ∀ rest, retraceRounds 0 key (n + 1) m1 nd.parent = some rest →
        retraceRounds 0 key (n + 1 + 1) m (some a) =
          some (⟨a, mf, t.fixHeight.bf, m1⟩ :: rest) := by
      intro rest hrest
      rw [retraceRounds_succ 0 key (n + 1) m a ha0]
      simp only [e1, hb, e2, hnd, hrest, Option.some_bind]
    have hfin : ∀ rest, retraceRounds 0 key (n + 1) m1 nd.parent = some rest →
        (∀ r ∈ rest, -2 ≤ r.bal ∧ r.bal ≤ 2 ∧
          ((r.bal = -2 ∨ r.bal = 2) → r.rotatedBalanced = true)) →
        ∃ rs, retraceRounds 0 key (n + 1 + 1) m (some a) = some rs ∧
          ∀ r ∈ rs, -2 ≤ r.bal ∧ r.bal ≤ 2 ∧
            ((r.bal = -2 ∨ r.bal = 2) → r.rotatedBalanced = true) := by
      intro rest hrest hall
      refine ⟨_, hunf rest hrest, ?_⟩
      intro r hr
      rcases List.mem_cons.1 hr with rfl | hr
      · exact ⟨hbal.1, hbal.2, hhead⟩
      · exact hall r hr
    cases rot with
    | true =>
      obtain ⟨eh, hu1⟩ := hrot rfl
      simp only [if_true] at hpar
      have hpd := g1.pend key hn
      rw [eh] at hpd
      cases hpt : t1.ptr with
      | none =>
        cases t1 with
        | nil => exact absurd rfl hn
        | node _ _ _ _ _ _ => simp at hpt
      | some a1 =>
        obtain ⟨rest, hrest, hall⟩ := ih ctx t1 H0 m1 a1 hz1 hpt hpd.1 hc hs
          (by have := hu hu1; omega) (fun h => absurd h hpd.2)
        rw [← hpt, ← hpar] at hrest
        exact hfin rest hrest hall
    | false =>
      simp only [Bool.false_eq_true, if_false] at hpar
      cases ctx with
      | nil =>
        refine hfin [] ?_ (by simp)
        rw [hpar]
        simp [retraceRounds, ctxAddr]
      | cons f fs =>
        obtain ⟨H1, hp1, hc1, hs1⟩ := pend_plug g1 hh hc hs
        simp only [List.length_cons] at hf
        have hz1a := reprZ_cons.1 hz1
        have hpf : (f.plug t1).ptr = some (ctxAddr (f :: fs)) := by
          cases f <;> simp [Frame.plug, ctxAddr, Frame.addr]
        obtain ⟨rest, hrest, hall⟩ := ih fs (f.plug t1) H1 m1 _ hz1a hpf hp1 hc1 hs1
          (by omega) (fun _ => by omega)
        rw [← hpar] at hrest
        exact hfin rest hrest hall

/-- The retrace that `add` runs after a pass attached a new leaf. -/
theorem add_rounds {s : PTreeSet} {t : Tree} {key : Int} (hk : toInt (toUnsigned key) = key)
    (h : Inv s t) {s1 : PTreeSet} {node : Nat}
    (ha : addPass key s = some (AddPass.attached s1 node)) :
    s1.rootHolder = 0 ∧ (∃ n0, s1.heap[node]? = some n0 ∧ n0.key = key) ∧
      ∃ rs, fixHeightAndRebalanceRounds s1.rootHolder node s1.heap = some rs ∧
        retraceRounds 0 key (2 * s1.heap.length + 2) s1.heap (some node) = some rs ∧
        ∀ r ∈ rs, -2 ≤ r.bal ∧ r.bal ≤ 2 ∧
          ((r.bal = -2 ∨ r.bal = 2) → r.rotatedBalanced = true) := by
  cases hd : (descendT key [] t).2 with
  | node l1 a1 k1 v1 h1 r1 =>
    obtain ⟨s2, n, e1, _⟩ := addPass_found hk h hd
    rw [e1] at ha
    simp at ha
  | nil =>
    obtain ⟨m1, e1, len1, hz1⟩ := addPass_new hk h hd
    rw [e1] at ha
    simp only [Option.some.injEq, AddPass.attached.injEq] at ha
    obtain ⟨rfl, rfl⟩ := ha
    have hpl : plug (descendT key [] t).1 Tree.nil = t := by
      rw [← hd]; exact plug_descendT key t []
    obtain ⟨hrh, hlk, h0, hr, hnd, hlen, hb, hg⟩ := h
    have hbs := descendT_bound key t [] hb ⟨by simp [ctxBefore], by simp [ctxAfter]⟩ trivial
    have hcg : CtxGood (descendT key [] t).1 0 := by
      have := (plug_good (descendT key [] t).1 Tree.nil).1 (by rw [hpl]; exact hg)
      simpa [Tree.ht] using this.2
    have hsz : ctxSize (descendT key [] t).1 = t.size := by
      have := plug_size (descendT key [] t).1 Tree.nil
      rw [hpl] at this; simp [Tree.size] at this; omega
    have hpend : Pend key 0 (Tree.node Tree.nil s.heap.length key true 0 Tree.nil) := by
      refine ⟨trivial, trivial, Or.inl ⟨by simp [Tree.ht], by simp [Tree.ht],
        Or.inr ⟨by simp [Tree.ht], ?_⟩⟩⟩
      simp [Tree.Heavy]
    have hlen_ctx := length_le_ctxSize (descendT key [] t).1
    obtain ⟨rs, ers, hall⟩ := rounds_spec key (2 * m1.length + 1) _ _ 0 m1 s.heap.length hz1 rfl
      hpend hcg hbs.2 (by omega) (fun _ => by omega)
    have hnode := hz1.2.1.1
    refine ⟨hrh, ⟨_, hnode, rfl⟩, rs, ?_, ers, hall⟩
    simp only [fixHeightAndRebalanceRounds, hnode, hrh, Option.bind_eq_bind, Option.some_bind]
    exact ers


end pavltree

/-! ## Passes of `add`, and the run of the left-heavy example -/

namespace pavltree


theorem lhSet_run : run exHash PTreeSet.new lhCalls = some lhSet := by decide

theorem lhSet_reachable : Reachable exHash lhSet :=
  run_reachable exHash lhCalls PTreeSet.new lhSet Reachable.fresh lhSet_run

theorem lhAttached_pass : addPass (exHash 5).val lhSet = some (AddPass.attached lhAttached 6) := by
  decide

/-- A pass of `add` on a set that satisfies the invariant never ends in `goto Retry`. -/
theorem addPass_not_retry {s : PTreeSet} {t : Tree} {key : Int}
    (hk : toInt (toUnsigned key) = key) (h : Inv s t) :
    ∃ r, addPass key s = some r ∧ ∀ s1, r ≠ AddPass.retry s1 := by
  cases hd : (descendT key [] t).2 with
  | node l1 a1 k1 v1 h1 r1 =>
    obtain ⟨s2, n, e1, _⟩ := addPass_found hk h hd
    exact ⟨_, e1, by simp⟩
  | nil =>
    obtain ⟨m1, e1, _⟩ := addPass_new hk h hd
    exact ⟨_, e1, by simp⟩

/-- On a set that satisfies the invariant `add` returns in its first pass. -/
theorem addLoop_first {s : PTreeSet} {t : Tree} {key : Int}
    (hk : toInt (toUnsigned key) = key) (h : Inv s t) (fuel : Nat) :
    addLoop key (fuel + 1) s = addLoop key 1 s := by
  obtain ⟨r, e, hr⟩ := addPass_not_retry hk h
  simp only [addLoop, e]
  cases r with
  | ret s1 b => rfl
  | retry s1 => exact absurd rfl (hr s1)
  | attached s1 node => rfl

theorem lockGuard_some {β : Type} {s s2 : PTreeSet} {body : Store → Option (Store × β)} {r : β}
    (h : lockGuard s body = some (s2, r)) : ∃ m, body s.heap = some (m, r) := by
  simp only [lockGuard] at h
  split at h
  · simp at h
  · split at h
    · simp at h
    · rename_i m r1 hb
      simp only [Option.some.injEq, Prod.mk.injEq] at h
      exact ⟨m, by rw [hb, h.2]⟩

end pavltree

/-! ## Cached heights, the height bound, and the length of the descent -/

namespace pavltree


theorem trueHeight_root {m : Store} (t : Tree) : ∀ (p : Option Nat) (fuel : Nat), Repr m p t →
    t.size ≤ fuel → ∀ l a k v h r, t = Tree.node l a k v h r → ∀ p1 h1 k1 v1,
    trueHeight m fuel ⟨l.ptr, r.ptr, p1, h1, k1, v1⟩ = some (max l.ht r.ht) := by
  induction t with
  | nil => intro p fuel _ _ l a k v h r e; cases e
  | node l a k v h r ihl ihr =>
    intro p fuel hr hf l' a' k' v' h' r' e p1 h1 k1 v1
    cases e
    obtain ⟨_, h2, h3⟩ := hr
    cases fuel with
    | zero => simp [Tree.size] at hf
    | succ fuel =>
      simp only [Tree.size] at hf
      cases l with
      | nil =>
        cases r with
        | nil => simp [trueHeight, Tree.ht]
        | node rl ra rk rv rh rr =>
          have e := ihr (some a) fuel h3 (by omega) rl ra rk rv rh rr rfl (some a) rh rk rv
          have := rl.ht_nonneg
          have := rr.ht_nonneg
          simp only [trueHeight, Tree.ptr_nil, Tree.ptr_node, h3.1, e, Option.map_some',
            Tree.ht, Option.some.injEq]
          omega
      | node ll la lk lv lh lr =>
        have el := ihl (some a) fuel h2 (by simp only [Tree.size] at hf ⊢; omega)
          ll la lk lv lh lr rfl (some a) lh lk lv
        have := ll.ht_nonneg
        have := lr.ht_nonneg
        cases r with
        | nil =>
          simp only [trueHeight, Tree.ptr_nil, Tree.ptr_node, h2.1, el, Option.map_some',
            Tree.ht, Option.some.injEq]
          omega
        | node rl ra rk rv rh rr =>
          have er := ihr (some a) fuel h3 (by omega) rl ra rk rv rh rr rfl (some a) rh rk rv
          simp only [trueHeight, Tree.ptr_node, h2.1, h3.1, el, er, Tree.ht]

/-- In a represented tree with exact cached heights, the height field of every node is the
height of its subtree under the convention of `fixHeight`. -/
theorem trueHeight_repr {m : Store} (t : Tree) : ∀ (p : Option Nat) (fuel : Nat), Repr m p t →
    t.Good → t.size ≤ fuel → ∀ n ∈ t.nodes p, trueHeight m fuel n = some n.height := by
  induction t with
  | nil => intro p fuel _ _ _ n hn; simp [Tree.nodes] at hn
  | node l a k v h r ihl ihr =>
    intro p fuel hr g hf n hn
    have hroot := trueHeight_root _ p fuel hr hf l a k v h r rfl p h k v
    obtain ⟨_, h2, h3⟩ := hr
    obtain ⟨gl, gr, eh, _, _⟩ := g
    simp only [Tree.size] at hf
    simp only [Tree.nodes, List.mem_append, List.mem_cons] at hn
    rcases hn with hn | rfl | hn
    · exact ihl (some a) fuel h2 gl (by omega) n hn
    · rw [hroot, eh]
    · exact ihr (some a) fuel h3 gr (by omega) n hn

/-- A balanced tree of height `H` has at least `fib (H + 2) - 1` nodes. -/
theorem fib_le_size (t : Tree) : ∀ H : Nat, t.Good → t.ht = (H : Int) →
    Nat.fib (H + 2) ≤ t.size + 1 := by
  induction t with
  | nil =>
    intro H _ e
    simp only [Tree.ht] at e
    have : H = 0 := by omega
    subst this
    simp [Tree.size]
  | node l a k v h r ihl ihr =>
    intro H g e
    obtain ⟨gl, gr, _, b1, b2⟩ := g
    obtain ⟨Hl, el⟩ := Int.eq_ofNat_of_zero_le l.ht_nonneg
    obtain ⟨Hr, er⟩ := Int.eq_ofNat_of_zero_le r.ht_nonneg
    have il := ihl Hl gl el
    have ir := ihr Hr gr er
    simp only [Tree.ht] at e
    simp only [Tree.size]
    rw [el, er] at b1 b2 e
    by_cases c : Hl ≤ Hr
    · have eH : H = Hr + 1 := by omega
      subst eH
      have e2 : Nat.fib (Hr + 1 + 2) = Nat.fib (Hr + 1) + Nat.fib (Hr + 2) := Nat.fib_add_two
      have hm : Nat.fib (Hr + 1) ≤ Nat.fib (Hl + 2) := Nat.fib_mono (by omega)
      omega
    · have eH : H = Hl + 1 := by omega
      subst eH
      have e2 : Nat.fib (Hl + 1 + 2) = Nat.fib (Hl + 1) + Nat.fib (Hl + 2) := Nat.fib_add_two
      have hm : Nat.fib (Hl + 1) ≤ Nat.fib (Hr + 2) := Nat.fib_mono (by omega)
      omega

theorem two_pow_le_fib_sq : ∀ n : Nat, 2 ^ n ≤ (Nat.fib (n + 2)) ^ 2
  | 0 => by simp
  | 1 => by decide
  | n + 2 => by
    have ih := two_pow_le_fib_sq n
    have e : Nat.fib (n + 2 + 2) = Nat.fib (n + 2) + Nat.fib (n + 3) := Nat.fib_add_two
    have hm : Nat.fib (n + 2) ≤ Nat.fib (n + 3) := Nat.fib_mono (by omega)
    have h2 : 2 * Nat.fib (n + 2) ≤ Nat.fib (n + 2 + 2) := by omega
    calc 2 ^ (n + 2) = 4 * 2 ^ n := by ring
      _ ≤ 4 * (Nat.fib (n + 2)) ^ 2 := by omega
      _ = (2 * Nat.fib (n + 2)) ^ 2 := by ring
      _ ≤ (Nat.fib (n + 2 + 2)) ^ 2 := Nat.pow_le_pow_left h2 2

theorem le_two_logb {H n : Nat} (h : 2 ^ H ≤ (n + 1) ^ 2) :
    (H : ℝ) ≤ 2 * Real.logb 2 ((n : ℝ) + 1) := by
  have h1 : ((2 : ℝ) ^ H) ≤ ((n : ℝ) + 1) ^ 2 := by exact_mod_cast h
  have hpos : (0 : ℝ) < (2 : ℝ) ^ H := by positivity
  have h2 := Real.logb_le_logb_of_le (b := 2) (by norm_num) hpos h1
  rw [Real.logb_pow, Real.logb_pow, Real.logb_self_eq_one (by norm_num)] at h2
  simpa using h2

theorem containsLoop_height {m : Store} {p : Option Nat} {t : Tree} (key : Int) (h : Repr m p t)
    (fuel : Nat) (hf : t.ht ≤ (fuel : Int)) :
    containsLoop m key fuel t.ptr = some (t.lookup key) := by
  induction t generalizing p fuel with
  | nil => cases fuel <;> rfl
  | node l a k v hh r ihl ihr =>
    obtain ⟨h1, h2, h3⟩ := h
    have := l.ht_nonneg
    have := r.ht_nonneg
    simp only [Tree.ht] at hf
    cases fuel with
    | zero => omega
    | succ fuel =>
      simp only [Tree.ptr_node, containsLoop, h1, Tree.lookup]
      by_cases c1 : k = key
      · cases v <;> simp [c1]
      · by_cases c2 : k > key
        · simp only [c1, c2, if_false, if_true]
          exact ihl h2 fuel (by omega)
        · simp only [c1, c2, if_false]
          exact ihr h3 fuel (by omega)

/-- The loop of `remove` needs no more rounds than the height of the tree. -/
theorem removeLoop_height {m : Store} {p : Option Nat} {t : Tree} (key : Int) (h : Repr m p t)
    (f1 f2 : Nat) (h1 : t.ht ≤ (f1 : Int)) (h2 : t.ht ≤ (f2 : Int)) :
    removeLoop m key f1 t.ptr = removeLoop m key f2 t.ptr := by
  induction t generalizing p f1 f2 with
  | nil => cases f1 <;> cases f2 <;> rfl
  | node l a k v hh r ihl ihr =>
    obtain ⟨hn, hl, hr⟩ := h
    have := l.ht_nonneg
    have := r.ht_nonneg
    simp only [Tree.ht] at h1 h2
    cases f1 with
    | zero => omega
    | succ f1 =>
      cases f2 with
      | zero => omega
      | succ f2 =>
        simp only [Tree.ptr_node, removeLoop, hn]
        by_cases c1 : k = key
        · simp [c1]
        · by_cases c2 : k > key
          · simp only [c1, c2, if_false, if_true]
            exact ihl hl f1 f2 (by omega) (by omega)
          · simp only [c1, c2, if_false]
            exact ihr hr f1 f2 (by omega) (by omega)

/-- The loop of `add` needs no more rounds than the height of the tree. -/
theorem addDescend_height (key : Int) (s : PTreeSet) {p : Option Nat} {t : Tree}
    (h : Repr s.heap p t) : ∀ (a f1 f2 : Nat), t.ptr = some a → t.ht ≤ (f1 : Int) →
    t.ht ≤ (f2 : Int) → addDescend key f1 s a = addDescend key f2 s a := by
  induction t generalizing p with
  | nil => intro a f1 f2 ha; simp at ha
  | node l a0 k v hh r ihl ihr =>
    intro a f1 f2 ha h1 h2
    simp only [Tree.ptr_node, Option.some.injEq] at ha
    subst ha
    obtain ⟨hn, hl, hr⟩ := h
    have := l.ht_nonneg
    have := r.ht_nonneg
    simp only [Tree.ht] at h1 h2
    cases f1 with
    | zero => omega
    | succ f1 =>
      cases f2 with
      | zero => omega
      | succ f2 =>
        simp only [addDescend, hn]
        by_cases c1 : k = key
        · simp [c1]
        · by_cases c2 : k > key
          · simp only [c1, c2, if_false, if_true]
            cases l with
            | nil => simp
            | node ll la lk lv lh lr =>
              simp only [Tree.ptr_node, ne_eq, reduceCtorEq, not_false_eq_true, if_true]
              exact ihl hl la f1 f2 rfl (by omega) (by omega)
          · simp only [c1, c2, if_false]
            cases r with
            | nil => simp
            | node rl ra rk rv rh rr =>
              simp only [Tree.ptr_node, ne_eq, reduceCtorEq, not_false_eq_true, if_true]
              exact ihr hr ra f1 f2 rfl (by omega) (by omega)

end pavltree

/-! ## Rotations keep the pairs in order -/

namespace pavltree


theorem Tree.rotateLeft_pairs {t t1 : Tree} (h : t.rotateLeft = some t1) : t1.pairs = t.pairs := by
  cases t with
  | nil => simp [Tree.rotateLeft] at h
  | node l a k v hh r =>
    cases r with
    | nil => simp [Tree.rotateLeft] at h
    | node rl ra rk rv rh rr =>
      simp only [Tree.rotateLeft, Tree.fixHeight_node, Option.some.injEq] at h
      subst h
      simp [Tree.pairs]

theorem Tree.rotateRight_pairs {t t1 : Tree} (h : t.rotateRight = some t1) :
    t1.pairs = t.pairs := by
  cases t with
  | nil => simp [Tree.rotateRight] at h
  | node l a k v hh r =>
    cases l with
    | nil => simp [Tree.rotateRight] at h
    | node ll la lk lv lh lr =>
      simp only [Tree.rotateRight, Tree.fixHeight_node, Option.some.injEq] at h
      subst h
      simp [Tree.pairs]

/-- The double rotation to the left of a node with a right child returns, and keeps the pairs
in order. -/
theorem Tree.doubleRotateLeft_total (l : Tree) (a : Nat) (k : Int) (v : Bool) (h : Int)
    (rl : Tree) (ra : Nat) (rk : Int) (rv : Bool) (rh : Int) (rr : Tree) :
    ∃ t1, (Tree.node l a k v h (Tree.node rl ra rk rv rh rr)).doubleRotateLeft = some t1 ∧
      t1.pairs = (Tree.node l a k v h (Tree.node rl ra rk rv rh rr)).pairs := by
  cases rl with
  | nil =>
    refine ⟨_, rfl, ?_⟩
    simp [Tree.pairs]
  | node rll rla rlk rlv rlh rlr =>
    refine ⟨_, rfl, ?_⟩
    simp [Tree.pairs]

/-- The double rotation to the right of a node with a left child returns, and keeps the pairs
in order. -/
theorem Tree.doubleRotateRight_total (ll : Tree) (la : Nat) (lk : Int) (lv : Bool) (lh : Int)
    (lr : Tree) (a : Nat) (k : Int) (v : Bool) (h : Int) (r : Tree) :
    ∃ t1, (Tree.node (Tree.node ll la lk lv lh lr) a k v h r).doubleRotateRight = some t1 ∧
      t1.pairs = (Tree.node (Tree.node ll la lk lv lh lr) a k v h r).pairs := by
  cases lr with
  | nil =>
    refine ⟨_, rfl, ?_⟩
    simp [Tree.pairs]
  | node lrl lra lrk lrv lrh lrr =>
    refine ⟨_, rfl, ?_⟩
    simp [Tree.pairs]

/-- A store that holds a tree has room for its nodes and the sentinel. -/
theorem ReprZ.size_lt {m : Store} {T : Tree} (hz : ReprZ m [] T) : T.size < m.length := by
  obtain ⟨⟨r0, h0⟩, hr, hnd⟩ := hz
  simp only [ctxAddrs, List.append_nil] at hnd
  have hsub : (0 :: T.addrs) ⊆ List.range m.length := by
    intro x hx
    rw [List.mem_range]
    rcases List.mem_cons.1 hx with rfl | hx
    · exact lt_of_get h0
    · exact hr.addr_lt x hx
  have := (List.subperm_of_subset hnd hsub).length_le
  simp only [List.length_cons, Tree.length_addrs, List.length_range] at this
  omega

/-- The pairs in order of the tree that a store holds. -/
theorem inorderPairs_reprZ {m : Store} {ctx : List Frame} {t : Tree} (hz : ReprZ m ctx t) :
    inorderPairs m = some (ctxBefore ctx ++ t.pairs ++ ctxAfter ctx) := by
  have hT := (reprZ_plug ctx t).1 hz
  have hlt := hT.size_lt
  obtain ⟨⟨r0, h0⟩, hr, _⟩ := hT
  have := inorderFrom_repr hr m.length (by omega)
  simp only [inorderPairs, inorder, h0, this, Tree.map_pair_nodes, plug_pairs]

/-- The store `lhStore` holds the node of `20` with its subtrees under the node of `40`. -/
theorem lhStore_repr : ReprZ lhStore lhCtx (Tree.node lhLeft 2 20 true 2 lhRight) :=
  ⟨⟨rfl, ⟨rfl, trivial, trivial⟩, ⟨some 1, rfl⟩⟩,
    ⟨rfl, ⟨rfl, ⟨rfl, trivial, trivial⟩, trivial⟩, ⟨rfl, trivial, trivial⟩⟩, by decide⟩

end pavltree

/-! ## The claims -/

namespace pavltree

theorem Tree.erase_lookup (key : Int) (t : Tree) : (t.erase key).1.lookup key = false := by
  induction t with
  | nil => rfl
  | node l a k v h r ihl ihr =>
    simp only [Tree.erase]
    split_ifs with c1 c2
    · simp [Tree.lookup, c1]
    · simp [Tree.lookup, c1, c2, ihl]
    · simp [Tree.lookup, c1, c2, ihr]

theorem Inv.bst {s : PTreeSet} {t : Tree} (h : Inv s t) : t.BST := h.2.2.2.2.2.2.1

theorem Inv.good {s : PTreeSet} {t : Tree} (h : Inv s t) : t.Good := h.2.2.2.2.2.2.2

/-- C1. On every set a single thread can build, `contains(v)` returns a value, and the value is
`true` exactly when some node of the tree under the sentinel has the key `hash(v)` and
`has_value` set.  On a freshly constructed set it returns `false` for every `v` (also for a `v`
whose key is the sentinel's key `0`). -/
theorem contains_iff_present {α : Type} (hash : α → CInt) (s : PTreeSet)
    (hs : Reachable hash s) (v : α) :
    (∃ b nodes, contains hash s v = some b ∧ inorder s = some nodes ∧
      (b = true ↔ ∃ n ∈ nodes, n.key = (hash v).val ∧ n.has_value = true)) ∧
    contains hash PTreeSet.new v = some false := by
  obtain ⟨t, ht⟩ := reachable_inv hs
  exact ⟨⟨_, _, ht.contains hash v, ht.inorder, Tree.lookup_iff_nodes _ ht.bst _⟩,
    inv_fresh.contains hash v⟩

/-- Witness of C1: the example set and the tombstoned value `20`. -/
theorem contains_iff_present_witness :
    Reachable exHash exSet ∧
      ((∃ b nodes, contains exHash exSet 20 = some b ∧ inorder exSet = some nodes ∧
        (b = true ↔ ∃ n ∈ nodes, n.key = (exHash 20).val ∧ n.has_value = true)) ∧
      contains exHash PTreeSet.new 20 = some false) :=
  ⟨exSet_reachable, contains_iff_present exHash exSet exSet_reachable 20⟩

/-- C2. On every set a single thread can build, `add(x)` returns a value: `true` exactly when
`contains(x)` was `false` before the call, `false` exactly when it was `true`; afterwards
`contains(x)` is `true`.  So on a set that does not contain `x`, `add(x)` twice in a row
returns `true` and then `false`. -/
theorem add_returns {α : Type} (hash : α → CInt) (s : PTreeSet) (hs : Reachable hash s)
    (x : α) :
    ∃ s1 b, add hash s x = some (s1, b) ∧
      (b = true ↔ contains hash s x = some false) ∧
      (b = false ↔ contains hash s x = some true) ∧
      contains hash s1 x = some true ∧
      (contains hash s x = some false →
        b = true ∧ ∃ s2, add hash s1 x = some (s2, false)) := by
  obtain ⟨t, ht⟩ := reachable_inv hs
  obtain ⟨s1, T, e, hinv, hl, _⟩ := inv_add hash ht x
  obtain ⟨s2, T2, e2, _⟩ := inv_add hash hinv x
  rw [hl] at e2
  refine ⟨s1, _, e, ?_, ?_, ?_, ?_⟩
  · rw [ht.contains]; cases t.lookup (hash x).val <;> simp
  · rw [ht.contains]; cases t.lookup (hash x).val <;> simp
  · rw [hinv.contains, hl]
  · intro hc
    rw [ht.contains] at hc
    simp only [Option.some.injEq] at hc
    exact ⟨by rw [hc]; rfl, s2, e2⟩

/-- Witness of C2: the example set and the tombstoned value `20`. -/
theorem add_returns_witness :
    Reachable exHash exSet ∧
      ∃ s1 b, add exHash exSet 20 = some (s1, b) ∧
        (b = true ↔ contains exHash exSet 20 = some false) ∧
        (b = false ↔ contains exHash exSet 20 = some true) ∧
        contains exHash s1 20 = some true ∧
        (contains exHash exSet 20 = some false →
          b = true ∧ ∃ s2, add exHash s1 20 = some (s2, false)) :=
  ⟨exSet_reachable, add_returns exHash exSet exSet_reachable 20⟩

/-- C3. On every set a single thread can build, `remove(x)` returns a value: `true` exactly
when `contains(x)` was `true` before the call and `false` otherwise; afterwards `contains(x)`
is `false`, and a second `remove(x)` returns `false`.  On a freshly constructed set it returns
`false`. -/
theorem remove_returns {α : Type} (hash : α → CInt) (s : PTreeSet) (hs : Reachable hash s)
    (x : α) :
    (∃ s1 b, remove hash s x = some (s1, b) ∧
      (b = true ↔ contains hash s x = some true) ∧
      (b = false ↔ contains hash s x = some false) ∧
      contains hash s1 x = some false ∧
      ∃ s2, remove hash s1 x = some (s2, false)) ∧
    remove hash PTreeSet.new x = some (PTreeSet.new, false) := by
  obtain ⟨t, ht⟩ := reachable_inv hs
  obtain ⟨s1, e, hinv, _⟩ := inv_remove hash ht x
  obtain ⟨s2, e2, _⟩ := inv_remove hash hinv x
  rw [Tree.erase_lookup] at e2
  obtain ⟨s0, e0, _, _, _, h0, _⟩ := inv_remove hash inv_fresh x
  refine ⟨⟨s1, _, e, ?_, ?_, ?_, s2, e2⟩, ?_⟩
  · rw [ht.contains]; cases t.lookup (hash x).val <;> simp
  · rw [ht.contains]; cases t.lookup (hash x).val <;> simp
  · rw [hinv.contains, Tree.erase_lookup]
  · rw [e0, h0 rfl]; rfl

/-- Witness of C3: the example set and the present value `30`. -/
theorem remove_returns_witness :
    Reachable exHash exSet ∧
      ((∃ s1 b, remove exHash exSet 30 = some (s1, b) ∧
        (b = true ↔ contains exHash exSet 30 = some true) ∧
        (b = false ↔ contains exHash exSet 30 = some false) ∧
        contains exHash s1 30 = some false ∧
        ∃ s2, remove exHash s1 30 = some (s2, false)) ∧
      remove exHash PTreeSet.new 30 = some (PTreeSet.new, false)) :=
  ⟨exSet_reachable, remove_returns exHash exSet exSet_reachable 30⟩

/-- C4. Ordering invariant: on every set a single thread can build, the traversal in order of
the tree under the sentinel (tombstones included) is strictly increasing in the keys, and for
every node of the tree all keys in its left subtree are smaller and all keys in its right
subtree larger than its own key. -/
theorem bst_ordering {α : Type} (hash : α → CInt) (s : PTreeSet) (hs : Reachable hash s) :
    ∃ nodes, inorder s = some nodes ∧
      (nodes.map Node.key).Pairwise (fun x y => x < y) ∧
      ∀ n ∈ nodes, ∃ ls rs, inorderFrom s.heap s.heap.length n.left = some ls ∧
        inorderFrom s.heap s.heap.length n.right = some rs ∧
        (∀ y ∈ ls, y.key < n.key) ∧ (∀ y ∈ rs, n.key < y.key) := by
  obtain ⟨t, ht⟩ := reachable_inv hs
  refine ⟨_, ht.inorder, ?_, ?_⟩
  · rw [Tree.map_key_nodes]; exact ht.bst
  · exact subtree_order ht.2.2.2.1 ht.bst _ (by have := ht.2.2.2.2.2.1; omega)

/-- Witness of C4: the example set. -/
theorem bst_ordering_witness :
    Reachable exHash exSet ∧
      ∃ nodes, inorder exSet = some nodes ∧
        (nodes.map Node.key).Pairwise (fun x y => x < y) ∧
        ∀ n ∈ nodes, ∃ ls rs, inorderFrom exSet.heap exSet.heap.length n.left = some ls ∧
          inorderFrom exSet.heap exSet.heap.length n.right = some rs ∧
          (∀ y ∈ ls, y.key < n.key) ∧ (∀ y ∈ rs, n.key < y.key) :=
  ⟨exSet_reachable, bst_ordering exHash exSet exSet_reachable⟩

/-- C5. Balance invariant: on every set a single thread can build, `add(x)` returns, and in
the set it leaves every node of the tree has a left and a right subtree whose true heights (`0`
for an absent child, one more than the higher child otherwise) differ by at most one. -/
theorem avl_balance_after_add {α : Type} (hash : α → CInt) (s : PTreeSet)
    (hs : Reachable hash s) (x : α) :
    ∃ s1 b nodes, add hash s x = some (s1, b) ∧ inorder s1 = some nodes ∧
      ∀ n ∈ nodes, ∃ lh rh, heightFrom s1.heap s1.heap.length n.left = some lh ∧
        heightFrom s1.heap s1.heap.length n.right = some rh ∧ |lh - rh| ≤ 1 := by
  obtain ⟨t, ht⟩ := reachable_inv hs
  obtain ⟨s1, T, e, hinv, _⟩ := inv_add hash ht x
  refine ⟨s1, _, _, e, hinv.inorder, ?_⟩
  intro n hn
  obtain ⟨lh, rh, e1, e2, b1, b2⟩ :=
    subtree_balance hinv.2.2.2.1 hinv.good s1.heap.length
      (by have := hinv.2.2.2.2.2.1; omega) n hn
  exact ⟨lh, rh, e1, e2, abs_le.2 ⟨by omega, by omega⟩⟩

/-- Witness of C5: adding the new value `45` to the example set. -/
theorem avl_balance_after_add_witness :
    Reachable exHash exSet ∧
      ∃ s1 b nodes, add exHash exSet 45 = some (s1, b) ∧ inorder s1 = some nodes ∧
        ∀ n ∈ nodes, ∃ lh rh, heightFrom s1.heap s1.heap.length n.left = some lh ∧
          heightFrom s1.heap s1.heap.length n.right = some rh ∧ |lh - rh| ≤ 1 :=
  ⟨exSet_reachable, avl_balance_after_add exHash exSet exSet_reachable 45⟩

/-- C6. On every set a single thread can build, for a value `x` whose key no node of the tree
has, `add(x)` returns `true` and the `(key, has_value)` pairs of the tree in order are
afterwards the pairs before with `(hash(x), true)` put at its sorted place; `contains(y)` is
unchanged for every `y` with another key. -/
theorem add_new_key {α : Type} (hash : α → CInt) (s : PTreeSet) (hs : Reachable hash s)
    (x : α) (nodes : List Node) (hn : inorder s = some nodes)
    (hx : ∀ n ∈ nodes, n.key ≠ (hash x).val) :
    ∃ s1 nodes1, add hash s x = some (s1, true) ∧ inorder s1 = some nodes1 ∧
      nodes1.map (fun n => (n.key, n.has_value)) =
        insertPair (hash x).val (nodes.map (fun n => (n.key, n.has_value))) ∧
      ∀ y, (hash y).val ≠ (hash x).val → contains hash s1 y = contains hash s y := by
  obtain ⟨t, ht⟩ := reachable_inv hs
  rw [ht.inorder, Option.some.injEq] at hn
  subst hn
  obtain ⟨s1, T, e, hinv, hl, hcase⟩ := inv_add hash ht x
  have hnk : (hash x).val ∉ t.keys := by
    rw [← Tree.map_key_nodes (some 0)]
    intro hmem
    obtain ⟨n, hn, hk⟩ := List.mem_map.1 hmem
    exact hx n hn hk
  have hlk : t.lookup (hash x).val = false := by
    cases hlk : t.lookup (hash x).val with
    | false => rfl
    | true =>
      obtain ⟨n, hn, hk, _⟩ := (Tree.lookup_iff_nodes _ ht.bst (some 0)).1 hlk
      exact absurd hk (hx n hn)
  rcases hcase with ⟨hk, _⟩ | ⟨_, hp, _⟩
  · exact absurd hk hnk
  · rw [hlk] at e
    refine ⟨s1, _, e, hinv.inorder, ?_, ?_⟩
    · rw [Tree.map_pair_nodes, Tree.map_pair_nodes, hp]
    · intro y hy
      rw [hinv.contains, ht.contains]
      congr 1
      rw [Bool.eq_iff_iff, Tree.lookup_iff _ hinv.bst, Tree.lookup_iff _ ht.bst, hp,
        mem_insertPair]
      constructor
      · rintro (h | h)
        · simp only [Prod.mk.injEq] at h; exact absurd h.1 hy
        · exact h
      · exact Or.inr

/-- Witness of C6: adding the new value `45` to the example set. -/
theorem add_new_key_witness :
    (Reachable exHash exSet ∧ inorder exSet = some exNodes ∧
      ∀ n ∈ exNodes, n.key ≠ (exHash 45).val) ∧
      ∃ s1 nodes1, add exHash exSet 45 = some (s1, true) ∧ inorder s1 = some nodes1 ∧
        nodes1.map (fun n => (n.key, n.has_value)) =
          insertPair (exHash 45).val (exNodes.map (fun n => (n.key, n.has_value))) ∧
        ∀ y, (exHash y).val ≠ (exHash 45).val →
          contains exHash s1 y = contains exHash exSet y :=
  ⟨⟨exSet_reachable, by decide, by decide⟩,
    add_new_key exHash exSet exSet_reachable 45 exNodes (by decide) (by decide)⟩

/-- C7. Round trip: on every set a single thread can build, the calls `add(x)`, `remove(x)`,
`add(x)` in sequence all return, and `contains(x)` is `true` after the first `add`, `false`
after the `remove` and `true` after the second `add`. -/
theorem round_trip {α : Type} (hash : α → CInt) (s : PTreeSet) (hs : Reachable hash s)
    (x : α) :
    ∃ s1 b1 s2 b2 s3 b3, add hash s x = some (s1, b1) ∧ contains hash s1 x = some true ∧
      remove hash s1 x = some (s2, b2) ∧ contains hash s2 x = some false ∧
      add hash s2 x = some (s3, b3) ∧ contains hash s3 x = some true := by
  obtain ⟨t, ht⟩ := reachable_inv hs
  obtain ⟨s1, T1, e1, hinv1, hl1, _⟩ := inv_add hash ht x
  obtain ⟨s2, e2, hinv2, _⟩ := inv_remove hash hinv1 x
  obtain ⟨s3, T3, e3, hinv3, hl3, _⟩ := inv_add hash hinv2 x
  refine ⟨s1, _, s2, _, s3, _, e1, ?_, e2, ?_, e3, ?_⟩
  · rw [hinv1.contains, hl1]
  · rw [hinv2.contains, Tree.erase_lookup]
  · rw [hinv3.contains, hl3]

/-- Witness of C7: the example set and the value `30`. -/
theorem round_trip_witness :
    Reachable exHash exSet ∧
      ∃ s1 b1 s2 b2 s3 b3, add exHash exSet 30 = some (s1, b1) ∧
        contains exHash s1 30 = some true ∧
        remove exHash s1 30 = some (s2, b2) ∧ contains exHash s2 30 = some false ∧
        add exHash s2 30 = some (s3, b3) ∧ contains exHash s3 30 = some true :=
  ⟨exSet_reachable, round_trip exHash exSet exSet_reachable 30⟩

/-- C8. Tombstone reuse: on every set a single thread can build, no two nodes of the tree
have the same key; `add(x)` on a set whose tree holds a node with key `hash(x)` allocates no
node and changes no link, height or key, it only sets `has_value` of that node; and after
`add(x)`, `remove(x)`, `add(x)` the tree has exactly one node with key `hash(x)` and the same
nodes, with the same links, as after the first `add`. -/
theorem tombstone_reuse {α : Type} (hash : α → CInt) (s : PTreeSet) (hs : Reachable hash s)
    (x : α) :
    ∃ nodes, inorder s = some nodes ∧ (nodes.map Node.key).Nodup ∧
      ((∃ n ∈ nodes, n.key = (hash x).val) →
        ∃ s1 b a n, add hash s x = some (s1, b) ∧ s.heap[a]? = some n ∧ n ∈ nodes ∧
          n.key = (hash x).val ∧
          s1 = { s with heap := s.heap.set a { n with has_value := true } }) ∧
      ∃ s1 b1 s2 b2 s3 b3 nodes1, add hash s x = some (s1, b1) ∧
        remove hash s1 x = some (s2, b2) ∧ add hash s2 x = some (s3, b3) ∧
        inorder s1 = some nodes1 ∧ inorder s3 = some nodes1 ∧
        (nodes1.map Node.key).count (hash x).val = 1 := by
  obtain ⟨t, ht⟩ := reachable_inv hs
  obtain ⟨s1, T1, e1, hinv1, hl1, hc1⟩ := inv_add hash ht x
  obtain ⟨s2, e2, hinv2, _⟩ := inv_remove hash hinv1 x
  obtain ⟨s3, T3, e3, hinv3, hl3, hc3⟩ := inv_add hash hinv2 x
  have hnd : ∀ {s : PTreeSet} {t : Tree}, Inv s t → ((t.nodes (some 0)).map Node.key).Nodup := by
    intro s t h
    rw [Tree.map_key_nodes]
    exact List.Pairwise.imp (fun hab => ne_of_lt hab) h.bst
  refine ⟨_, ht.inorder, hnd ht, ?_, s1, _, s2, _, s3, _, _, e1, e2, e3, hinv1.inorder, ?_, ?_⟩
  · rintro ⟨n, hn, hk⟩
    rcases hc1 with ⟨_, _, a1, n1, ha1, hg1, hk1, es⟩ | ⟨hno, _⟩
    · obtain ⟨n2, hg2, hm2⟩ := ht.2.2.2.1.mem_nodes ha1
      rw [hg1, Option.some.injEq] at hg2
      subst hg2
      exact ⟨s1, _, a1, n1, e1, hg1, hm2, hk1, es⟩
    · exfalso
      have : (n.key, n.has_value) ∈ t.pairs := by
        rw [← Tree.map_pair_nodes (some 0)]
        exact List.mem_map_of_mem _ hn
      exact hno _ this hk
  · rcases hc3 with ⟨_, eT, _⟩ | ⟨hno, _⟩
    · rw [hinv3.inorder, eT, Tree.revive_erase, Tree.revive_of_lookup _ _ hl1]
    · exfalso
      have hk : (hash x).val ∈ T1.keys := by
        rw [Tree.mem_keys_iff]
        exact ⟨true, (Tree.lookup_iff _ hinv1.bst).1 hl1⟩
      rw [← Tree.erase_keys (hash x).val, Tree.mem_keys_iff] at hk
      obtain ⟨b, hb⟩ := hk
      exact hno _ hb rfl
  · refine List.count_eq_one_of_mem (hnd hinv1) ?_
    rw [Tree.map_key_nodes, Tree.mem_keys_iff]
    exact ⟨true, (Tree.lookup_iff _ hinv1.bst).1 hl1⟩

/-- Witness of C8: the example set and the tombstoned value `20`. -/
theorem tombstone_reuse_witness :
    Reachable exHash exSet ∧
      ∃ nodes, inorder exSet = some nodes ∧ (nodes.map Node.key).Nodup ∧
        ((∃ n ∈ nodes, n.key = (exHash 20).val) →
          ∃ s1 b a n, add exHash exSet 20 = some (s1, b) ∧ exSet.heap[a]? = some n ∧
            n ∈ nodes ∧ n.key = (exHash 20).val ∧
            s1 = { exSet with heap := exSet.heap.set a { n with has_value := true } }) ∧
        ∃ s1 b1 s2 b2 s3 b3 nodes1, add exHash exSet 20 = some (s1, b1) ∧
          remove exHash s1 20 = some (s2, b2) ∧ add exHash s2 20 = some (s3, b3) ∧
          inorder s1 = some nodes1 ∧ inorder s3 = some nodes1 ∧
          (nodes1.map Node.key).count (exHash 20).val = 1 :=
  ⟨exSet_reachable, tombstone_reuse exHash exSet exSet_reachable 20⟩

/-- C9. `remove` makes no structural change: on every set a single thread can build,
`remove(x)` returns and leaves the sentinel pointer, the lock, the number of nodes and the
sentinel as they were; every node keeps its links, its cached height and its key; a node whose
key is not `hash(x)` keeps `has_value`; `has_value` changes at a node only from `true` to
`false`, and only when `remove` returns `true`.  When `remove` returns `false` the whole state
is unchanged. -/
theorem remove_frame {α : Type} (hash : α → CInt) (s : PTreeSet) (hs : Reachable hash s)
    (x : α) :
    ∃ s1 b, remove hash s x = some (s1, b) ∧ s1.rootHolder = s.rootHolder ∧
      s1.balance_lock = s.balance_lock ∧ s1.heap.length = s.heap.length ∧
      s1.heap[s.rootHolder]? = s.heap[s.rootHolder]? ∧
      (∀ (a : Nat) (n : Node), s.heap[a]? = some n → ∃ n1, s1.heap[a]? = some n1 ∧ n1.left = n.left ∧
        n1.right = n.right ∧ n1.parent = n.parent ∧ n1.height = n.height ∧ n1.key = n.key ∧
        (n.key ≠ (hash x).val → n1.has_value = n.has_value) ∧
        (n1.has_value ≠ n.has_value → b = true ∧ n.has_value = true ∧ n1.has_value = false)) ∧
      (b = false → s1 = s) := by
  obtain ⟨t, ht⟩ := reachable_inv hs
  obtain ⟨s1, e, hinv, hrh, hlk, hf, htr⟩ := inv_remove hash ht x
  refine ⟨s1, _, e, hrh, hlk, ?_, ?_, ?_, hf⟩
  · have h1 := hinv.2.2.2.2.2.1
    have h2 := ht.2.2.2.2.2.1
    rw [Tree.erase_size] at h1
    omega
  · rw [ht.1, hinv.2.2.1, ht.2.2.1, Tree.erase_ptr]
  · intro a n hget
    cases hb : t.lookup (hash x).val with
    | false =>
      rw [hf hb]
      exact ⟨n, hget, rfl, rfl, rfl, rfl, rfl, fun _ => rfl, fun h => absurd rfl h⟩
    | true =>
      obtain ⟨c, n0, _, hg0, hk0, hv0, es⟩ := htr hb
      rw [es, get_set hg0]
      by_cases hca : c = a
      · subst hca
        rw [hg0, Option.some.injEq] at hget
        subst hget
        rw [if_pos rfl]
        exact ⟨_, rfl, rfl, rfl, rfl, rfl, rfl, fun h => absurd hk0 h,
          fun _ => ⟨rfl, hv0, rfl⟩⟩
      · rw [if_neg hca]
        exact ⟨n, hget, rfl, rfl, rfl, rfl, rfl, fun _ => rfl, fun h => absurd rfl h⟩

/-- Witness of C9: the example set and the present value `30`. -/
theorem remove_frame_witness :
    Reachable exHash exSet ∧
      ∃ s1 b, remove exHash exSet 30 = some (s1, b) ∧ s1.rootHolder = exSet.rootHolder ∧
        s1.balance_lock = exSet.balance_lock ∧ s1.heap.length = exSet.heap.length ∧
        s1.heap[exSet.rootHolder]? = exSet.heap[exSet.rootHolder]? ∧
        (∀ (a : Nat) (n : Node), exSet.heap[a]? = some n → ∃ n1, s1.heap[a]? = some n1 ∧ n1.left = n.left ∧
          n1.right = n.right ∧ n1.parent = n.parent ∧ n1.height = n.height ∧
          n1.key = n.key ∧
          (n.key ≠ (exHash 30).val → n1.has_value = n.has_value) ∧
          (n1.has_value ≠ n.has_value →
            b = true ∧ n.has_value = true ∧ n1.has_value = false)) ∧
        (b = false → s1 = exSet) :=
  ⟨exSet_reachable, remove_frame exHash exSet exSet_reachable 30⟩

/-- C10. `verify()` never aborts on a set a single thread has built: it runs to its end and
every assertion holds (the sentinel has no parent and equal left and right links, every node
is a child of its parent, every child points back to its node and has its key on the right
side of the node's key, and the balance factor computed from the cached heights is in
`{-1, 0, 1}`). -/
theorem verify_passes {α : Type} (hash : α → CInt) (s : PTreeSet) (hs : Reachable hash s) :
    verify s = some true := by
  obtain ⟨t, ht⟩ := reachable_inv hs
  exact ht.verify

/-- Witness of C10: the example set. -/
theorem verify_passes_witness : Reachable exHash exSet ∧ verify exSet = some true :=
  ⟨exSet_reachable, verify_passes exHash exSet exSet_reachable⟩

end pavltree

/-! ## Totality, the lock, and the retrace -/

namespace pavltree

/-- C11. Totality with one thread: on every set reachable by `add`/`remove` calls and for every
value, `contains`, `remove` and `add` return a Boolean.  `add` returns in its first pass: the
pass ends with a return or with the new node attached, never with `goto Retry`; and when a node
was attached, the retrace loop of `fixHeightAndRebalance` ends at the sentinel after finitely
many rounds and the function returns. -/
theorem operations_total {α : Type} (hash : α → CInt) (s : PTreeSet) (hs : Reachable hash s)
    (v : α) :
    (∃ b, contains hash s v = some b) ∧
    (∃ s1 b, remove hash s v = some (s1, b)) ∧
    (∃ s1 b, add hash s v = some (s1, b) ∧ addLoop (hash v).val 1 s = some (s1, b)) ∧
    ∃ r, addPass (hash v).val s = some r ∧ (∀ s1, r ≠ AddPass.retry s1) ∧
      ∀ s1 node, r = AddPass.attached s1 node →
        ∃ rs m2, fixHeightAndRebalanceRounds s1.rootHolder node s1.heap = some rs ∧
          fixHeightAndRebalanceLoop s1.rootHolder (hash v).val (2 * s1.heap.length + 2) s1.heap
            (some node) = some (lastStore s1.heap rs) ∧
          fixHeightAndRebalance s1.rootHolder node s1.heap = some (m2, ()) := by
  obtain ⟨t, ht⟩ := reachable_inv hs
  have hk := toInt_toUnsigned (hash v)
  obtain ⟨sr, er, _⟩ := inv_remove hash ht v
  obtain ⟨sa, T, ea, _⟩ := inv_add hash ht v
  have e1 : addLoop (hash v).val 1 s = some (sa, !(t.lookup (hash v).val)) := by
    rw [← addLoop_first hk ht s.heap.length]; exact ea
  obtain ⟨r, epass, hr⟩ := addPass_not_retry hk ht
  refine ⟨⟨_, ht.contains hash v⟩, ⟨_, _, er⟩, ⟨_, _, ea, e1⟩, r, epass, hr, ?_⟩
  rintro s1 node rfl
  obtain ⟨hrh, _, rs, ers, ers', _⟩ := add_rounds hk ht epass
  simp only [addLoop, epass] at e1
  cases hg : lockGuard s1 (fixHeightAndRebalance s1.rootHolder node) with
  | none => simp [hg] at e1
  | some p =>
    obtain ⟨s2, u⟩ := p
    obtain ⟨m2, hm2⟩ := lockGuard_some hg
    refine ⟨rs, m2, ers, ?_, hm2⟩
    rw [loop_rounds, hrh, ers']
    rfl

/-- Witness of C11: the left-heavy example set and the new value `5`. -/
theorem operations_total_witness :
    Reachable exHash lhSet ∧
      ((∃ b, contains exHash lhSet 5 = some b) ∧
      (∃ s1 b, remove exHash lhSet 5 = some (s1, b)) ∧
      (∃ s1 b, add exHash lhSet 5 = some (s1, b) ∧
        addLoop (exHash 5).val 1 lhSet = some (s1, b)) ∧
      ∃ r, addPass (exHash 5).val lhSet = some r ∧ (∀ s1, r ≠ AddPass.retry s1) ∧
        ∀ s1 node, r = AddPass.attached s1 node →
          ∃ rs m2, fixHeightAndRebalanceRounds s1.rootHolder node s1.heap = some rs ∧
            fixHeightAndRebalanceLoop s1.rootHolder (exHash 5).val (2 * s1.heap.length + 2)
              s1.heap (some node) = some (lastStore s1.heap rs) ∧
            fixHeightAndRebalance s1.rootHolder node s1.heap = some (m2, ())) :=
  ⟨lhSet_reachable, operations_total exHash lhSet lhSet_reachable 5⟩

/-- C12. The code of `SpinLock::lock()` against the claim that a call on a held lock does not
return: the loop `while(!p.exchange(true))` goes on while the exchange returns `false`, so a
call on a held lock (flag `true`) returns after its first exchange, which observed `true`; a
call on a free lock returns after a second exchange, which observed the `true` the first one
stored.  Every call returns within two exchanges with the flag `true`, and the exchange that
ends the loop never observed `false`. -/
theorem lock_on_held_returns :
    SpinLock.lock 1 { p := true } = some { p := true } ∧
    SpinLock.lockObserved 1 { p := true } = some ([true], { p := true }) ∧
    SpinLock.lockObserved 2 { p := false } = some ([false, true], { p := true }) ∧
    (∀ (fuel : Nat) (l : SpinLock), SpinLock.lock (fuel + 2) l = some { p := true }) ∧
    ∀ (fuel : Nat) (l : SpinLock), ∃ obs, SpinLock.lockObserved (fuel + 2) l =
      some (obs, { p := true }) ∧ obs.getLast? = some true := by
  refine ⟨rfl, rfl, rfl, ?_, ?_⟩
  · intro fuel l
    obtain ⟨p⟩ := l
    cases p <;> cases fuel <;> rfl
  · intro fuel l
    obtain ⟨p⟩ := l
    cases p
    · exact ⟨[false, true], by cases fuel <;> rfl, rfl⟩
    · exact ⟨[true], by cases fuel <;> rfl, rfl⟩

/-- C13. The code of `add` against the claim that every store to a link happens under the lock:
`add` on a freshly constructed set stores to the `left` and then to the `right` link of the
sentinel (address `0`) with the lock flag `false`, before any lock guard; only the store of
`fixHeightAndRebalance` to the `right` link of the sentinel happens with the flag `true`.  On
the left-heavy example set, which is not empty, every store of `add(5)` (the attach, the six
stores of the rotation and the store to the sentinel) happens with the flag `true`. -/
theorem first_attach_unlocked :
    addStores exHash PTreeSet.new 30 =
      some [{ node := 0, held := false }, { node := 0, held := false },
        { node := 0, held := true }] ∧
    (add exHash PTreeSet.new 30).map Prod.snd = some true ∧
    addStores exHash lhSet 5 =
      some [{ node := 4, held := true }, { node := 1, held := true },
        { node := 2, held := true }, { node := 0, held := true }, { node := 2, held := true },
        { node := 1, held := true }, { node := 5, held := true },
        { node := 0, held := true }] := by
  refine ⟨by decide, by decide, by decide⟩

/-- C16. The retrace restores the balance bound: on every set reachable by `add`/`remove` calls,
when a pass of `add` attached a new node, the loop of `fixHeightAndRebalance` ends, and in each
of its rounds the balance factor read after `fixHeight` is between `-2` and `2`; when it is `-2`
or `2`, after the rotation the code applies the new root of the subtree (the parent of the
visited node) has two children, and the root and both children have a balance factor of `-1`,
`0` or `1`. -/
theorem retrace_balance {α : Type} (hash : α → CInt) (s : PTreeSet) (hs : Reachable hash s)
    (v : α) (s1 : PTreeSet) (node : Nat)
    (ha : addPass (hash v).val s = some (AddPass.attached s1 node)) :
    ∃ rs, fixHeightAndRebalanceRounds s1.rootHolder node s1.heap = some rs ∧
      fixHeightAndRebalanceLoop s1.rootHolder (hash v).val (2 * s1.heap.length + 2) s1.heap
        (some node) = some (lastStore s1.heap rs) ∧
      ∀ r ∈ rs, bf r.fixed r.node = some r.bal ∧ -2 ≤ r.bal ∧ r.bal ≤ 2 ∧
        rebalanceAt (hash v).val r.fixed r.node = some r.after ∧
        ((r.bal = -2 ∨ r.bal = 2) → r.rotatedBalanced = true) := by
  obtain ⟨t, ht⟩ := reachable_inv hs
  obtain ⟨hrh, _, rs, ers, ers', hall⟩ := add_rounds (toInt_toUnsigned (hash v)) ht ha
  refine ⟨rs, ers, ?_, ?_⟩
  · rw [loop_rounds, hrh, ers']; rfl
  · intro r hr
    obtain ⟨_, hb, hreb⟩ := retraceRounds_mem _ _ _ _ _ _ ers' r hr
    obtain ⟨b1, b2, hrot⟩ := hall r hr
    exact ⟨hb, b1, b2, hreb, hrot⟩

/-- Witness of C16: `add(5)` on the left-heavy example set, whose retrace rotates at the
root. -/
theorem retrace_balance_witness :
    Reachable exHash lhSet ∧
      addPass (exHash 5).val lhSet = some (AddPass.attached lhAttached 6) ∧
      ∃ rs, fixHeightAndRebalanceRounds lhAttached.rootHolder 6 lhAttached.heap = some rs ∧
        fixHeightAndRebalanceLoop lhAttached.rootHolder (exHash 5).val
          (2 * lhAttached.heap.length + 2) lhAttached.heap (some 6) =
            some (lastStore lhAttached.heap rs) ∧
        ∀ r ∈ rs, bf r.fixed r.node = some r.bal ∧ -2 ≤ r.bal ∧ r.bal ≤ 2 ∧
          rebalanceAt (exHash 5).val r.fixed r.node = some r.after ∧
          ((r.bal = -2 ∨ r.bal = 2) → r.rotatedBalanced = true) :=
  ⟨lhSet_reachable, lhAttached_pass,
    retrace_balance exHash lhSet lhSet_reachable 5 lhAttached 6 lhAttached_pass⟩

/-- C17, the claim as stated fails: in the fourth round of the retrace of `add(5)` on the
left-heavy example set the balance factor at the node of `40` is `2`, the key `5` is less than
the key `20` of the left child, and the code applies the single `rotateRight`, whose result
differs from that of `doubleRotateRight`. -/
theorem left_heavy_double_refuted :
    ((fixHeightAndRebalanceRounds lhAttached.rootHolder 6 lhAttached.heap).bind
        (fun rs => rs[3]?)).map (fun r => (r.node, r.fixed, r.bal)) = some (1, lhStore, 2) ∧
    bf lhStore 1 = some 2 ∧
    (lhStore[1]?).bind (fun n => n.left) = some 2 ∧
    (lhStore[2]?).map (fun n => n.key) = some 20 ∧
    (exHash 5).val < 20 ∧
    rebalanceAt (exHash 5).val lhStore 1 = rotateRight lhStore 1 ∧
    rebalanceAt (exHash 5).val lhStore 1 ≠ doubleRotateRight lhStore 1 := by
  refine ⟨by decide, by decide, by decide, by decide, by decide, by decide, by decide⟩

/-- C17, amended. When a round of the retrace of `add` reads a balance factor of `2` or more,
the visited node has a left child, and the code applies the single `rotateRight` when the
inserted key is less than the key of the left child, and `doubleRotateRight` otherwise: the
left child is rotated to the left when it has a right child, then the node is rotated to the
right. -/
theorem left_heavy_rotation {α : Type} (hash : α → CInt) (s : PTreeSet)
    (hs : Reachable hash s) (v : α) (s1 : PTreeSet) (node : Nat)
    (ha : addPass (hash v).val s = some (AddPass.attached s1 node)) :
    ∃ rs, fixHeightAndRebalanceRounds s1.rootHolder node s1.heap = some rs ∧
      ∀ r ∈ rs, 2 ≤ r.bal → ∃ n l ln, r.fixed[r.node]? = some n ∧ n.left = some l ∧
        r.fixed[l]? = some ln ∧
        ((hash v).val < ln.key → rotateRight r.fixed r.node = some r.after) ∧
        (¬ (hash v).val < ln.key → doubleRotateRight r.fixed r.node = some r.after ∧
          (ln.right ≠ none → ∃ m2, rotateLeft r.fixed l = some m2 ∧
            rotateRight m2 r.node = some r.after) ∧
          (ln.right = none → rotateRight r.fixed r.node = some r.after)) := by
  obtain ⟨t, ht⟩ := reachable_inv hs
  obtain ⟨hrh, _, rs, ers, ers', hall⟩ := add_rounds (toInt_toUnsigned (hash v)) ht ha
  refine ⟨rs, ers, ?_⟩
  intro r hr hb2
  obtain ⟨_, hb, hreb⟩ := retraceRounds_mem _ _ _ _ _ _ ers' r hr
  obtain ⟨n, l, ln, hn, hl, hln, e⟩ := rebalanceAt_left hb hb2 hreb
  refine ⟨n, l, ln, hn, hl, hln, ?_, ?_⟩
  · intro c
    rw [if_pos c] at e
    exact e
  · intro c
    rw [if_neg c] at e
    obtain ⟨n', l', ln', hn', hl', hln', h1, h2⟩ := doubleRotateRight_some e
    rw [hn] at hn'
    cases hn'
    rw [hl] at hl'
    cases hl'
    rw [hln] at hln'
    cases hln'
    exact ⟨e, h1, h2⟩

/-- Witness of C17 amended: `add(5)` on the left-heavy example set. -/
theorem left_heavy_rotation_witness :
    Reachable exHash lhSet ∧
      addPass (exHash 5).val lhSet = some (AddPass.attached lhAttached 6) ∧
      ∃ rs, fixHeightAndRebalanceRounds lhAttached.rootHolder 6 lhAttached.heap = some rs ∧
        ∀ r ∈ rs, 2 ≤ r.bal → ∃ n l ln, r.fixed[r.node]? = some n ∧ n.left = some l ∧
          r.fixed[l]? = some ln ∧
          ((exHash 5).val < ln.key → rotateRight r.fixed r.node = some r.after) ∧
          (¬ (exHash 5).val < ln.key → doubleRotateRight r.fixed r.node = some r.after ∧
            (ln.right ≠ none → ∃ m2, rotateLeft r.fixed l = some m2 ∧
              rotateRight m2 r.node = some r.after) ∧
            (ln.right = none → rotateRight r.fixed r.node = some r.after)) :=
  ⟨lhSet_reachable, lhAttached_pass,
    left_heavy_rotation exHash lhSet lhSet_reachable 5 lhAttached 6 lhAttached_pass⟩

/-- C20. No assertion of the insertion path fails and no null link is read through: on every
set reachable by `add`/`remove` calls, when a pass of `add` attached a new node, `add` returns
`true`, and in every round of the loop of `fixHeightAndRebalance` the visited node is not the
sentinel; when the balance factor is `-2` or less the right child exists, the rotation the code
chooses by the key of that child returns, and each node that is rotated (the visited node, and
before it the right child when `doubleRotateLeft` rotates it) has the child that the assertion
of the rotation asks for and a parent that is not null; the mirror statement holds when the
balance factor is `2` or more. -/
theorem retrace_safe {α : Type} (hash : α → CInt) (s : PTreeSet) (hs : Reachable hash s)
    (v : α) (s1 : PTreeSet) (node : Nat)
    (ha : addPass (hash v).val s = some (AddPass.attached s1 node)) :
    (∃ s2, add hash s v = some (s2, true)) ∧
    ∃ rs, fixHeightAndRebalanceRounds s1.rootHolder node s1.heap = some rs ∧
      ∀ r ∈ rs, r.node ≠ s1.rootHolder ∧
        (r.bal ≤ -2 → ∃ n c cn, r.fixed[r.node]? = some n ∧ n.right = some c ∧
          r.fixed[c]? = some cn ∧
          ((hash v).val > cn.key →
            rotateLeft r.fixed r.node = some r.after ∧ n.parent ≠ none) ∧
          (¬ (hash v).val > cn.key → doubleRotateLeft r.fixed r.node = some r.after ∧
            (cn.left = none → rotateLeft r.fixed r.node = some r.after ∧ n.parent ≠ none) ∧
            (cn.left ≠ none → ∃ m2 n2, rotateRight r.fixed c = some m2 ∧ cn.parent ≠ none ∧
              m2[r.node]? = some n2 ∧ n2.right ≠ none ∧ n2.parent ≠ none ∧
              rotateLeft m2 r.node = some r.after))) ∧
        (2 ≤ r.bal → ∃ n c cn, r.fixed[r.node]? = some n ∧ n.left = some c ∧
          r.fixed[c]? = some cn ∧
          ((hash v).val < cn.key →
            rotateRight r.fixed r.node = some r.after ∧ n.parent ≠ none) ∧
          (¬ (hash v).val < cn.key → doubleRotateRight r.fixed r.node = some r.after ∧
            (cn.right = none → rotateRight r.fixed r.node = some r.after ∧ n.parent ≠ none) ∧
            (cn.right ≠ none → ∃ m2 n2, rotateLeft r.fixed c = some m2 ∧ cn.parent ≠ none ∧
              m2[r.node]? = some n2 ∧ n2.left ≠ none ∧ n2.parent ≠ none ∧
              rotateRight m2 r.node = some r.after))) := by
  obtain ⟨t, ht⟩ := reachable_inv hs
  obtain ⟨hrh, _, rs, ers, ers', hall⟩ := add_rounds (toInt_toUnsigned (hash v)) ht ha
  obtain ⟨sa, T, ea, _⟩ := inv_add hash ht v
  refine ⟨?_, rs, ers, ?_⟩
  · unfold add at ea ⊢
    simp only [addLoop, ha] at ea ⊢
    cases hg : lockGuard s1 (fixHeightAndRebalance s1.rootHolder node) with
    | none => simp [hg] at ea
    | some p => exact ⟨p.1, rfl⟩
  · intro r hr
    obtain ⟨hne, hb, hreb⟩ := retraceRounds_mem _ _ _ _ _ _ ers' r hr
    refine ⟨by rw [hrh]; exact hne, ?_, ?_⟩
    · intro hle
      obtain ⟨n, c, cn, hn, hc, hcn, e⟩ := rebalanceAt_right hb hle hreb
      refine ⟨n, c, cn, hn, hc, hcn, ?_, ?_⟩
      · intro cgt
        rw [if_pos cgt] at e
        obtain ⟨n1, _, _, p, hn1, _, _, hp⟩ := rotateLeft_some e
        rw [hn] at hn1
        cases hn1
        exact ⟨e, by simp [hp]⟩
      · intro cgt
        rw [if_neg cgt] at e
        obtain ⟨n1, c1, cn1, hn1, hc1, hcn1, h1, h2⟩ := doubleRotateLeft_some e
        rw [hn] at hn1
        cases hn1
        rw [hc] at hc1
        cases hc1
        rw [hcn] at hcn1
        cases hcn1
        refine ⟨e, ?_, ?_⟩
        · intro hnone
          have e1 := h2 hnone
          obtain ⟨n1, _, _, p, hn1, _, _, hp⟩ := rotateLeft_some e1
          rw [hn] at hn1
          cases hn1
          exact ⟨e1, by simp [hp]⟩
        · intro hsome
          obtain ⟨m2, e1, e2⟩ := h1 hsome
          obtain ⟨n1, _, _, p, hn1, _, _, hp⟩ := rotateRight_some e1
          rw [hcn] at hn1
          cases hn1
          obtain ⟨n2, c2, _, p2, hn2, hc2, _, hp2⟩ := rotateLeft_some e2
          exact ⟨m2, n2, e1, by simp [hp], hn2, by simp [hc2], by simp [hp2], e2⟩
    · intro hge
      obtain ⟨n, c, cn, hn, hc, hcn, e⟩ := rebalanceAt_left hb hge hreb
      refine ⟨n, c, cn, hn, hc, hcn, ?_, ?_⟩
      · intro clt
        rw [if_pos clt] at e
        obtain ⟨n1, _, _, p, hn1, _, _, hp⟩ := rotateRight_some e
        rw [hn] at hn1
        cases hn1
        exact ⟨e, by simp [hp]⟩
      · intro clt
        rw [if_neg clt] at e
        obtain ⟨n1, c1, cn1, hn1, hc1, hcn1, h1, h2⟩ := doubleRotateRight_some e
        rw [hn] at hn1
        cases hn1
        rw [hc] at hc1
        cases hc1
        rw [hcn] at hcn1
        cases hcn1
        refine ⟨e, ?_, ?_⟩
        · intro hnone
          have e1 := h2 hnone
          obtain ⟨n1, _, _, p, hn1, _, _, hp⟩ := rotateRight_some e1
          rw [hn] at hn1
          cases hn1
          exact ⟨e1, by simp [hp]⟩
        · intro hsome
          obtain ⟨m2, e1, e2⟩ := h1 hsome
          obtain ⟨n1, _, _, p, hn1, _, _, hp⟩ := rotateLeft_some e1
          rw [hcn] at hn1
          cases hn1
          obtain ⟨n2, c2, _, p2, hn2, hc2, _, hp2⟩ := rotateRight_some e2
          exact ⟨m2, n2, e1, by simp [hp], hn2, by simp [hc2], by simp [hp2], e2⟩

/-- Witness of C20: `add(5)` on the left-heavy example set. -/
theorem retrace_safe_witness :
    Reachable exHash lhSet ∧
      addPass (exHash 5).val lhSet = some (AddPass.attached lhAttached 6) ∧
      (∃ s2, add exHash lhSet 5 = some (s2, true)) ∧
      ∃ rs, fixHeightAndRebalanceRounds lhAttached.rootHolder 6 lhAttached.heap = some rs ∧
        ∀ r ∈ rs, r.node ≠ lhAttached.rootHolder ∧
          (r.bal ≤ -2 → ∃ n c cn, r.fixed[r.node]? = some n ∧ n.right = some c ∧
            r.fixed[c]? = some cn ∧
            ((exHash 5).val > cn.key →
              rotateLeft r.fixed r.node = some r.after ∧ n.parent ≠ none) ∧
            (¬ (exHash 5).val > cn.key → doubleRotateLeft r.fixed r.node = some r.after ∧
              (cn.left = none → rotateLeft r.fixed r.node = some r.after ∧ n.parent ≠ none) ∧
              (cn.left ≠ none → ∃ m2 n2, rotateRight r.fixed c = some m2 ∧ cn.parent ≠ none ∧
                m2[r.node]? = some n2 ∧ n2.right ≠ none ∧ n2.parent ≠ none ∧
                rotateLeft m2 r.node = some r.after))) ∧
          (2 ≤ r.bal → ∃ n c cn, r.fixed[r.node]? = some n ∧ n.left = some c ∧
            r.fixed[c]? = some cn ∧
            ((exHash 5).val < cn.key →
              rotateRight r.fixed r.node = some r.after ∧ n.parent ≠ none) ∧
            (¬ (exHash 5).val < cn.key → doubleRotateRight r.fixed r.node = some r.after ∧
              (cn.right = none → rotateRight r.fixed r.node = some r.after ∧ n.parent ≠ none) ∧
              (cn.right ≠ none → ∃ m2 n2, rotateLeft r.fixed c = some m2 ∧ cn.parent ≠ none ∧
                m2[r.node]? = some n2 ∧ n2.left ≠ none ∧ n2.parent ≠ none ∧
                rotateRight m2 r.node = some r.after))) :=
  ⟨lhSet_reachable, lhAttached_pass,
    retrace_safe exHash lhSet lhSet_reachable 5 lhAttached 6 lhAttached_pass⟩

/-- C18. Cached heights are exact: in every set reachable by `add`/`remove` calls, the `height`
field of every node of the tree under the sentinel is the height of its subtree under the
convention of `fixHeight`: `0` for a leaf, otherwise the maximum over the children that exist of
one more than the height of the child. -/
theorem cached_heights_exact {α : Type} (hash : α → CInt) (s : PTreeSet)
    (hs : Reachable hash s) :
    ∃ nodes, inorder s = some nodes ∧
      ∀ n ∈ nodes, trueHeight s.heap s.heap.length n = some n.height := by
  obtain ⟨t, ht⟩ := reachable_inv hs
  refine ⟨_, ht.inorder, ?_⟩
  obtain ⟨_, _, _, hr, _, hlen, _, hg⟩ := ht
  exact trueHeight_repr t (some 0) s.heap.length hr hg (by omega)

/-- Witness of C18: the example set, whose nodes were moved by a single and by a double
rotation. -/
theorem cached_heights_exact_witness :
    Reachable exHash exSet ∧
      ∃ nodes, inorder exSet = some nodes ∧
        ∀ n ∈ nodes, trueHeight exSet.heap exSet.heap.length n = some n.height :=
  ⟨exSet_reachable, cached_heights_exact exHash exSet exSet_reachable⟩

/-- C19. Logarithmic height: in every set reachable by `add`/`remove` calls, if the tree under
the sentinel has `n` nodes and its longest path from the root to a leaf has `H` nodes, then
`fib (H + 2) ≤ n + 1`, hence `2 ^ H ≤ (n + 1) ^ 2` and `H ≤ 2 * logb 2 (n + 1)`; and the loops
of `contains`, `remove` and `add`, which compare the key with one node in each round, return
within `H` rounds with the results of the functions. -/
theorem logarithmic_height {α : Type} (hash : α → CInt) (s : PTreeSet)
    (hs : Reachable hash s) :
    ∃ (rh : Node) (nodes : List Node) (H : Nat), s.heap[s.rootHolder]? = some rh ∧
      inorder s = some nodes ∧ heightFrom s.heap s.heap.length rh.left = some (H : Int) ∧
      Nat.fib (H + 2) ≤ nodes.length + 1 ∧ 2 ^ H ≤ (nodes.length + 1) ^ 2 ∧
      (H : ℝ) ≤ 2 * Real.logb 2 ((nodes.length : ℝ) + 1) ∧
      ∀ v : α,
        (∃ b, containsLoop s.heap (hash v).val H rh.left = some b ∧
          contains hash s v = some b) ∧
        (∃ m b, removeLoop s.heap (hash v).val H rh.left = some (m, b) ∧
          remove hash s v = some ({ s with heap := m }, b)) ∧
        ∀ root, rh.left = some root →
          ∃ r, addDescend (hash v).val H s root = some r ∧
            addPass (hash v).val s = some r := by
  obtain ⟨t, ht⟩ := reachable_inv hs
  have hin := ht.inorder
  obtain ⟨H, eH⟩ := Int.eq_ofNat_of_zero_le t.ht_nonneg
  have hfib := fib_le_size t H ht.good eH
  have hpow : 2 ^ H ≤ (t.size + 1) ^ 2 :=
    le_trans (two_pow_le_fib_sq H) (Nat.pow_le_pow_left hfib 2)
  have hsz := t.ht_le_size
  have hinv := ht
  obtain ⟨hrh, hlk, h0, hr, hnd, hlen, hb, hg⟩ := ht
  refine ⟨_, _, H, by rw [hrh]; exact h0, hin, ?_, ?_, ?_, ?_, ?_⟩
  · rw [← eH]; exact heightFrom_repr hr _ (by omega)
  · rw [Tree.length_nodes]; exact hfib
  · rw [Tree.length_nodes]; exact hpow
  · rw [Tree.length_nodes]; exact le_two_logb hpow
  · intro v
    refine ⟨⟨_, containsLoop_height _ hr H (by omega), hinv.contains hash v⟩, ?_, ?_⟩
    · obtain ⟨s1, e1, _⟩ := inv_remove hash hinv v
      simp only [remove, hrh, h0] at e1
      show ∃ m b, removeLoop s.heap (hash v).val H t.ptr = some (m, b) ∧ _
      rw [removeLoop_height (hash v).val hr H s.heap.length (by omega) (by omega)]
      cases hrem : removeLoop s.heap (hash v).val s.heap.length t.ptr with
      | none => simp [hrem] at e1
      | some q =>
        obtain ⟨m, b⟩ := q
        exact ⟨m, b, rfl, by simp [remove, hrh, h0, hrem]⟩
    · intro root hroot
      obtain ⟨r, er, _⟩ := addPass_not_retry (toInt_toUnsigned (hash v)) hinv
      have hroot' : t.ptr = some root := hroot
      refine ⟨r, ?_, er⟩
      rw [addDescend_height (hash v).val s hr root H s.heap.length hroot' (by omega) (by omega)]
      simpa [addPass, hrh, h0, hroot'] using er

/-- Witness of C19: the example set, with five nodes and height three. -/
theorem logarithmic_height_witness :
    Reachable exHash exSet ∧
      ∃ (rh : Node) (nodes : List Node) (H : Nat), exSet.heap[exSet.rootHolder]? = some rh ∧
        inorder exSet = some nodes ∧
        heightFrom exSet.heap exSet.heap.length rh.left = some (H : Int) ∧
        Nat.fib (H + 2) ≤ nodes.length + 1 ∧ 2 ^ H ≤ (nodes.length + 1) ^ 2 ∧
        (H : ℝ) ≤ 2 * Real.logb 2 ((nodes.length : ℝ) + 1) ∧
        ∀ v : Nat,
          (∃ b, containsLoop exSet.heap (exHash v).val H rh.left = some b ∧
            contains exHash exSet v = some b) ∧
          (∃ m b, removeLoop exSet.heap (exHash v).val H rh.left = some (m, b) ∧
            remove exHash exSet v = some ({ exSet with heap := m }, b)) ∧
          ∀ root, rh.left = some root →
            ∃ r, addDescend (exHash v).val H exSet root = some r ∧
              addPass (exHash v).val exSet = some r :=
  ⟨exSet_reachable, logarithmic_height exHash exSet exSet_reachable⟩

/-- C15. Rotations preserve the ordering: when the store holds a tree with consistent links
under the sentinel and `n` is a node of it (at address `a`, with subtrees `l` and `r`, at the
position `ctx`), then `rotateLeft` and `doubleRotateLeft` at `n` return when the right child
exists, `rotateRight` and `doubleRotateRight` at `n` return when the left child exists, and the
store afterwards again holds a tree with consistent links whose `(key, has_value)` pairs in
order are those of before, so the keys in order stay strictly increasing when they were.  After
`rotateLeft` the old right child is the root of the subtree at the position of `n`, with `n` as
its left child, and its former left subtree is the right subtree of `n`; `rotateRight` is the
mirror. -/
theorem rotations_preserve_order (m : Store) (ctx : List Frame) (l r : Tree) (a : Nat)
    (k : Int) (v : Bool) (h : Int) (hz : ReprZ m ctx (Tree.node l a k v h r)) :
    ∃ ps, inorderPairs m = some ps ∧
      (∀ rl ra rk rv rh rr, r = Tree.node rl ra rk rv rh rr →
        (∃ m1 h1 h2, rotateLeft m a = some m1 ∧
          ReprZ m1 ctx (Tree.node (Tree.node l a k v h1 rl) ra rk rv h2 rr) ∧
          inorderPairs m1 = some ps) ∧
        ∃ m1 t1, doubleRotateLeft m a = some m1 ∧ ReprZ m1 ctx t1 ∧
          inorderPairs m1 = some ps) ∧
      (∀ ll la lk lv lh lr, l = Tree.node ll la lk lv lh lr →
        (∃ m1 h1 h2, rotateRight m a = some m1 ∧
          ReprZ m1 ctx (Tree.node ll la lk lv h2 (Tree.node lr a k v h1 r)) ∧
          inorderPairs m1 = some ps) ∧
        ∃ m1 t1, doubleRotateRight m a = some m1 ∧ ReprZ m1 ctx t1 ∧
          inorderPairs m1 = some ps) := by
  refine ⟨_, inorderPairs_reprZ hz, ?_, ?_⟩
  · rintro rl ra rk rv rh rr rfl
    constructor
    · have ht : (Tree.node l a k v h (Tree.node rl ra rk rv rh rr)).rotateLeft = some _ := rfl
      obtain ⟨m1, e, _, hz1, _⟩ := rotateLeft_repr hz rfl ht
      refine ⟨m1, _, _, e, hz1, ?_⟩
      rw [inorderPairs_reprZ hz1, ← Tree.rotateLeft_pairs ht]
    · obtain ⟨t1, ht, hp⟩ := Tree.doubleRotateLeft_total l a k v h rl ra rk rv rh rr
      obtain ⟨m1, e, _, hz1, _⟩ := doubleRotateLeft_repr hz rfl ht
      exact ⟨m1, t1, e, hz1, by rw [inorderPairs_reprZ hz1, hp]⟩
  · rintro ll la lk lv lh lr rfl
    constructor
    · have ht : (Tree.node (Tree.node ll la lk lv lh lr) a k v h r).rotateRight = some _ := rfl
      obtain ⟨m1, e, _, hz1, _⟩ := rotateRight_repr hz rfl ht
      refine ⟨m1, _, _, e, hz1, ?_⟩
      rw [inorderPairs_reprZ hz1, ← Tree.rotateRight_pairs ht]
    · obtain ⟨t1, ht, hp⟩ := Tree.doubleRotateRight_total ll la lk lv lh lr a k v h r
      obtain ⟨m1, e, _, hz1, _⟩ := doubleRotateRight_repr hz rfl ht
      exact ⟨m1, t1, e, hz1, by rw [inorderPairs_reprZ hz1, hp]⟩

/-- Witness of C15: the node of `20` in the store `lhStore`, which has both children. -/
theorem rotations_preserve_order_witness :
    ReprZ lhStore lhCtx (Tree.node lhLeft 2 20 true 2 lhRight) ∧
      ∃ ps, inorderPairs lhStore = some ps ∧
        (∀ rl ra rk rv rh rr, lhRight = Tree.node rl ra rk rv rh rr →
          (∃ m1 h1 h2, rotateLeft lhStore 2 = some m1 ∧
            ReprZ m1 lhCtx (Tree.node (Tree.node lhLeft 2 20 true h1 rl) ra rk rv h2 rr) ∧
            inorderPairs m1 = some ps) ∧
          ∃ m1 t1, doubleRotateLeft lhStore 2 = some m1 ∧ ReprZ m1 lhCtx t1 ∧
            inorderPairs m1 = some ps) ∧
        (∀ ll la lk lv lh lr, lhLeft = Tree.node ll la lk lv lh lr →
          (∃ m1 h1 h2, rotateRight lhStore 2 = some m1 ∧
            ReprZ m1 lhCtx (Tree.node ll la lk lv h2 (Tree.node lr 2 20 true h1 lhRight)) ∧
            inorderPairs m1 = some ps) ∧
          ∃ m1 t1, doubleRotateRight lhStore 2 = some m1 ∧ ReprZ m1 lhCtx t1 ∧
            inorderPairs m1 = some ps) :=
  ⟨lhStore_repr, rotations_preserve_order lhStore lhCtx lhLeft lhRight 2 20 true 2 lhStore_repr⟩

end pavltree
